import Mathlib

/-
Verification of the schema resolution engine of `bin/generator.py`
(k8s model generator).

The embedding is a faithful functional translation of the `Parser` class
and its helpers.  Python's mutable object graph is represented by a
`ParserState` holding three insertion-ordered association lists (the
`_packages`, `_modules` and `_models` dicts); object identity is
represented by the unique reference string each Package/Module/Model is
keyed on (the code itself keys every registry on those strings, and every
`Field.type`/`Import` link is recoverable from the registry by that key).
Python exceptions (ValueError from tuple unpacking in `_split_ref` call
sites, KeyError in `_get_model`) are represented by an `Except` error
channel using the spec's error taxonomy names.
-/

namespace K8sGen

/-! ### String utilities (`_split_ref`, `_make_ref`, `Child.parent_ref`) -/

/-- Hyphen normalization done by `_split_ref`: `s.replace("-", "_")`. -/
def normChar (c : Char) : Char := if c = '-' then '_' else c

/-- Split a character list at its LAST `'.'`: returns `(before, after)`
with the dot removed, or `none` when the list has no dot.  This is the
building block of Python's `rsplit(".", n)`. -/
def lastSplit : List Char → Option (List Char × List Char)
  | [] => none
  | c :: cs =>
    match lastSplit cs with
    | some p => some (c :: p.1, p.2)
    | none => if c = '.' then some ([], cs) else none

/-- Python `s.rsplit(".", 2)`: split from the right at most twice. -/
def rsplit2 (s : List Char) : List (List Char) :=
  match lastSplit s with
  | none => [s]
  | some p =>
    match lastSplit p.1 with
    | none => [p.1, p.2]
    | some q => [q.1, q.2, p.2]

/-- `_split_ref(s)`: normalize hyphens to underscores, then
`rsplit(".", 2)`. -/
def splitRef (s : String) : List String :=
  (rsplit2 (s.data.map normChar)).map (fun l => ⟨l⟩)

/-- Errors of the run, named after the spec's taxonomy.
`malformedIdentifier` is the ValueError raised by the 3-tuple unpacking of
a `_split_ref` result with fewer than 3 components; `unresolvedReference`
is the KeyError raised by `self._models[ref]` in `_get_model` (its payload
is exactly the missing key, nothing else). -/
inductive GenError where
  | malformedIdentifier : String → GenError
  | unresolvedReference : String → GenError
deriving DecidableEq, Repr

/-- The call-site pattern `a, b, c = _split_ref(s)`: succeeds only when the
split yields exactly three components. -/
def splitRef3 (s : String) : Except GenError (String × String × String) :=
  match splitRef s with
  | [a, b, c] => .ok (a, b, c)
  | _ => .error (.malformedIdentifier s)

/-- Python string slicing `s[n:]` (by code points, as Python does). -/
def dropChars (s : String) (n : Nat) : String := ⟨s.data.drop n⟩

/-- `_make_ref(*args)`: `".".join(args)`. -/
def makeRef : List String → String
  | [] => ""
  | [x] => x
  | x :: xs => x ++ "." ++ makeRef xs

/-- `Child.parent_ref`: `self.ref.rsplit(".", 1)[0]`. -/
def parentRef (r : String) : String :=
  match lastSplit r.data with
  | some p => ⟨p.1⟩
  | none => r

/-! ### Type mapper (`TYPE_MAPPING`, `Primitive.__init__`) -/

def TYPE_MAPPING : List (String × String) :=
  [("integer", "int"), ("float", "float"), ("number", "float"),
   ("long", "int"), ("double", "float"), ("array", "list"),
   ("map", "dict"), ("boolean", "bool"), ("string", "six.text_type"),
   ("date", "date"), ("DateTime", "datetime"), ("object", "dict"),
   ("file", "file"), ("binary", "bytes"), ("ByteArray", "bytes"),
   ("UUID", "str")]

/-- `Primitive.__init__`: `TYPE_MAPPING.get(type, type)`.  The argument is
`field.type`, which is `property.get("type")` and hence may be Python
`None` (`Option.none` here); `dict.get(None, None)` is `None`. -/
def mapType : Option String → Option String
  | none => none
  | some t =>
    match TYPE_MAPPING.lookup t with
    | some m => some m
    | none => some t

/-! ### Data model -/

structure GVK where
  group : String
  version : String
  kind : String
deriving DecidableEq, Repr

/-- The `type` slot of a `Field`.  It starts as the raw marker
(`property.get("type")`, a string or None) and is replaced during
resolution by a `Primitive` descriptor or by a reference to a `Model`
(identified by its registry key, which is what Python object identity is
for the ref-keyed registries). -/
inductive TypeSlot where
  | raw : Option String → TypeSlot
  | primitive : Option String → TypeSlot
  | modelRef : String → TypeSlot
deriving DecidableEq, Repr

/-- `Field = namedtuple("Field", ("name", "description", "type", "ref"))`.
`ref` keeps the raw `$ref` string even after resolution (only the `type`
slot is `_replace`d). -/
structure Field where
  name : String
  description : String
  type : TypeSlot
  ref : Option String
deriving DecidableEq, Repr

structure Definition where
  name : String
  description : String
  fields : List Field
  gvks : List GVK
deriving DecidableEq, Repr

structure Model where
  ref : String
  definition : Definition
deriving DecidableEq, Repr

/-- `Import = namedtuple("Import", ("module", "models"))`: the target
Module and the referenced Models, both by registry key. -/
structure Import where
  module : String
  models : List String
deriving DecidableEq, Repr

/-- `Module = namedtuple("Module", ("ref", "name", "imports", "models"))`;
`imports` and `models` hold registry keys. -/
structure Module where
  ref : String
  name : String
  imports : List Import
  models : List String
deriving DecidableEq, Repr

/-- `Package = namedtuple("Package", ("ref", "modules"))`. -/
structure Package where
  ref : String
  modules : List String
deriving DecidableEq, Repr

/-- The `Parser` object's three registries (`self._packages`,
`self._modules`, `self._models`), as insertion-ordered association lists —
exactly the ordered-dict semantics Python 3.7+ gives them. -/
structure ParserState where
  packages : List (String × Package)
  modules : List (String × Module)
  models : List (String × Model)
deriving DecidableEq, Repr

/-! ### Association-list primitives (Python dict operations) -/

/-- Python `d[k]` lookup (as an `Option`). -/
def alookup {β : Type} : List (String × β) → String → Option β
  | [], _ => none
  | kv :: rest, r => if kv.1 = r then some kv.2 else alookup rest r

/-- Python `d[k] = v`: overwrite in place if the key exists (keeping its
position), else append — ordered-dict assignment semantics. -/
def aupdate {β : Type} : List (String × β) → String → β → List (String × β)
  | [], k, v => [(k, v)]
  | kv :: rest, k, v =>
    if kv.1 = k then (k, v) :: rest else kv :: aupdate rest k v

/-- Python `list(d)` / iteration over keys. -/
def akeys {β : Type} (l : List (String × β)) : List String := l.map Prod.fst

/-! ### Raw input (the deserialized `spec["definitions"]` tree) -/

/-- One entry of a definition's `properties` mapping:
`{description, type, $ref}` (each optional in the JSON; `get` returns
`""`/None respectively). -/
structure RawProperty where
  description : String
  type : Option String
  ref : Option String
deriving DecidableEq, Repr

/-- One raw definition: description, ordered `properties` mapping, and the
`x-kubernetes-group-version-kind` list. -/
structure RawDefinition where
  description : String
  properties : List (String × RawProperty)
  gvks : List GVK
deriving DecidableEq, Repr

/-! ### Build phase (`_parse_models`, `_get_package`, `_get_module`) -/

/-- `Parser._get_package`: memoized lazy creation keyed on the package
reference. -/
def getPackage (st : ParserState) (pref : String) : ParserState × Package :=
  match alookup st.packages pref with
  | some p => (st, p)
  | none =>
    let p : Package := ⟨pref, []⟩
    ({ st with packages := aupdate st.packages pref p }, p)

/-- `Parser._get_module`: memoized lazy creation keyed on
`_make_ref(package.ref, module_name)`; on creation the module is also
appended to `package.modules` (an in-place mutation of the registered
package, rendered here as a registry write-back). -/
def getModule (st : ParserState) (pkg : Package) (moduleName : String) :
    ParserState × Module :=
  let ref := makeRef [pkg.ref, moduleName]
  match alookup st.modules ref with
  | some m => (st, m)
  | none =>
    let m : Module := ⟨ref, moduleName, [], []⟩
    let pkg' : Package := { pkg with modules := pkg.modules ++ [ref] }
    ({ st with modules := aupdate st.modules ref m,
               packages := aupdate st.packages pkg.ref pkg' }, m)

/-- One iteration of the `_parse_models` loop: split the identifier
(after the unconditional `id[len("io.k8s."):]` positional strip of 7
characters), get/create package and module, build the Model from the raw
definition, append it to its module and register it. -/
def parseOne (st : ParserState) (idItem : String × RawDefinition) :
    Except GenError ParserState :=
  match splitRef3 (dropChars idItem.1 7) with
  | .error e => .error e
  | .ok (pref, mname, dname) =>
    let p1 := getPackage st pref
    let p2 := getModule p1.1 p1.2 mname
    let fields := idItem.2.properties.map (fun fp =>
      Field.mk fp.1 fp.2.description (TypeSlot.raw fp.2.type) fp.2.ref)
    let defn := Definition.mk dname idItem.2.description fields idItem.2.gvks
    let model := Model.mk (makeRef [p1.2.ref, p2.2.name, dname]) defn
    let md' := { p2.2 with models := p2.2.models ++ [model.ref] }
    .ok { p2.1 with modules := aupdate p2.1.modules p2.2.ref md',
                    models := aupdate p2.1.models model.ref model }

/-- The `_parse_models` loop over `self._spec.items()` (input order). -/
def parseModelsFrom (st : ParserState) :
    List (String × RawDefinition) → Except GenError ParserState
  | [] => .ok st
  | x :: xs =>
    match parseOne st x with
    | .error e => .error e
    | .ok st' => parseModelsFrom st' xs

/-- `Parser._parse_models` starting from the empty registries of
`Parser.__init__`. -/
def parseModels (input : List (String × RawDefinition)) :
    Except GenError ParserState :=
  parseModelsFrom ⟨[], [], []⟩ input

/-! ### Resolve phase (`_resolve_references`, `_resolve_fields`,
`_resolve_ref`, `_get_model`) -/

/-- `Parser._get_model`: a bare `self._models[ref]` lookup; a missing key
raises `KeyError(ref)` — the error payload is exactly the (already
prefix-stripped, hyphen-normalized, re-joined) reference, nothing more. -/
def getModel (st : ParserState) (pkgRef modName defName : String) :
    Except GenError String :=
  let ref := makeRef [pkgRef, modName, defName]
  match alookup st.models ref with
  | some _ => .ok ref
  | none => .error (.unresolvedReference ref)

/-- `Parser._resolve_ref`: strip the 21-character
`"#/definitions/io.k8s."` positional prefix, split, get/create the target
package and module (a creation that persists even when the model lookup
below then fails), and look the model up in the registry. -/
def resolveRef (st : ParserState) (r : String) :
    ParserState × Except GenError String :=
  match splitRef3 (dropChars r 21) with
  | .error e => (st, .error e)
  | .ok (pref, mname, dname) =>
    let p1 := getPackage st pref
    let p2 := getModule p1.1 p1.2 mname
    (p2.1, getModel p2.1 p1.2.ref p2.2.name dname)

/-- The resolved replacement for a raw `type` slot on the primitive path
(`Primitive(field.type)`).  The non-`raw` cases are unreachable in the
pipeline (a definition's fields are resolved once; re-resolution could
only occur for duplicate-identifier inputs) and are kept as the identity.
-/
def primResolve : TypeSlot → TypeSlot
  | .raw t => .primitive (mapType t)
  | s => s

/-- One iteration of the `_resolve_fields` loop: `if field.ref:` (Python
truthiness — None and `""` are both falsy) picks the reference path,
otherwise the primitive path; the result is `field._replace(type=...)`. -/
def resolveField (st : ParserState) (f : Field) :
    ParserState × Except GenError Field :=
  match f.ref with
  | some r =>
    if r = "" then (st, .ok { f with type := primResolve f.type })
    else
      match resolveRef st r with
      | (st', .ok mref) => (st', .ok { f with type := TypeSlot.modelRef mref })
      | (st', .error e) => (st', .error e)
  | none => (st, .ok { f with type := primResolve f.type })

/-- `_resolve_fields`'s loop over `definition.fields`, building
`new_fields`; the first failing reference aborts (the Python exception
propagates before the final `definition.fields[:] = new_fields`
assignment). -/
def resolveFieldList (st : ParserState) :
    List Field → ParserState × Except GenError (List Field)
  | [] => (st, .ok [])
  | f :: fs =>
    match resolveField st f with
    | (st', .ok f') =>
      match resolveFieldList st' fs with
      | (st'', .ok fs') => (st'', .ok (f' :: fs'))
      | (st'', .error e) => (st'', .error e)
    | (st', .error e) => (st', .error e)

/-- The import-accumulation scan over one model's (freshly resolved)
fields, from the body of `_resolve_references`: for every field whose
type is a Model in a different parent module, ensure an `Import` entry
keyed on `ft.parent_ref` exists (created with the target module obtained
via `_split_ref`/`_get_package`/`_get_module`) and append the target
model to it unless already present. -/
def scanFields (st : ParserState) (imports : List (String × Import))
    (modelParent : String) :
    List Field → Except GenError (ParserState × List (String × Import))
  | [] => .ok (st, imports)
  | f :: fs =>
    match f.type with
    | TypeSlot.modelRef ftRef =>
      if parentRef ftRef = modelParent then scanFields st imports modelParent fs
      else
        match alookup imports (parentRef ftRef) with
        | some imp =>
          let imp' :=
            if ftRef ∈ imp.models then imp
            else { imp with models := imp.models ++ [ftRef] }
          scanFields st (aupdate imports (parentRef ftRef) imp') modelParent fs
        | none =>
          match splitRef3 ftRef with
          | .error e => .error e
          | .ok (pref, mname, _dname) =>
            let p1 := getPackage st pref
            let p2 := getModule p1.1 p1.2 mname
            let imp := Import.mk p2.2.ref [ftRef]
            scanFields p2.1 (imports ++ [(parentRef ftRef, imp)]) modelParent fs
    | _ => scanFields st imports modelParent fs

/-- Processing of one model inside a module's `_resolve_references`
iteration: resolve its fields (writing them back to the registered model —
the in-place `definition.fields[:] = new_fields`), then scan the resolved
fields for imports.  The `none` branch of the registry lookup is
unreachable for states built by `parseModels` (which registers every model
key it appends to a module). -/
def processModel (st : ParserState) (imports : List (String × Import))
    (mref : String) :
    Except GenError (ParserState × List (String × Import)) :=
  match alookup st.models mref with
  | none => .ok (st, imports)
  | some model =>
    match resolveFieldList st model.definition.fields with
    | (_, .error e) => .error e
    | (st', .ok newFields) =>
      let model' :=
        { model with definition := { model.definition with fields := newFields } }
      let st'' := { st' with models := aupdate st'.models mref model' }
      scanFields st'' imports (parentRef model.ref) newFields

/-- The inner loop of `_resolve_references` over `module.models`. -/
def processModels (st : ParserState) (imports : List (String × Import)) :
    List String → Except GenError (ParserState × List (String × Import))
  | [] => .ok (st, imports)
  | mref :: rest =>
    match processModel st imports mref with
    | .error e => .error e
    | .ok p => processModels p.1 p.2 rest

/-- One module's `_resolve_references` iteration; at the end
`module.imports[:] = imports.values()` (insertion order of the first
occurrence of each parent ref). -/
def resolveModule (st : ParserState) (modRef : String) :
    Except GenError ParserState :=
  match alookup st.modules modRef with
  | none => .ok st
  | some md =>
    match processModels st [] md.models with
    | .error e => .error e
    | .ok p =>
      match alookup p.1.modules modRef with
      | none => .ok p.1
      | some md' =>
        .ok { p.1 with
              modules := aupdate p.1.modules modRef
                { md' with imports := p.2.map Prod.snd } }

/-- The loop of `_resolve_references` over `self._modules.values()`.  The
iteration is over a snapshot of the module keys taken at phase start: in
Python, any module/package created mid-phase (by `_resolve_ref` on a
reference into a never-built module) is immediately followed by the
`KeyError` of `_get_model`, which aborts before the dict-changed-during-
iteration condition could be observed, so the snapshot is equivalent. -/
def resolveModules (st : ParserState) :
    List String → Except GenError ParserState
  | [] => .ok st
  | r :: rs =>
    match resolveModule st r with
    | .error e => .error e
    | .ok st' => resolveModules st' rs

/-- `Parser._resolve_references`. -/
def resolveReferences (st : ParserState) : Except GenError ParserState :=
  resolveModules st (akeys st.modules)

/-! ### Sort phase (`_sort`, `_sort_models`)

`_sort_models` runs Kahn's algorithm over the module's models.  The nodes
dict is keyed on model refs; `Node.model` is recoverable from the key, a
node's `dependencies` list is a list of refs, and the (never-mutated)
`dependants` lists are recomputed on demand from the initially built
graph.  The Python `while top_nodes:` loop is rendered with a fuel
parameter; `sortModels` passes fuel that provably cannot run out (every
iteration strictly decreases total-remaining-dependencies + stack size,
see `kahnGo_measure` below). -/

/-- Same-module dependency refs of one model, in field order: the edges
`_sort_models` adds (`isinstance(field.type, Model) and
field.type.parent_ref == model.parent_ref`). -/
def sameModuleDeps (modelRef : String) (fields : List Field) : List String :=
  fields.filterMap (fun f =>
    match f.type with
    | TypeSlot.modelRef r =>
      if parentRef r = parentRef modelRef then some r else none
    | _ => none)

/-- The `(model, its same-module deps)` pairs `_sort_models` consumes for
one module, looked up from the registry (the `none` branch is unreachable
for pipeline states). -/
def modelDepPairs (st : ParserState) (models : List String) :
    List (String × List String) :=
  models.map (fun mref =>
    (mref,
     match alookup st.models mref with
     | some m => sameModuleDeps m.ref m.definition.fields
     | none => []))

/-- `nodes.setdefault(ref, Node(model, [], []))`. -/
def setdefaultNode (nodes : List (String × List String)) (r : String) :
    List (String × List String) :=
  if (akeys nodes).contains r then nodes else nodes ++ [(r, [])]

/-- `node.dependencies.append(dep)` for the node keyed `r`. -/
def addDep (nodes : List (String × List String)) (r d : String) :
    List (String × List String) :=
  nodes.map (fun kv => if kv.1 = r then (kv.1, kv.2 ++ [d]) else kv)

/-- The node-graph construction loop of `_sort_models`: for each model,
`setdefault` its node, then for each same-module dependency `setdefault`
the dep's node and append the edge. -/
def buildNodes (pairs : List (String × List String)) :
    List (String × List String) :=
  pairs.foldl
    (fun nodes pr =>
      pr.2.foldl (fun ns d => addDep (setdefaultNode ns d) pr.1 d)
        (setdefaultNode nodes pr.1))
    []

/-- The `dependants` list of node `x`, as built by the second pass of
`_sort_models` (`for node in nodes.values(): for dep in node.dependencies:
dep.dependants.append(node)`): one occurrence of `kv.1` per occurrence of
`x` in `kv.2`, in node order. -/
def dependantsOf : List (String × List String) → String → List String
  | [], _ => []
  | kv :: rest, x =>
    (kv.2.filter (fun d => d == x)).map (fun _ => kv.1) ++ dependantsOf rest x

/-- `dep.dependencies.remove(top_node)` followed by the
`len(dep.dependencies) == 0` readiness test.  The returned Bool says
whether `d` must be pushed.  In Python a `remove` on a list not containing
`top` would raise ValueError; that situation is unreachable (the
`dependants` lists are derived from exactly the same edges as the
`dependencies` lists), and this rendering makes it a no-op push-less
step. -/
def eraseDep (deps : List (String × List String)) (d top : String) :
    List (String × List String) × Bool :=
  match alookup deps d with
  | none => (deps, false)
  | some ds =>
    if top ∈ ds then
      let ds' := ds.erase top
      (aupdate deps d ds', ds'.isEmpty)
    else (deps, false)

/-- Processing of `top_node.dependants` inside one loop iteration.  The
stack is kept top-first (Python appends to and pops from the list's end;
here push is cons). -/
def processDependants (top : String) :
    List (String × List String) → List String → List String →
    List (String × List String) × List String
  | deps, stack, [] => (deps, stack)
  | deps, stack, d :: ds =>
    let p := eraseDep deps d top
    processDependants top p.1 (if p.2 then d :: stack else stack) ds

/-- The `while top_nodes:` loop.  `nodes0` is the initially built graph
(used for the fixed `dependants` lists), `deps` the current remaining
dependency lists, the stack is top-first, and `emitted` accumulates
`models.append(top_node.model)`.  Fuel exhaustion is unreachable for the
fuel chosen in `sortModels`. -/
def kahnGo (nodes0 : List (String × List String)) :
    Nat → List (String × List String) → List String → List String →
    List String
  | 0, _, _, emitted => emitted
  | _ + 1, _, [], emitted => emitted
  | n + 1, deps, top :: stack, emitted =>
    let p := processDependants top deps stack (dependantsOf nodes0 top)
    kahnGo nodes0 n p.1 p.2 (emitted ++ [top])

/-- Total remaining dependency count (the loop-variant component). -/
def totalDeps (nodes : List (String × List String)) : Nat :=
  (nodes.map (fun kv => kv.2.length)).sum

/-- `Parser._sort_models` on `(model ref, same-module deps)` pairs:
build the graph, take the initially dependency-free nodes as the stack
(`top_nodes`, reversed here because Python pops from the end), and run
the loop. -/
def sortModels (pairs : List (String × List String)) : List String :=
  let nodes0 := buildNodes pairs
  let stack0 := ((nodes0.filter (fun kv => kv.2.isEmpty)).map Prod.fst).reverse
  kahnGo nodes0 (totalDeps nodes0 + stack0.length + 1) nodes0 stack0 []

/-- Stable insertion of `x` before the first `y` with `le x y`. -/
def sinsert {α : Type} (le : α → α → Bool) (x : α) : List α → List α
  | [] => [x]
  | y :: ys => if le x y then x :: y :: ys else y :: sinsert le x ys

/-- A stable ascending sort (insertion sort).  Python's `list.sort` /
`sorted` are also stable ascending sorts, and a stable sort's output is
determined by the (total pre)order and the input, so this computes exactly
the list Python produces. -/
def pySort {α : Type} (le : α → α → Bool) : List α → List α
  | [] => []
  | x :: xs => sinsert le x (pySort le xs)

/-- `module.imports.sort(key=lambda i: i.module.ref)`: Python's stable
ascending sort by the target module reference. -/
def sortImports (l : List Import) : List Import :=
  pySort (fun a b => a.module ≤ b.module) l

/-- One module's `_sort` body: sort its imports, replace its model list by
the Kahn output. -/
def sortModule (st : ParserState) (modRef : String) : ParserState :=
  match alookup st.modules modRef with
  | none => st
  | some md =>
    { st with
      modules := aupdate st.modules modRef
        { md with imports := sortImports md.imports,
                  models := sortModels (modelDepPairs st md.models) } }

/-- `Parser._sort`: for every package (registry order), for every module
of the package. -/
def sortPhase (st : ParserState) : ParserState :=
  st.packages.foldl (fun acc kv => kv.2.modules.foldl sortModule acc) st

/-- `Parser.parse`: build, resolve, sort.  The returned state's
`packages` field is the `self._packages.values()` result. -/
def parse (input : List (String × RawDefinition)) :
    Except GenError ParserState :=
  match parseModels input with
  | .error e => .error e
  | .ok st =>
    match resolveReferences st with
    | .error e => .error e
    | .ok st' => .ok (sortPhase st')

/-- `Import.names`: `sorted(m.definition.name for m in self.models)`,
with the model names read back from the registry. -/
def importNames (st : ParserState) (imp : Import) : List String :=
  pySort (fun a b => a ≤ b)
    (imp.models.map (fun mref =>
      match alookup st.models mref with
      | some m => m.definition.name
      | none => mref))

/-! ### Concrete inputs used by the scenario claims -/

/-- The round-trip scenario input of the spec (spec §8). -/
def podInput : List (String × RawDefinition) :=
  [ ("io.k8s.core.v1.Pod",
      ⟨"", [("spec", ⟨"", none, some "#/definitions/io.k8s.core.v1.PodSpec"⟩)], []⟩),
    ("io.k8s.core.v1.PodSpec",
      ⟨"", [("replicas", ⟨"", some "integer", none⟩)], []⟩) ]

/-- The full `parse` output on the round-trip input: one package `core`,
one module `core.v1` with models ordered `[PodSpec, Pod]` and no imports,
`Pod.spec` resolved to the `PodSpec` reference and `PodSpec.replicas` to
the mapped integer primitive. -/
def podSt : ParserState :=
  { packages := [("core", ⟨"core", ["core.v1"]⟩)],
    modules :=
      [("core.v1",
        ⟨"core.v1", "v1", [], ["core.v1.PodSpec", "core.v1.Pod"]⟩)],
    models :=
      [("core.v1.Pod",
        ⟨"core.v1.Pod",
         ⟨"Pod", "",
          [⟨"spec", "", TypeSlot.modelRef "core.v1.PodSpec",
            some "#/definitions/io.k8s.core.v1.PodSpec"⟩], []⟩⟩),
       ("core.v1.PodSpec",
        ⟨"core.v1.PodSpec",
         ⟨"PodSpec", "",
          [⟨"replicas", "", TypeSlot.primitive (some "int"), none⟩],
          []⟩⟩)] }

/-- Two mutually referencing models in one module, plus an independent
third one: the cycle-detection scenario. -/
def cyclicInput : List (String × RawDefinition) :=
  [ ("io.k8s.core.v1.A",
      ⟨"", [("b", ⟨"", none, some "#/definitions/io.k8s.core.v1.B"⟩)], []⟩),
    ("io.k8s.core.v1.B",
      ⟨"", [("a", ⟨"", none, some "#/definitions/io.k8s.core.v1.A"⟩)], []⟩),
    ("io.k8s.core.v1.C", ⟨"", [], []⟩) ]

/-- The unknown-reference scenario: a field referencing a definition that
is never built. -/
def unresolvedInput : List (String × RawDefinition) :=
  [ ("io.k8s.core.v1.Pod",
      ⟨"", [("spec", ⟨"", none, some "#/definitions/io.k8s.core.v1.DoesNotExist"⟩)], []⟩) ]

/-- Whether `sub` occurs as a contiguous substring of `msg` (used to state
what an error's payload mentions). -/
def containsSub (msg sub : String) : Bool :=
  (List.range (msg.data.length + 1)).any
    (fun i => ((msg.data.drop i).take sub.data.length) == sub.data)

/-! ### Well-formedness of built states

The build phase only ever manufactures references with `_make_ref` from
`_split_ref` components, whose last two components are separator-free and
whose characters are hyphen-free (hyphens were normalized away).
`WellBuilt` records the shape invariants of the registries that the build
phase establishes and the later phases rely on. -/

def dotFree (s : String) : Prop := '.' ∉ s.data

def dashFree (s : String) : Prop := '-' ∉ s.data

instance (s : String) : Decidable (dotFree s) := by
  unfold dotFree; infer_instance

instance (s : String) : Decidable (dashFree s) := by
  unfold dashFree; infer_instance

/-- Invariants of the registries established by `_parse_models` (they hold
for every state the build phase can produce, duplicate identifiers
included). -/
def WellBuilt (st : ParserState) : Prop :=
  ((akeys st.packages).Nodup ∧ (akeys st.modules).Nodup ∧
    (akeys st.models).Nodup) ∧
  (∀ p ∈ st.packages, p.2.ref = p.1 ∧ dashFree p.1 ∧
     ∀ mr ∈ p.2.modules, mr ∈ akeys st.modules) ∧
  (∀ m ∈ st.modules,
     (m.2.ref = m.1 ∧ dotFree m.2.name ∧
       dashFree m.2.name ∧ dashFree m.1 ∧
       m.1 = makeRef [parentRef m.1, m.2.name]) ∧
     (∃ p ∈ st.packages, m.1 ∈ p.2.modules) ∧
     (∀ mr ∈ m.2.models, mr ∈ akeys st.models ∧ parentRef mr = m.1)) ∧
  (∀ md ∈ st.models,
     (md.2.ref = md.1 ∧ dashFree md.1 ∧ 2 ≤ md.1.data.count '.' ∧
       alookup st.modules (parentRef md.1) ≠ none) ∧
     (∃ m ∈ st.modules, md.1 ∈ m.2.models))

instance (st : ParserState) : Decidable (WellBuilt st) := by
  unfold WellBuilt
  infer_instance

/-- Whether a `type` slot has left raw form (spec: a `(type-name, $ref)`
marker) for a `Primitive` or a Model reference. -/
def isResolved : TypeSlot → Bool
  | TypeSlot.raw _ => false
  | _ => true

/-- The full model reference an identifier would be registered under by
the build phase (`none` when the identifier is malformed). -/
def builtRefOf (id : String) : Option String :=
  match splitRef3 (dropChars id 7) with
  | .ok t => some (makeRef [t.1, t.2.1, t.2.2])
  | .error _ => none

/-- The model registered under `k` (if any) has only resolved field type
slots. -/
def ResolvedKey (st : ParserState) (k : String) : Prop :=
  ∀ model, alookup st.models k = some model →
    ∀ f ∈ model.definition.fields, isResolved f.type = true

/-- The pointwise relation between a field before and after resolution
(relative to the model registry keys `ks`, which the resolve phase keeps
unchanged). -/
def FieldResolves (ks : List String) (f f' : Field) : Prop :=
  f'.name = f.name ∧ f'.description = f.description ∧ f'.ref = f.ref ∧
  isResolved f'.type = true ∧
  ((∀ mref, f.type = TypeSlot.modelRef mref → mref ∈ ks) →
    ∀ mref, f'.type = TypeSlot.modelRef mref → mref ∈ ks) ∧
  (∀ rr, f.ref = some rr → rr ≠ "" →
    ∃ key3 : String × String × String,
      splitRef3 (dropChars rr 21) = Except.ok key3 ∧
      f'.type = TypeSlot.modelRef (makeRef [key3.1, key3.2.1, key3.2.2]) ∧
      makeRef [key3.1, key3.2.1, key3.2.2] ∈ ks)

/-- Correspondence of registered models across (part of) the resolve
phase: every registry entry keeps its key, reference and name, and its
fields are either untouched or pointwise resolved. -/
def ModelsCorr (ks : List String) (st st' : ParserState) : Prop :=
  ∀ k model0, alookup st.models k = some model0 →
    ∃ model1, alookup st'.models k = some model1 ∧
      model1.ref = model0.ref ∧
      model1.definition.name = model0.definition.name ∧
      (model1.definition.fields = model0.definition.fields ∨
       List.Forall₂ (FieldResolves ks) model0.definition.fields
         model1.definition.fields)

/-- Every registered model's fields are still in raw form (what the build
phase produces). -/
def AllRaw (st : ParserState) : Prop :=
  ∀ e ∈ st.models, ∀ f ∈ e.2.definition.fields, isResolved f.type = false

/-- The state `_parse_models` builds from `unresolvedInput`. -/
def c3State : ParserState :=
  ⟨[("core", ⟨"core", ["core.v1"]⟩)],
   [("core.v1", ⟨"core.v1", "v1", [], ["core.v1.Pod"]⟩)],
   [("core.v1.Pod", ⟨"core.v1.Pod",
     ⟨"Pod", "",
      [⟨"spec", "", TypeSlot.raw none,
        some "#/definitions/io.k8s.core.v1.DoesNotExist"⟩], []⟩⟩)]⟩


/-- A field's Model-reference provenance: any resolved Model reference in
its type slot came from the field's own truthy reference string via the
strip-21/split/re-join transformation of `_resolve_ref`. -/
def GoodField (f : Field) : Prop :=
  ∀ mref, f.type = TypeSlot.modelRef mref →
    ∃ rr, f.ref = some rr ∧ rr ≠ "" ∧
      ∃ key3 : String × String × String,
        splitRef3 (dropChars rr 21) = Except.ok key3 ∧
        mref = makeRef [key3.1, key3.2.1, key3.2.2]

/-- The registry-wide model invariant carried across the resolve phase:
every registered model's key decomposes as its parent reference joined
with its (separator-free) definition name, and every field has
Model-reference provenance with its targets registered. -/
def ModelsOk (st : ParserState) : Prop :=
  ∀ e ∈ st.models,
    (dotFree e.2.definition.name ∧
     e.1 = makeRef [parentRef e.1, e.2.definition.name]) ∧
    ∀ f ∈ e.2.definition.fields, GoodField f ∧
      (∀ mref, f.type = TypeSlot.modelRef mref → mref ∈ akeys st.models)

/-- `ftRef` is witnessed by a resolved field of one of the models (keys
`wks`) of the current module, looked up in the model registry `mdls`. -/
def Targets (mdls : List (String × Model)) (wks : List String)
    (ftRef : String) : Prop :=
  ∃ mk ∈ wks, ∃ model, alookup mdls mk = some model ∧
    ∃ f ∈ model.definition.fields, f.type = TypeSlot.modelRef ftRef

/-- The import-accumulator invariant of `_resolve_references`: every
entry is keyed on the target parent module (never the current module
`mp`), stores that module's reference, and lists a nonempty, duplicate-
free set of target models each witnessed by a resolved field. -/
def EntryOk (mdls : List (String × Model)) (wks : List String)
    (mp : String) (e : String × Import) : Prop :=
  e.1 ≠ mp ∧ e.2.module = e.1 ∧ e.2.models ≠ [] ∧ e.2.models.Nodup ∧
  ∀ ftRef ∈ e.2.models, parentRef ftRef = e.1 ∧ Targets mdls wks ftRef

/-- The per-module import conclusion
(`module.imports[:] = imports.values()`). -/
def ModuleImportsOk (mdls : List (String × Model)) (k : String)
    (md : Module) : Prop :=
  ∀ imp ∈ md.imports, imp.module ≠ k ∧ imp.models ≠ [] ∧
    imp.models.Nodup ∧
    ∀ ftRef ∈ imp.models, parentRef ftRef = imp.module ∧
      Targets mdls md.models ftRef

/-- Every registered module's import list is correct (empty import lists
satisfy this vacuously). -/
def AllImportsOk (st : ParserState) : Prop :=
  ∀ k md, alookup st.modules k = some md → ModuleImportsOk st.models k md

/-- The cross-module reference scenario: Pod in `core.v1` referencing
Deployment in `apps.v1`. -/
def crossInput : List (String × RawDefinition) :=
  [ ("io.k8s.core.v1.Pod",
      ⟨"", [("dep", ⟨"", none,
        some "#/definitions/io.k8s.apps.v1.Deployment"⟩)], []⟩),
    ("io.k8s.apps.v1.Deployment",
      ⟨"", [("replicas", ⟨"", some "integer", none⟩)], []⟩) ]

/-- The state `_parse_models` builds from `crossInput`. -/
def c6St0 : ParserState :=
  ⟨[("core", ⟨"core", ["core.v1"]⟩), ("apps", ⟨"apps", ["apps.v1"]⟩)],
   [("core.v1", ⟨"core.v1", "v1", [], ["core.v1.Pod"]⟩),
    ("apps.v1", ⟨"apps.v1", "v1", [], ["apps.v1.Deployment"]⟩)],
   [("core.v1.Pod", ⟨"core.v1.Pod",
     ⟨"Pod", "",
      [⟨"dep", "", TypeSlot.raw none,
        some "#/definitions/io.k8s.apps.v1.Deployment"⟩], []⟩⟩),
    ("apps.v1.Deployment", ⟨"apps.v1.Deployment",
     ⟨"Deployment", "",
      [⟨"replicas", "", TypeSlot.raw (some "integer"), none⟩], []⟩⟩)]⟩

/-- The state `_resolve_references` produces from `c6St0`. -/
def c6St1 : ParserState :=
  ⟨[("core", ⟨"core", ["core.v1"]⟩), ("apps", ⟨"apps", ["apps.v1"]⟩)],
   [("core.v1", ⟨"core.v1", "v1",
      [⟨"apps.v1", ["apps.v1.Deployment"]⟩], ["core.v1.Pod"]⟩),
    ("apps.v1", ⟨"apps.v1", "v1", [], ["apps.v1.Deployment"]⟩)],
   [("core.v1.Pod", ⟨"core.v1.Pod",
     ⟨"Pod", "",
      [⟨"dep", "", TypeSlot.modelRef "apps.v1.Deployment",
        some "#/definitions/io.k8s.apps.v1.Deployment"⟩], []⟩⟩),
    ("apps.v1.Deployment", ⟨"apps.v1.Deployment",
     ⟨"Deployment", "",
      [⟨"replicas", "", TypeSlot.primitive (some "int"), none⟩], []⟩⟩)]⟩

/-- Loop invariant of the Kahn sort: the remaining dependency lists are
exactly the initial ones with every already-emitted node filtered out. -/
def depsInv (nodes0 deps : List (String × List String))
    (emitted : List String) : Prop :=
  ∀ r, alookup deps r =
    (alookup nodes0 r).map (List.filter (fun d => decide (d ∉ emitted)))

/-- Loop invariant of the Kahn sort for the ready stack: stack members
are dependency-free, every unemitted dependency-free node is stacked,
the stack is duplicate-free, stack members are unemitted graph nodes,
and emitted nodes have exhausted dependency lists. -/
def stackOk (nodes0 deps : List (String × List String))
    (stack emitted : List String) : Prop :=
  (∀ r ∈ stack, alookup deps r = some []) ∧
  (∀ r ∈ akeys nodes0, r ∉ emitted → alookup deps r = some [] →
    r ∈ stack) ∧
  stack.Nodup ∧
  (∀ r ∈ stack, r ∉ emitted ∧ r ∈ akeys nodes0) ∧
  (∀ r ∈ emitted, alookup deps r = some [])

/-- Loop invariant of the Kahn sort for the emitted prefix: it is
duplicate-free, drawn from the graph nodes, and every emitted node's
initial dependencies appear strictly earlier. -/
def emittedOk (nodes0 : List (String × List String))
    (emitted : List String) : Prop :=
  emitted.Nodup ∧ (∀ r ∈ emitted, r ∈ akeys nodes0) ∧
  ∀ i : Fin emitted.length, ∀ ds,
    alookup nodes0 (emitted.get i) = some ds →
    ∀ d ∈ ds, ∃ j : Fin emitted.length, j.1 < i.1 ∧ emitted.get j = d

/-- One step of the inner `_sort_models` graph-building loop (`setdefault`
the dependency's node, then append the edge to node `p1`). -/
def innerStep (p1 : String) (ns : List (String × List String))
    (d : String) : List (String × List String) :=
  addDep (setdefaultNode ns d) p1 d

/-- One step of the outer `_sort_models` graph-building loop. -/
def outerStep (nodes : List (String × List String))
    (pr : String × List String) : List (String × List String) :=
  pr.2.foldl (innerStep pr.1) (setdefaultNode nodes pr.1)

/-- A module's model list is coherent with the model registry: every
listed reference belongs to module `k`, resolves to a registered Model
carrying that reference, and all of its same-module dependencies are
themselves in the list. -/
def ModuleListOk (mdls : List (String × Model)) (k : String)
    (models : List String) : Prop :=
  ∀ mref ∈ models, parentRef mref = k ∧
    ∃ model, alookup mdls mref = some model ∧ model.ref = mref ∧
      ∀ d ∈ sameModuleDeps model.ref model.definition.fields, d ∈ models

/-- The model list is a duplicate-free topological order of the
same-module reference graph: every same-module dependency of a listed
model is itself listed, strictly earlier. -/
def TopoSorted (mdls : List (String × Model)) (models : List String) :
    Prop :=
  models.Nodup ∧
  ∀ mref ∈ models, ∀ model, alookup mdls mref = some model →
    ∀ n ∈ sameModuleDeps model.ref model.definition.fields,
      n ∈ models ∧ models.indexOf n < models.indexOf mref

/-- Decidable equality for `Except` results (not derived by core). -/
instance exceptDecEq {ε α : Type} [DecidableEq ε] [DecidableEq α] :
    DecidableEq (Except ε α)
  | .error e, .error f =>
    if h : e = f then .isTrue (by rw [h])
    else .isFalse (by intro hh; cases hh; exact h rfl)
  | .error _, .ok _ => .isFalse (by intro hh; cases hh)
  | .ok _, .error _ => .isFalse (by intro hh; cases hh)
  | .ok a, .ok b =>
    if h : a = b then .isTrue (by rw [h])
    else .isFalse (by intro hh; cases hh; exact h rfl)

/-! ### Association-list lemmas -/

theorem alookup_aupdate_self {β : Type} (l : List (String × β)) (k : String)
    (v : β) : alookup (aupdate l k v) k = some v := by
  induction l with
  | nil => simp [aupdate, alookup]
  | cons kv rest ih =>
    by_cases h : kv.1 = k
    · simp [aupdate, h, alookup]
    · simp [aupdate, h, alookup, ih]

theorem alookup_aupdate_ne {β : Type} (l : List (String × β)) (k k' : String)
    (v : β) (h : k' ≠ k) : alookup (aupdate l k v) k' = alookup l k' := by
  induction l with
  | nil =>
    simp only [aupdate, alookup]
    rw [if_neg (fun hh => h hh.symm)]
  | cons kv rest ih =>
    by_cases hk : kv.1 = k
    · subst hk
      simp only [aupdate, if_pos rfl, alookup]
      rw [if_neg (fun hh => h hh.symm), if_neg (fun hh => h hh.symm)]
    · simp only [aupdate, if_neg hk, alookup]
      by_cases hk' : kv.1 = k'
      · simp [hk']
      · simp [hk', ih]

theorem aupdate_aupdate_self {β : Type} (l : List (String × β)) (k : String)
    (v w : β) : aupdate (aupdate l k v) k w = aupdate l k w := by
  induction l with
  | nil => simp [aupdate]
  | cons kv rest ih =>
    by_cases h : kv.1 = k
    · simp [aupdate, h]
    · simp [aupdate, h, ih]

theorem alookup_none_iff {β : Type} (l : List (String × β)) (k : String) :
    alookup l k = none ↔ k ∉ akeys l := by
  induction l with
  | nil => simp [alookup, akeys]
  | cons kv rest ih =>
    by_cases h : kv.1 = k
    · simp [alookup, h, akeys]
    · simp only [alookup, if_neg h, akeys, List.map_cons, List.mem_cons]
      simp only [akeys] at ih
      rw [ih]
      constructor
      · intro hn hc
        rcases hc with h1 | h2
        · exact h h1.symm
        · exact hn h2
      · intro hn
        exact fun h2 => hn (Or.inr h2)

theorem akeys_aupdate_mem {β : Type} (l : List (String × β)) (k : String)
    (v : β) (h : k ∈ akeys l) : akeys (aupdate l k v) = akeys l := by
  induction l with
  | nil => simp [akeys] at h
  | cons kv rest ih =>
    by_cases hk : kv.1 = k
    · simp [aupdate, hk, akeys]
    · simp only [akeys, List.map_cons, List.mem_cons] at h
      rcases h with h1 | h2
      · exact absurd h1.symm hk
      · have ih2 := ih h2
        simp only [akeys] at ih2
        simp [aupdate, hk, akeys, ih2]

theorem akeys_aupdate_new {β : Type} (l : List (String × β)) (k : String)
    (v : β) (h : alookup l k = none) :
    akeys (aupdate l k v) = akeys l ++ [k] := by
  induction l with
  | nil => simp [aupdate, akeys]
  | cons kv rest ih =>
    simp only [alookup] at h
    by_cases hk : kv.1 = k
    · simp [hk] at h
    · simp only [if_neg hk] at h
      have ih2 := ih h
      simp only [akeys] at ih2
      simp [aupdate, hk, akeys, ih2]

theorem akeys_aupdate_nodup {β : Type} (l : List (String × β)) (k : String)
    (v : β) (h : (akeys l).Nodup) : (akeys (aupdate l k v)).Nodup := by
  by_cases hm : k ∈ akeys l
  · rw [akeys_aupdate_mem l k v hm]; exact h
  · rw [akeys_aupdate_new l k v ((alookup_none_iff l k).mpr hm)]
    simpa [List.nodup_append] using ⟨h, hm⟩

theorem akeys_aupdate_count {β : Type} (l : List (String × β)) (k : String)
    (v : β) (h : (akeys l).Nodup) : (akeys (aupdate l k v)).count k = 1 := by
  by_cases hm : k ∈ akeys l
  · rw [akeys_aupdate_mem l k v hm]
    exact List.count_eq_one_of_mem h hm
  · rw [akeys_aupdate_new l k v ((alookup_none_iff l k).mpr hm)]
    rw [List.count_append]
    simp [List.count_eq_zero_of_not_mem hm]

theorem alookup_some_mem {β : Type} {l : List (String × β)} {k : String}
    {v : β} (h : alookup l k = some v) : k ∈ akeys l := by
  by_contra hn
  rw [(alookup_none_iff l k).mpr hn] at h
  cases h

theorem alookup_mem {β : Type} {l : List (String × β)} {k : String} {v : β}
    (h : alookup l k = some v) : (k, v) ∈ l := by
  induction l with
  | nil => cases h
  | cons kv rest ih =>
    by_cases hk : kv.1 = k
    · rw [alookup, if_pos hk] at h
      have hv : kv.2 = v := by injection h
      have he : kv = (k, v) := by
        cases kv
        simp only at hk hv
        rw [hk, hv]
      rw [← he]
      exact List.mem_cons_self _ _
    · rw [alookup, if_neg hk] at h
      exact List.mem_cons_of_mem _ (ih h)

theorem alookup_of_mem_nodup {β : Type} {l : List (String × β)} {k : String}
    {v : β} (hn : (akeys l).Nodup) (h : (k, v) ∈ l) :
    alookup l k = some v := by
  induction l with
  | nil => cases h
  | cons kv rest ih =>
    rcases List.mem_cons.mp h with h1 | h2
    · rw [← h1, alookup, if_pos rfl]
    · have hk : kv.1 ≠ k := by
        intro he
        have : k ∈ akeys rest :=
          List.mem_map.mpr ⟨(k, v), h2, rfl⟩
        rw [akeys, List.map_cons] at hn
        exact (List.nodup_cons.mp hn).1 (he ▸ this)
      rw [alookup, if_neg hk]
      exact ih (by rw [akeys, List.map_cons] at hn; exact (List.nodup_cons.mp hn).2) h2

theorem aupdate_mem_self {β : Type} (l : List (String × β)) (k : String)
    (v : β) : (k, v) ∈ aupdate l k v := by
  induction l with
  | nil => exact List.mem_singleton.mpr rfl
  | cons kv rest ih =>
    by_cases hk : kv.1 = k
    · rw [aupdate, if_pos hk]
      exact List.mem_cons_self _ _
    · rw [aupdate, if_neg hk]
      exact List.mem_cons_of_mem _ ih

theorem mem_aupdate_of_ne {β : Type} {l : List (String × β)} {k : String}
    {v : β} {e : String × β} (h : e ∈ l) (hne : e.1 ≠ k) :
    e ∈ aupdate l k v := by
  induction l with
  | nil => cases h
  | cons kv rest ih =>
    by_cases hk : kv.1 = k
    · rw [aupdate, if_pos hk]
      rcases List.mem_cons.mp h with h1 | h2
      · exact absurd (h1 ▸ hk) hne
      · exact List.mem_cons_of_mem _ h2
    · rw [aupdate, if_neg hk]
      rcases List.mem_cons.mp h with h1 | h2
      · exact h1 ▸ List.mem_cons_self _ _
      · exact List.mem_cons_of_mem _ (ih h2)

theorem mem_aupdate {β : Type} {l : List (String × β)} {k : String} {v : β}
    {e : String × β} (h : e ∈ aupdate l k v) : e ∈ l ∨ e = (k, v) := by
  induction l with
  | nil => right; exact List.mem_singleton.mp h
  | cons kv rest ih =>
    by_cases hk : kv.1 = k
    · rw [aupdate, if_pos hk] at h
      rcases List.mem_cons.mp h with h1 | h2
      · right; exact h1
      · left; exact List.mem_cons_of_mem _ h2
    · rw [aupdate, if_neg hk] at h
      rcases List.mem_cons.mp h with h1 | h2
      · left; exact h1 ▸ List.mem_cons_self _ _
      · rcases ih h2 with h3 | h4
        · left; exact List.mem_cons_of_mem _ h3
        · right; exact h4

theorem akeys_mono {β : Type} {l : List (String × β)} {k k' : String}
    {v : β} (h : k' ∈ akeys l) : k' ∈ akeys (aupdate l k v) := by
  by_cases hm : k ∈ akeys l
  · rw [akeys_aupdate_mem l k v hm]; exact h
  · rw [akeys_aupdate_new l k v ((alookup_none_iff l k).mpr hm)]
    exact List.mem_append.mpr (Or.inl h)

theorem akeys_self_mem {β : Type} (l : List (String × β)) (k : String)
    (v : β) : k ∈ akeys (aupdate l k v) :=
  List.mem_map.mpr ⟨(k, v), aupdate_mem_self l k v, rfl⟩

theorem alookup_ne_none_aupdate {β : Type} {l : List (String × β)}
    {k k' : String} {v : β} (h : alookup l k' ≠ none) :
    alookup (aupdate l k v) k' ≠ none := by
  intro hn
  exact h ((alookup_none_iff l k').mpr
    (fun hm => (alookup_none_iff _ k').mp hn (akeys_mono hm)))

/-! ### Splitting lemmas -/

theorem lastSplit_none_iff (l : List Char) : lastSplit l = none ↔ '.' ∉ l := by
  induction l with
  | nil => simp [lastSplit]
  | cons c cs ih =>
    cases h : lastSplit cs with
    | some p =>
      simp only [lastSplit, h]
      constructor
      · intro hh; cases hh
      · intro hn
        exfalso
        apply hn
        have hcs : '.' ∈ cs := by
          by_contra hc
          rw [ih.mpr hc] at h
          cases h
        exact List.mem_cons_of_mem c hcs
    | none =>
      by_cases hc : c = '.'
      · simp only [lastSplit, h, if_pos hc]
        constructor
        · intro hh; cases hh
        · intro hn
          exfalso
          exact hn (by rw [hc]; exact List.mem_cons_self '.' cs)
      · simp only [lastSplit, h, if_neg hc]
        constructor
        · intro _ hm
          rcases List.mem_cons.mp hm with h1 | h2
          · exact hc h1.symm
          · exact (ih.mp h) h2
        · intro _; trivial

theorem lastSplit_some_spec (l : List Char) :
    ∀ b a, lastSplit l = some (b, a) → l = b ++ '.' :: a ∧ '.' ∉ a := by
  induction l with
  | nil => intro b a h; cases h
  | cons c cs ih =>
    intro b a h
    cases hcs : lastSplit cs with
    | some p =>
      simp only [lastSplit, hcs, Option.some.injEq, Prod.mk.injEq] at h
      rcases ih p.1 p.2 hcs with ⟨he, hna⟩
      refine ⟨?_, h.2 ▸ hna⟩
      rw [← h.1, ← h.2, he]
      rfl
    | none =>
      by_cases hc : c = '.'
      · simp only [lastSplit, hcs, if_pos hc, Option.some.injEq,
          Prod.mk.injEq] at h
        rcases h with ⟨hb, ha⟩
        subst hc
        refine ⟨?_, ha ▸ (lastSplit_none_iff cs).mp hcs⟩
        rw [← hb, ← ha]
        rfl
      · simp only [lastSplit, hcs, if_neg hc] at h
        cases h

theorem lastSplit_append (b a : List Char) (ha : '.' ∉ a) :
    lastSplit (b ++ '.' :: a) = some (b, a) := by
  induction b with
  | nil =>
    simp [lastSplit, (lastSplit_none_iff a).mpr ha]
  | cons c b' ih =>
    simp [lastSplit, ih]

theorem count_dot_decomp (b a : List Char) :
    (b ++ '.' :: a).count '.' = b.count '.' + a.count '.' + 1 := by
  rw [List.count_append, List.count_cons]
  simp
  ring

theorem rsplit2_none (s : List Char) (h : lastSplit s = none) :
    rsplit2 s = [s] := by
  rw [rsplit2, h]

theorem rsplit2_some_none (s : List Char) (p : List Char × List Char)
    (h1 : lastSplit s = some p) (h2 : lastSplit p.1 = none) :
    rsplit2 s = [p.1, p.2] := by
  rw [rsplit2, h1]
  dsimp only
  rw [h2]

theorem rsplit2_some_some (s : List Char) (p q : List Char × List Char)
    (h1 : lastSplit s = some p) (h2 : lastSplit p.1 = some q) :
    rsplit2 s = [q.1, q.2, p.2] := by
  rw [rsplit2, h1]
  dsimp only
  rw [h2]

theorem splitRef3_one (s : String)
    (h : lastSplit (s.data.map normChar) = none) :
    splitRef3 s = Except.error (GenError.malformedIdentifier s) := by
  simp [splitRef3, splitRef, rsplit2_none _ h]

theorem splitRef3_two (s : String) (p : List Char × List Char)
    (h1 : lastSplit (s.data.map normChar) = some p)
    (h2 : lastSplit p.1 = none) :
    splitRef3 s = Except.error (GenError.malformedIdentifier s) := by
  simp [splitRef3, splitRef, rsplit2_some_none _ _ h1 h2]

theorem splitRef3_three (s : String) (p q : List Char × List Char)
    (h1 : lastSplit (s.data.map normChar) = some p)
    (h2 : lastSplit p.1 = some q) :
    splitRef3 s = Except.ok (⟨q.1⟩, ⟨q.2⟩, ⟨p.2⟩) := by
  simp [splitRef3, splitRef, rsplit2_some_some _ _ _ h1 h2]

/-! ### Reference decomposition lemmas -/

theorem string_ext {s t : String} (h : s.data = t.data) : s = t := by
  cases s; cases t; exact congrArg String.mk h

theorem data_makeRef2 (a b : String) :
    (makeRef [a, b]).data = a.data ++ '.' :: b.data := by
  show (a ++ "." ++ b).data = _
  rw [String.data_append, String.data_append]
  simp

theorem data_makeRef3 (a b c : String) :
    (makeRef [a, b, c]).data = a.data ++ '.' :: (b.data ++ '.' :: c.data) := by
  show (a ++ "." ++ makeRef [b, c]).data = _
  rw [String.data_append, String.data_append, data_makeRef2]
  simp

theorem makeRef3_assoc (a b c : String) :
    makeRef [a, b, c] = makeRef [makeRef [a, b], c] := by
  apply string_ext
  rw [data_makeRef3, data_makeRef2, data_makeRef2]
  simp

theorem parentRef_makeRef2 (a b : String) (h : dotFree b) :
    parentRef (makeRef [a, b]) = a := by
  unfold parentRef
  rw [data_makeRef2, lastSplit_append _ _ h]

theorem parentRef_makeRef3 (a b c : String) (h : dotFree c) :
    parentRef (makeRef [a, b, c]) = makeRef [a, b] := by
  rw [makeRef3_assoc, parentRef_makeRef2 _ _ h]

theorem makeRef2_inj {a b x y : String} (hb : dotFree b) (hy : dotFree y)
    (h : makeRef [a, b] = makeRef [x, y]) : a = x ∧ b = y := by
  have hd : (makeRef [a, b]).data = (makeRef [x, y]).data := by rw [h]
  rw [data_makeRef2, data_makeRef2] at hd
  have h1 := lastSplit_append a.data b.data hb
  rw [hd, lastSplit_append x.data y.data hy] at h1
  simp only [Option.some.injEq, Prod.mk.injEq] at h1
  exact ⟨string_ext h1.1.symm, string_ext h1.2.symm⟩

theorem normChar_no_dash (l : List Char) : '-' ∉ l.map normChar := by
  intro hm
  rcases List.mem_map.mp hm with ⟨c, _, hc⟩
  by_cases h : c = '-'
  · rw [h] at hc; cases hc
  · rw [normChar, if_neg h] at hc; exact h hc

theorem map_normChar_id {l : List Char} (h : '-' ∉ l) :
    l.map normChar = l := by
  induction l with
  | nil => rfl
  | cons c cs ih =>
    simp only [List.mem_cons, not_or] at h
    have hc : ¬c = '-' := fun hh => h.1 hh.symm
    simp only [List.map_cons, normChar, if_neg hc, ih h.2]

theorem dashFree_makeRef2 {a b : String} (ha : dashFree a) (hb : dashFree b) :
    dashFree (makeRef [a, b]) := by
  unfold dashFree
  rw [data_makeRef2]
  intro hm
  rcases List.mem_append.mp hm with h1 | h2
  · exact ha h1
  · rcases List.mem_cons.mp h2 with h3 | h4
    · cases h3
    · exact hb h4

theorem dashFree_makeRef3 {a b c : String} (ha : dashFree a)
    (hb : dashFree b) (hc : dashFree c) : dashFree (makeRef [a, b, c]) := by
  rw [makeRef3_assoc]
  exact dashFree_makeRef2 (dashFree_makeRef2 ha hb) hc

theorem count_makeRef3 (a b c : String) :
    2 ≤ (makeRef [a, b, c]).data.count '.' := by
  rw [makeRef3_assoc, data_makeRef2, count_dot_decomp, data_makeRef2,
    count_dot_decomp]
  omega

/-- Inversion for a successful 3-way split: it recovers the decomposition
of the normalized input, with separator-free last components and
hyphen-free components. -/
theorem splitRef3_ok_spec (s x y z : String)
    (h : splitRef3 s = Except.ok (x, y, z)) :
    s.data.map normChar = x.data ++ '.' :: (y.data ++ '.' :: z.data) ∧
    dotFree y ∧ dotFree z ∧ dashFree x ∧ dashFree y ∧ dashFree z := by
  cases h1 : lastSplit (s.data.map normChar) with
  | none => rw [splitRef3_one s h1] at h; cases h
  | some p =>
    cases h2 : lastSplit p.1 with
    | none => rw [splitRef3_two s p h1 h2] at h; cases h
    | some q =>
      rw [splitRef3_three s p q h1 h2] at h
      have hx : x.data = q.1 ∧ y.data = q.2 ∧ z.data = p.2 := by
        have := h
        simp only [Except.ok.injEq, Prod.mk.injEq] at this
        exact ⟨by rw [← this.1], by rw [← this.2.1], by rw [← this.2.2]⟩
      rcases lastSplit_some_spec _ p.1 p.2 h1 with ⟨ht, hna⟩
      rcases lastSplit_some_spec _ q.1 q.2 h2 with ⟨hb, hnq⟩
      have hdecomp : s.data.map normChar =
          x.data ++ '.' :: (y.data ++ '.' :: z.data) := by
        rw [hx.1, hx.2.1, hx.2.2, ht, hb]
        simp
      refine ⟨hdecomp, ?_, ?_, ?_, ?_, ?_⟩
      · unfold dotFree; rw [hx.2.1]; exact hnq
      · unfold dotFree; rw [hx.2.2]; exact hna
      · unfold dashFree
        intro hm
        apply normChar_no_dash (s.data)
        rw [hdecomp]
        exact List.mem_append.mpr (Or.inl hm)
      · unfold dashFree
        intro hm
        apply normChar_no_dash (s.data)
        rw [hdecomp]
        exact List.mem_append.mpr
          (Or.inr (List.mem_cons_of_mem _ (List.mem_append.mpr (Or.inl hm))))
      · unfold dashFree
        intro hm
        apply normChar_no_dash (s.data)
        rw [hdecomp]
        exact List.mem_append.mpr
          (Or.inr (List.mem_cons_of_mem _
            (List.mem_append.mpr (Or.inr (List.mem_cons_of_mem _ hm)))))

/-- A reference built with `_make_ref` from clean components splits back
into exactly those components. -/
theorem splitRef3_makeRef3 (a b c : String) (hda : dashFree a)
    (hdb : dashFree b) (hdotb : dotFree b) (hdc : dashFree c)
    (hdotc : dotFree c) :
    splitRef3 (makeRef [a, b, c]) = Except.ok (a, b, c) := by
  have hdash : dashFree (makeRef [a, b, c]) := dashFree_makeRef3 hda hdb hdc
  have hid : (makeRef [a, b, c]).data.map normChar =
      (makeRef [a, b, c]).data := map_normChar_id hdash
  have hd3 : (makeRef [a, b, c]).data =
      (a.data ++ '.' :: b.data) ++ '.' :: c.data := by
    rw [data_makeRef3]
    simp
  have h1 : lastSplit ((makeRef [a, b, c]).data.map normChar) =
      some (a.data ++ '.' :: b.data, c.data) := by
    rw [hid, hd3]
    exact lastSplit_append _ _ hdotc
  have h2 : lastSplit (a.data ++ '.' :: b.data) = some (a.data, b.data) :=
    lastSplit_append _ _ hdotb
  rw [splitRef3_three _ _ _ h1 h2]

/-- `parseModels` success forces every identifier to have split into three
components (the abort propagates from any malformed identifier). -/
theorem parseModelsFrom_split_ok (l : List (String × RawDefinition))
    (st st' : ParserState) (h : parseModelsFrom st l = Except.ok st') :
    ∀ p ∈ l, ∃ t, splitRef3 (dropChars p.1 7) = Except.ok t := by
  induction l generalizing st with
  | nil => intro p hp; cases hp
  | cons x xs ih =>
    intro p hp
    cases ho : parseOne st x with
    | error e =>
      rw [parseModelsFrom, ho] at h
      cases h
    | ok st1 =>
      rw [parseModelsFrom, ho] at h
      rcases List.mem_cons.mp hp with rfl | hm
      · cases hs : splitRef3 (dropChars p.1 7) with
        | error e =>
          rw [parseOne, hs] at ho
          cases ho
        | ok t => exact ⟨t, rfl⟩
      · exact ih st1 h p hm

/-! ### Build-phase invariants -/

theorem getPackage_spec (st : ParserState) (pref : String)
    (hwb : WellBuilt st) (hd : dashFree pref) :
    WellBuilt (getPackage st pref).1 ∧
    (getPackage st pref).2.ref = pref ∧
    alookup (getPackage st pref).1.packages pref =
      some (getPackage st pref).2 ∧
    (getPackage st pref).1.modules = st.modules ∧
    (getPackage st pref).1.models = st.models := by
  obtain ⟨⟨hnp, hnm, hnd⟩, hpkgs, hmods, hmdls⟩ := hwb
  rcases hh : alookup st.packages pref with _ | p
  · have h1 : getPackage st pref =
        ({ st with packages := aupdate st.packages pref ⟨pref, []⟩ },
         (⟨pref, []⟩ : Package)) := by
      simp only [getPackage, hh]
    rw [h1]
    have hnotmem : pref ∉ akeys st.packages := (alookup_none_iff _ _).mp hh
    refine ⟨⟨⟨akeys_aupdate_nodup _ _ _ hnp, hnm, hnd⟩, ?_, ?_, ?_⟩,
      rfl, alookup_aupdate_self _ _ _, rfl, rfl⟩
    · intro p' hp'
      rcases mem_aupdate hp' with h2 | h2
      · exact hpkgs p' h2
      · rw [h2]
        exact ⟨rfl, hd, by intro mr hmr; cases hmr⟩
    · intro m hm
      obtain ⟨hshape, ⟨p0, hp0, hp0m⟩, hmodels⟩ := hmods m hm
      have hne : p0.1 ≠ pref :=
        fun he => hnotmem (he ▸ List.mem_map.mpr ⟨p0, hp0, rfl⟩)
      exact ⟨hshape, ⟨p0, mem_aupdate_of_ne hp0 hne, hp0m⟩, hmodels⟩
    · intro md hmd
      exact hmdls md hmd
  · have h1 : getPackage st pref = (st, p) := by
      simp only [getPackage, hh]
    rw [h1]
    have hp := hpkgs (pref, p) (alookup_mem hh)
    exact ⟨⟨⟨hnp, hnm, hnd⟩, hpkgs, hmods, hmdls⟩, hp.1, hh, rfl, rfl⟩

theorem getModule_spec (st : ParserState) (pkg : Package) (mname : String)
    (hwb : WellBuilt st)
    (hpk : alookup st.packages pkg.ref = some pkg)
    (hdot : dotFree mname) (hdash : dashFree mname) :
    WellBuilt (getModule st pkg mname).1 ∧
    (getModule st pkg mname).2.ref = makeRef [pkg.ref, mname] ∧
    (getModule st pkg mname).2.name = mname ∧
    alookup (getModule st pkg mname).1.modules (makeRef [pkg.ref, mname]) =
      some (getModule st pkg mname).2 ∧
    (getModule st pkg mname).1.models = st.models ∧
    (∀ k, alookup st.modules k ≠ none →
      alookup (getModule st pkg mname).1.modules k = alookup st.modules k) := by
  obtain ⟨⟨hnp, hnm, hnd⟩, hpkgs, hmods, hmdls⟩ := hwb
  obtain ⟨hrefp, hdashp, hsubp⟩ := hpkgs (pkg.ref, pkg) (alookup_mem hpk)
  rcases hh : alookup st.modules (makeRef [pkg.ref, mname]) with _ | m
  · have h1 : getModule st pkg mname =
        ({ st with
           modules := aupdate st.modules (makeRef [pkg.ref, mname])
             ⟨makeRef [pkg.ref, mname], mname, [], []⟩,
           packages := aupdate st.packages pkg.ref
             { pkg with
               modules := pkg.modules ++ [makeRef [pkg.ref, mname]] } },
         (⟨makeRef [pkg.ref, mname], mname, [], []⟩ : Module)) := by
      simp only [getModule, hh]
    have hnotmem : (makeRef [pkg.ref, mname]) ∉ akeys st.modules :=
      (alookup_none_iff _ _).mp hh
    rw [h1]
    refine ⟨⟨⟨?_, akeys_aupdate_nodup _ _ _ hnm, hnd⟩, ?_, ?_, ?_⟩,
      rfl, rfl, alookup_aupdate_self _ _ _, rfl, ?_⟩
    · rw [akeys_aupdate_mem _ _ _ (alookup_some_mem hpk)]
      exact hnp
    · intro p' hp'
      rcases mem_aupdate hp' with h2 | h2
      · obtain ⟨hr2, hd2, hs2⟩ := hpkgs p' h2
        exact ⟨hr2, hd2, fun mr hmr => akeys_mono (hs2 mr hmr)⟩
      · rw [h2]
        refine ⟨rfl, hdashp, ?_⟩
        intro mr hmr
        rcases List.mem_append.mp hmr with h3 | h3
        · exact akeys_mono (hsubp mr h3)
        · rw [List.mem_singleton.mp h3]
          exact akeys_self_mem _ _ _
    · intro m' hm'
      rcases mem_aupdate hm' with h2 | h2
      · obtain ⟨hshape, ⟨p0, hp0, hp0m⟩, hmodels⟩ := hmods m' h2
        refine ⟨hshape, ?_, fun mr hmr => hmodels mr hmr⟩
        by_cases hpe : p0.1 = pkg.ref
        · have hlk : alookup st.packages p0.1 = some p0.2 :=
            alookup_of_mem_nodup hnp
              (by rcases p0 with ⟨pa, pb⟩; exact hp0)
          rw [hpe, hpk] at hlk
          have hp02 : p0.2 = pkg := by
            injection hlk with hx
            exact hx.symm
          refine ⟨(pkg.ref,
            { pkg with
              modules := pkg.modules ++ [makeRef [pkg.ref, mname]] }),
            aupdate_mem_self _ _ _, ?_⟩
          have hm0 : m'.1 ∈ pkg.modules := hp02 ▸ hp0m
          exact List.mem_append.mpr (Or.inl hm0)
        · exact ⟨p0, mem_aupdate_of_ne hp0 hpe, hp0m⟩
      · rw [h2]
        refine ⟨⟨rfl, hdot, hdash, dashFree_makeRef2 hdashp hdash, ?_⟩,
          ?_, ?_⟩
        · rw [parentRef_makeRef2 _ _ hdot]
        · exact ⟨(pkg.ref,
            { pkg with
              modules := pkg.modules ++ [makeRef [pkg.ref, mname]] }),
            aupdate_mem_self _ _ _,
            List.mem_append.mpr (Or.inr (List.mem_singleton.mpr rfl))⟩
        · intro mr hmr
          cases hmr
    · intro md' hmd'
      obtain ⟨⟨hr3, hd3, hc3, hl3⟩, hex3⟩ := hmdls md' hmd'
      refine ⟨⟨hr3, hd3, hc3, alookup_ne_none_aupdate hl3⟩, ?_⟩
      obtain ⟨m0, hm0, hm0m⟩ := hex3
      have hne : m0.1 ≠ makeRef [pkg.ref, mname] :=
        fun he => hnotmem (he ▸ List.mem_map.mpr ⟨m0, hm0, rfl⟩)
      exact ⟨m0, mem_aupdate_of_ne hm0 hne, hm0m⟩
    · intro k hk
      have hne : k ≠ makeRef [pkg.ref, mname] := by
        intro he
        rw [he] at hk
        exact hk hh
      exact alookup_aupdate_ne _ _ _ _ hne
  · have h1 : getModule st pkg mname = (st, m) := by
      simp only [getModule, hh]
    rw [h1]
    obtain ⟨⟨hrefm, hdotn, hdashn, hdashr, hdec⟩, hexm, hmodm⟩ :=
      hmods (makeRef [pkg.ref, mname], m) (alookup_mem hh)
    have hname : m.name = mname := by
      have hpar : parentRef (makeRef [pkg.ref, mname]) = pkg.ref :=
        parentRef_makeRef2 _ _ hdot
      have hd2 := hdec
      rw [hpar] at hd2
      exact ((makeRef2_inj hdot hdotn hd2).2).symm
    exact ⟨⟨⟨hnp, hnm, hnd⟩, hpkgs, hmods, hmdls⟩, hrefm, hname, hh, rfl,
      fun k hk => rfl⟩

theorem registerModel_wellBuilt (st2 : ParserState) (mdKey : String)
    (md : Module) (model : Model) (dname : String)
    (hwb : WellBuilt st2)
    (hmd : alookup st2.modules mdKey = some md)
    (hmref : model.ref = makeRef [mdKey, dname])
    (hdd : dashFree dname) (hdotd : dotFree dname) :
    WellBuilt { st2 with
      modules := aupdate st2.modules mdKey
        { md with models := md.models ++ [model.ref] },
      models := aupdate st2.models model.ref model } := by
  obtain ⟨⟨hnp, hnm, hnd⟩, hpkgs, hmods, hmdls⟩ := hwb
  obtain ⟨⟨hrefm0, hdotn0, hdashn0, hdashr0, hdec0⟩, hexm0, hmodm0⟩ :=
    hmods (mdKey, md) (alookup_mem hmd)
  have hrefm : md.ref = mdKey := hrefm0
  have hdotn : dotFree md.name := hdotn0
  have hdashn : dashFree md.name := hdashn0
  have hdashr : dashFree mdKey := hdashr0
  have hdec : mdKey = makeRef [parentRef mdKey, md.name] := hdec0
  have hexm : ∃ p ∈ st2.packages, mdKey ∈ p.2.modules := hexm0
  have hmodm : ∀ mr ∈ md.models, mr ∈ akeys st2.models ∧ parentRef mr = mdKey :=
    hmodm0
  have hpar : parentRef model.ref = mdKey := by
    rw [hmref]
    exact parentRef_makeRef2 _ _ hdotd
  have hdashmr : dashFree model.ref := by
    rw [hmref]
    exact dashFree_makeRef2 hdashr hdd
  have hcount : 2 ≤ model.ref.data.count '.' := by
    have h1 : 1 ≤ mdKey.data.count '.' := by
      rw [hdec, data_makeRef2, count_dot_decomp]
      omega
    rw [hmref, data_makeRef2, count_dot_decomp]
    omega
  refine ⟨⟨hnp, ?_, akeys_aupdate_nodup _ _ _ hnd⟩, ?_, ?_, ?_⟩
  · rw [akeys_aupdate_mem _ _ _ (alookup_some_mem hmd)]
    exact hnm
  · intro p hp
    obtain ⟨hr, hd2, hs⟩ := hpkgs p hp
    refine ⟨hr, hd2, ?_⟩
    intro mr hmr
    rw [akeys_aupdate_mem _ _ _ (alookup_some_mem hmd)]
    exact hs mr hmr
  · intro m' hm'
    rcases mem_aupdate hm' with h2 | h2
    · obtain ⟨hshape, hex, hmodels⟩ := hmods m' h2
      refine ⟨hshape, hex, ?_⟩
      intro mr hmr
      obtain ⟨ha, hb⟩ := hmodels mr hmr
      exact ⟨akeys_mono ha, hb⟩
    · rw [h2]
      refine ⟨⟨hrefm, hdotn, hdashn, hdashr, hdec⟩, hexm, ?_⟩
      intro mr hmr
      rcases List.mem_append.mp hmr with h3 | h3
      · obtain ⟨ha, hb⟩ := hmodm mr h3
        exact ⟨akeys_mono ha, hb⟩
      · rw [List.mem_singleton.mp h3]
        exact ⟨akeys_self_mem _ _ _, hpar⟩
  · intro md' hmd'
    rcases mem_aupdate hmd' with h2 | h2
    · obtain ⟨⟨hr3, hd3, hc3, hl3⟩, hex3⟩ := hmdls md' h2
      refine ⟨⟨hr3, hd3, hc3, alookup_ne_none_aupdate hl3⟩, ?_⟩
      obtain ⟨m0, hm0, hm0m⟩ := hex3
      by_cases hme : m0.1 = mdKey
      · have hlk : alookup st2.modules m0.1 = some m0.2 :=
          alookup_of_mem_nodup hnm (by rcases m0 with ⟨ma, mb⟩; exact hm0)
        rw [hme, hmd] at hlk
        have hm02 : m0.2 = md := by
          injection hlk with hx
          exact hx.symm
        refine ⟨(mdKey, { md with models := md.models ++ [model.ref] }),
          aupdate_mem_self _ _ _, ?_⟩
        have : md'.1 ∈ md.models := by
          rw [← hm02]
          exact hm0m
        exact List.mem_append.mpr (Or.inl this)
      · exact ⟨m0, mem_aupdate_of_ne hm0 hme, hm0m⟩
    · rw [h2]
      refine ⟨⟨rfl, hdashmr, hcount, ?_⟩, ?_⟩
      · rw [hpar, alookup_aupdate_self]
        intro hc
        cases hc
      · exact ⟨(mdKey, { md with models := md.models ++ [model.ref] }),
          aupdate_mem_self _ _ _,
          List.mem_append.mpr (Or.inr (List.mem_singleton.mpr rfl))⟩

theorem parseOne_wellBuilt {st st' : ParserState}
    {x : String × RawDefinition}
    (h : parseOne st x = Except.ok st') (hwb : WellBuilt st) :
    WellBuilt st' := by
  cases hs : splitRef3 (dropChars x.1 7) with
  | error e =>
    rw [parseOne, hs] at h
    cases h
  | ok t =>
    obtain ⟨pref, mname, dname⟩ := t
    obtain ⟨hdecomp, hdoty, hdotz, hdashx, hdashy, hdashz⟩ :=
      splitRef3_ok_spec _ _ _ _ hs
    have P1 := getPackage_spec st pref hwb hdashx
    have hpk2 : alookup (getPackage st pref).1.packages
        (getPackage st pref).2.ref = some (getPackage st pref).2 := by
      rw [P1.2.1]
      exact P1.2.2.1
    have P2 := getModule_spec (getPackage st pref).1 (getPackage st pref).2
      mname P1.1 hpk2 hdoty hdashy
    rw [parseOne, hs] at h
    have hst : st' =
        { (getModule (getPackage st pref).1 (getPackage st pref).2 mname).1
          with
          modules := aupdate
            (getModule (getPackage st pref).1 (getPackage st pref).2
              mname).1.modules
            (getModule (getPackage st pref).1 (getPackage st pref).2
              mname).2.ref
            { (getModule (getPackage st pref).1 (getPackage st pref).2
                mname).2 with
              models := (getModule (getPackage st pref).1
                (getPackage st pref).2 mname).2.models ++
                [(Model.mk (makeRef [(getPackage st pref).2.ref,
                   (getModule (getPackage st pref).1 (getPackage st pref).2
                     mname).2.name, dname])
                  (Definition.mk dname x.2.description
                    (x.2.properties.map (fun fp =>
                      Field.mk fp.1 fp.2.description (TypeSlot.raw fp.2.type)
                        fp.2.ref))
                    x.2.gvks)).ref] },
          models := aupdate
            (getModule (getPackage st pref).1 (getPackage st pref).2
              mname).1.models
            (Model.mk (makeRef [(getPackage st pref).2.ref,
               (getModule (getPackage st pref).1 (getPackage st pref).2
                 mname).2.name, dname])
              (Definition.mk dname x.2.description
                (x.2.properties.map (fun fp =>
                  Field.mk fp.1 fp.2.description (TypeSlot.raw fp.2.type)
                    fp.2.ref))
                x.2.gvks)).ref
            (Model.mk (makeRef [(getPackage st pref).2.ref,
               (getModule (getPackage st pref).1 (getPackage st pref).2
                 mname).2.name, dname])
              (Definition.mk dname x.2.description
                (x.2.properties.map (fun fp =>
                  Field.mk fp.1 fp.2.description (TypeSlot.raw fp.2.type)
                    fp.2.ref))
                x.2.gvks)) } := by
      injection h with hh
      exact hh.symm
    rw [hst]
    have hmref : (Model.mk (makeRef [(getPackage st pref).2.ref,
        (getModule (getPackage st pref).1 (getPackage st pref).2
          mname).2.name, dname])
        (Definition.mk dname x.2.description
          (x.2.properties.map (fun fp =>
            Field.mk fp.1 fp.2.description (TypeSlot.raw fp.2.type)
              fp.2.ref))
          x.2.gvks)).ref =
        makeRef [(getModule (getPackage st pref).1 (getPackage st pref).2
          mname).2.ref, dname] := by
      show makeRef [(getPackage st pref).2.ref,
        (getModule (getPackage st pref).1 (getPackage st pref).2
          mname).2.name, dname] = _
      rw [P2.2.2.1, P2.2.1, makeRef3_assoc]
    have hmd : alookup (getModule (getPackage st pref).1
        (getPackage st pref).2 mname).1.modules
        (getModule (getPackage st pref).1 (getPackage st pref).2
          mname).2.ref =
        some (getModule (getPackage st pref).1 (getPackage st pref).2
          mname).2 := by
      rw [P2.2.1]
      exact P2.2.2.2.1
    exact registerModel_wellBuilt _ _ _ _ dname P2.1 hmd hmref hdashz hdotz

theorem parseModelsFrom_wellBuilt (l : List (String × RawDefinition)) :
    ∀ st st', parseModelsFrom st l = Except.ok st' → WellBuilt st →
      WellBuilt st' := by
  induction l with
  | nil =>
    intro st st' h hwb
    cases h
    exact hwb
  | cons x xs ih =>
    intro st st' h hwb
    cases ho : parseOne st x with
    | error e =>
      rw [parseModelsFrom, ho] at h
      cases h
    | ok st1 =>
      rw [parseModelsFrom, ho] at h
      exact ih st1 st' h (parseOne_wellBuilt ho hwb)

theorem parseModels_wellBuilt {input : List (String × RawDefinition)}
    {st : ParserState} (h : parseModels input = Except.ok st) :
    WellBuilt st :=
  parseModelsFrom_wellBuilt input _ _ h (by decide)

/-! ### Resolve-phase invariants -/

theorem resolveRef_ok_spec {st st' : ParserState} {r mref : String}
    (hwb : WellBuilt st) (h : resolveRef st r = (st', Except.ok mref)) :
    WellBuilt st' ∧ st'.models = st.models ∧ mref ∈ akeys st.models ∧
    (∀ k, alookup st.modules k ≠ none →
      alookup st'.modules k = alookup st.modules k) ∧
    ∃ key3 : String × String × String,
      splitRef3 (dropChars r 21) = Except.ok key3 ∧
      mref = makeRef [key3.1, key3.2.1, key3.2.2] := by
  cases hs : splitRef3 (dropChars r 21) with
  | error e =>
    simp only [resolveRef, hs] at h
    injection h with h1 h2
    cases h2
  | ok t =>
    obtain ⟨pref, mname, dname⟩ := t
    obtain ⟨hdecomp, hdoty, hdotz, hdashx, hdashy, hdashz⟩ :=
      splitRef3_ok_spec _ _ _ _ hs
    have P1 := getPackage_spec st pref hwb hdashx
    have hpk2 : alookup (getPackage st pref).1.packages
        (getPackage st pref).2.ref = some (getPackage st pref).2 := by
      rw [P1.2.1]
      exact P1.2.2.1
    have P2 := getModule_spec (getPackage st pref).1 (getPackage st pref).2
      mname P1.1 hpk2 hdoty hdashy
    simp only [resolveRef, hs] at h
    cases hm : alookup (getModule (getPackage st pref).1
        (getPackage st pref).2 mname).1.models
        (makeRef [(getPackage st pref).2.ref,
          (getModule (getPackage st pref).1 (getPackage st pref).2
            mname).2.name, dname]) with
    | none =>
      simp only [getModel, hm] at h
      injection h with h1 h2
      cases h2
    | some model =>
      simp only [getModel, hm] at h
      injection h with hst hok
      have hmref : mref = makeRef [(getPackage st pref).2.ref,
          (getModule (getPackage st pref).1 (getPackage st pref).2
            mname).2.name, dname] := by
        injection hok with hx
        exact hx.symm
      have hmodels : (getModule (getPackage st pref).1 (getPackage st pref).2
          mname).1.models = st.models := by
        rw [P2.2.2.2.2.1, P1.2.2.2.2]
      subst hst
      refine ⟨P2.1, hmodels, ?_, ?_, (pref, mname, dname), rfl, ?_⟩
      · rw [hmodels] at hm
        rw [hmref]
        exact alookup_some_mem hm
      · intro k hk
        have e1 : (getPackage st pref).1.modules = st.modules := P1.2.2.2.1
        have := P2.2.2.2.2.2 k (by rw [e1]; exact hk)
        rw [e1] at this
        exact this
      · rw [hmref, P1.2.1, P2.2.2.1]

theorem resolveField_ok_spec {st st' : ParserState} {f f' : Field}
    (hwb : WellBuilt st) (h : resolveField st f = (st', Except.ok f')) :
    WellBuilt st' ∧ st'.models = st.models ∧
    (∀ k, alookup st.modules k ≠ none →
      alookup st'.modules k = alookup st.modules k) ∧
    f'.name = f.name ∧ f'.description = f.description ∧ f'.ref = f.ref ∧
    isResolved f'.type = true ∧
    ((∀ mref, f.type = TypeSlot.modelRef mref → mref ∈ akeys st.models) →
      ∀ mref, f'.type = TypeSlot.modelRef mref → mref ∈ akeys st.models) ∧
    (∀ rr, f.ref = some rr → rr ≠ "" →
      ∃ key3 : String × String × String,
        splitRef3 (dropChars rr 21) = Except.ok key3 ∧
        f'.type = TypeSlot.modelRef (makeRef [key3.1, key3.2.1, key3.2.2]) ∧
        makeRef [key3.1, key3.2.1, key3.2.2] ∈ akeys st.models) := by
  have hprim : ∀ t, isResolved (primResolve t) = true := by
    intro t
    cases t <;> rfl
  obtain ⟨fn, fdesc, ft, fr⟩ := f
  cases fr with
  | none =>
    simp only [resolveField] at h
    injection h with h1 h2
    have hf' : f' = ⟨fn, fdesc, primResolve ft, none⟩ := by
      injection h2 with hx
      exact hx.symm
    subst hf'
    subst h1
    refine ⟨hwb, rfl, fun k _ => rfl, rfl, rfl, rfl, hprim ft, ?_, ?_⟩
    · intro hs0 mref hmr
      cases hft : ft with
      | raw t =>
        rw [hft] at hmr
        cases hmr
      | primitive n =>
        rw [hft] at hmr
        cases hmr
      | modelRef rq =>
        rw [hft] at hmr
        have hq : rq = mref := by injection hmr
        exact hs0 mref (by rw [hft, hq])
    · intro rr hrr
      cases hrr
  | some rr =>
    by_cases hre : rr = ""
    · subst hre
      simp only [resolveField] at h
      rw [if_true] at h
      injection h with h1 h2
      have hf' : f' = ⟨fn, fdesc, primResolve ft, some ""⟩ := by
        injection h2 with hx
        exact hx.symm
      subst hf'
      subst h1
      refine ⟨hwb, rfl, fun k _ => rfl, rfl, rfl, rfl, hprim ft, ?_, ?_⟩
      · intro hs0 mref hmr
        cases hft : ft with
        | raw t =>
          rw [hft] at hmr
          cases hmr
        | primitive n =>
          rw [hft] at hmr
          cases hmr
        | modelRef rq =>
          rw [hft] at hmr
          have hq : rq = mref := by injection hmr
          exact hs0 mref (by rw [hft, hq])
      · intro rr' hrr' hne
        have : ("" : String) = rr' := by injection hrr'
        exact absurd this.symm hne
    · rcases hrr2 : resolveRef st rr with ⟨st2, res⟩
      cases res with
      | error e =>
        simp only [resolveField, if_neg hre, hrr2] at h
        injection h with h1 h2
        cases h2
      | ok mref =>
        simp only [resolveField, if_neg hre, hrr2] at h
        injection h with h1 h2
        have hf' : f' = ⟨fn, fdesc, TypeSlot.modelRef mref, some rr⟩ := by
          injection h2 with hx
          exact hx.symm
        subst hf'
        subst h1
        obtain ⟨hwb', hmeq, hmem, hpres, key3, hkey, hmrefeq⟩ :=
          resolveRef_ok_spec hwb hrr2
        refine ⟨hwb', hmeq, hpres, rfl, rfl, rfl, rfl, ?_, ?_⟩
        · intro _ mref' hmr'
          have hq : mref = mref' := by injection hmr'
          rw [← hq]
          exact hmem
        · intro rr' hrr' hne
          have hrre : rr = rr' := by injection hrr'
          refine ⟨key3, by rw [← hrre]; exact hkey, by rw [hmrefeq], ?_⟩
          rw [← hmrefeq]
          exact hmem

theorem resolveFieldList_ok_spec :
    ∀ (fs : List Field) (st st' : ParserState) (fs' : List Field),
      WellBuilt st → resolveFieldList st fs = (st', Except.ok fs') →
      WellBuilt st' ∧ st'.models = st.models ∧
      (∀ k, alookup st.modules k ≠ none →
        alookup st'.modules k = alookup st.modules k) ∧
      List.Forall₂ (FieldResolves (akeys st.models)) fs fs' := by
  intro fs
  induction fs with
  | nil =>
    intro st st' fs' hwb h
    simp only [resolveFieldList] at h
    injection h with h1 h2
    have hfs : fs' = [] := by
      injection h2 with hx
      exact hx.symm
    subst h1
    subst hfs
    exact ⟨hwb, rfl, fun k _ => rfl, List.Forall₂.nil⟩
  | cons f fsrest ih =>
    intro st st' fs' hwb h
    rcases h1 : resolveField st f with ⟨st1, res1⟩
    cases res1 with
    | error e =>
      simp only [resolveFieldList, h1] at h
      injection h with ha hb
      cases hb
    | ok f1 =>
      rcases h2 : resolveFieldList st1 fsrest with ⟨st2, res2⟩
      cases res2 with
      | error e =>
        simp only [resolveFieldList, h1, h2] at h
        injection h with ha hb
        cases hb
      | ok fs1 =>
        simp only [resolveFieldList, h1, h2] at h
        injection h with ha hb
        have hfs : fs' = f1 :: fs1 := by
          injection hb with hx
          exact hx.symm
        subst ha
        subst hfs
        obtain ⟨hwb1, hmeq1, hpres1, hname1, hdesc1, href1, hres1, himp1,
          hkey1⟩ := resolveField_ok_spec hwb h1
        obtain ⟨hwb2, hmeq2, hpres2, hfa2⟩ := ih st1 st2 fs1 hwb1 h2
        refine ⟨hwb2, by rw [hmeq2, hmeq1], ?_, ?_⟩
        · intro k hk
          have hk1 : alookup st1.modules k ≠ none := by
            rw [hpres1 k hk]
            exact hk
          rw [hpres2 k hk1, hpres1 k hk]
        · refine List.Forall₂.cons
            ⟨hname1, hdesc1, href1, hres1, himp1, hkey1⟩ ?_
          have hkeq : akeys st1.models = akeys st.models := by
            rw [hmeq1]
          rw [← hkeq]
          exact hfa2

theorem forall2_right_mem {α β : Type} {R : α → β → Prop} :
    ∀ {l : List α} {l' : List β}, List.Forall₂ R l l' →
      ∀ b ∈ l', ∃ a ∈ l, R a b := by
  intro l l' h
  induction h with
  | nil =>
    intro b hb
    cases hb
  | @cons a b l1 l2 hR hF ih =>
    intro b' hb'
    rcases List.mem_cons.mp hb' with h1 | h2
    · exact ⟨a, List.mem_cons_self _ _, h1 ▸ hR⟩
    · rcases ih b' h2 with ⟨a', ha', hr'⟩
      exact ⟨a', List.mem_cons_of_mem _ ha', hr'⟩

theorem scanFields_state_spec :
    ∀ (fs : List Field) (st : ParserState)
      (imports : List (String × Import)) (mp : String)
      (st' : ParserState) (imports' : List (String × Import)),
      WellBuilt st → scanFields st imports mp fs = Except.ok (st', imports') →
      WellBuilt st' ∧ st'.models = st.models ∧
      (∀ k, alookup st.modules k ≠ none →
        alookup st'.modules k = alookup st.modules k) := by
  intro fs
  induction fs with
  | nil =>
    intro st imports mp st' imports' hwb h
    simp only [scanFields] at h
    injection h with h1
    injection h1 with ha hb
    subst ha
    exact ⟨hwb, rfl, fun k _ => rfl⟩
  | cons f fsrest ih =>
    intro st imports mp st' imports' hwb h
    cases hft : f.type with
    | raw t =>
      simp only [scanFields, hft] at h
      exact ih st imports mp st' imports' hwb h
    | primitive n =>
      simp only [scanFields, hft] at h
      exact ih st imports mp st' imports' hwb h
    | modelRef ftRef =>
      by_cases hpe : parentRef ftRef = mp
      · simp only [scanFields, hft, if_pos hpe] at h
        exact ih st imports mp st' imports' hwb h
      · cases him : alookup imports (parentRef ftRef) with
        | some imp =>
          simp only [scanFields, hft, if_neg hpe, him] at h
          exact ih st _ mp st' imports' hwb h
        | none =>
          cases hs : splitRef3 ftRef with
          | error e =>
            simp only [scanFields, hft, if_neg hpe, him, hs] at h
            cases h
          | ok t3 =>
            obtain ⟨pref, mname, dname⟩ := t3
            obtain ⟨hdecomp, hdoty, hdotz, hdashx, hdashy, hdashz⟩ :=
              splitRef3_ok_spec _ _ _ _ hs
            have P1 := getPackage_spec st pref hwb hdashx
            have hpk2 : alookup (getPackage st pref).1.packages
                (getPackage st pref).2.ref = some (getPackage st pref).2 := by
              rw [P1.2.1]
              exact P1.2.2.1
            have P2 := getModule_spec (getPackage st pref).1
              (getPackage st pref).2 mname P1.1 hpk2 hdoty hdashy
            simp only [scanFields, hft, if_neg hpe, him, hs] at h
            obtain ⟨hwb3, hme3, hlp3⟩ := ih _ _ mp st' imports' P2.1 h
            refine ⟨hwb3, ?_, ?_⟩
            · rw [hme3, P2.2.2.2.2.1, P1.2.2.2.2]
            · intro k hk
              have e1 : (getPackage st pref).1.modules = st.modules :=
                P1.2.2.2.1
              have hk1 : alookup (getPackage st pref).1.modules k ≠ none := by
                rw [e1]
                exact hk
              have h2 := P2.2.2.2.2.2 k hk1
              have hk2 : alookup (getModule (getPackage st pref).1
                  (getPackage st pref).2 mname).1.modules k ≠ none := by
                rw [h2, e1]
                exact hk
              rw [hlp3 k hk2, h2, e1]

theorem fieldResolves_trans {ks : List String} {f f' f'' : Field}
    (h1 : FieldResolves ks f f') (h2 : FieldResolves ks f' f'') :
    FieldResolves ks f f'' := by
  obtain ⟨n1, d1, r1, i1, m1, k1⟩ := h1
  obtain ⟨n2, d2, r2, i2, m2, k2⟩ := h2
  refine ⟨by rw [n2, n1], by rw [d2, d1], by rw [r2, r1], i2, ?_, ?_⟩
  · intro hp
    exact m2 (m1 hp)
  · intro rr hrr hne
    obtain ⟨key3, hk3, ht3, hm3⟩ := k1 rr hrr hne
    obtain ⟨key3', hk3', ht3', hm3'⟩ := k2 rr (by rw [r1]; exact hrr) hne
    have hkk : key3 = key3' := by
      rw [hk3] at hk3'
      injection hk3' with hx
    exact ⟨key3, hk3, by rw [hkk]; exact ht3', hm3⟩

theorem forall2_trans {α : Type} {R : α → α → Prop}
    (hR : ∀ a b c, R a b → R b c → R a c) :
    ∀ {l1 l2 l3 : List α}, List.Forall₂ R l1 l2 → List.Forall₂ R l2 l3 →
      List.Forall₂ R l1 l3 := by
  intro l1 l2 l3 h12
  induction h12 generalizing l3 with
  | nil =>
    intro h23
    cases h23
    exact List.Forall₂.nil
  | @cons a b t1 t2 hab ht ih =>
    intro h23
    cases h23 with
    | cons hbc htc =>
      exact List.Forall₂.cons (hR _ _ _ hab hbc) (ih htc)

theorem modelsCorr_refl (ks : List String) (st : ParserState) :
    ModelsCorr ks st st :=
  fun k model0 hk => ⟨model0, hk, rfl, rfl, Or.inl rfl⟩

theorem modelsCorr_comp {ks : List String} {st1 st2 st3 : ParserState}
    (h12 : ModelsCorr ks st1 st2) (h23 : ModelsCorr ks st2 st3) :
    ModelsCorr ks st1 st3 := by
  intro k model0 hk
  obtain ⟨model1, hk1, hr1, hn1, hf1⟩ := h12 k model0 hk
  obtain ⟨model2, hk2, hr2, hn2, hf2⟩ := h23 k model1 hk1
  refine ⟨model2, hk2, by rw [hr2, hr1], by rw [hn2, hn1], ?_⟩
  rcases hf1 with he1 | hfa1
  · rcases hf2 with he2 | hfa2
    · exact Or.inl (by rw [he2, he1])
    · exact Or.inr (he1 ▸ hfa2)
  · rcases hf2 with he2 | hfa2
    · exact Or.inr (he2 ▸ hfa1)
    · exact Or.inr (@forall2_trans Field (FieldResolves ks)
        (fun a b c hab hbc => fieldResolves_trans hab hbc) _ _ _ hfa1 hfa2)

theorem forall2_left_mem {α β : Type} {R : α → β → Prop} :
    ∀ {l : List α} {l' : List β}, List.Forall₂ R l l' →
      ∀ a ∈ l, ∃ b ∈ l', R a b := by
  intro l l' h
  induction h with
  | nil =>
    intro a ha
    cases ha
  | @cons a b l1 l2 hR hF ih =>
    intro a' ha'
    rcases List.mem_cons.mp ha' with h1 | h2
    · exact ⟨b, List.mem_cons_self _ _, h1 ▸ hR⟩
    · rcases ih a' h2 with ⟨b', hb', hr'⟩
      exact ⟨b', List.mem_cons_of_mem _ hb', hr'⟩

theorem getPackage_models_eq (st : ParserState) (pref : String) :
    (getPackage st pref).1.models = st.models := by
  cases h : alookup st.packages pref with
  | none => simp only [getPackage, h]
  | some p => simp only [getPackage, h]

theorem getModule_models_eq (st : ParserState) (pkg : Package)
    (mname : String) :
    (getModule st pkg mname).1.models = st.models := by
  cases h : alookup st.modules (makeRef [pkg.ref, mname]) with
  | none => simp only [getModule, h]
  | some m => simp only [getModule, h]

theorem parseOne_models_raw {st st' : ParserState}
    {x : String × RawDefinition} (h : parseOne st x = Except.ok st') :
    ∀ e ∈ st'.models, e ∈ st.models ∨
      ∀ f ∈ e.2.definition.fields, isResolved f.type = false := by
  cases hs : splitRef3 (dropChars x.1 7) with
  | error e =>
    rw [parseOne, hs] at h
    cases h
  | ok t =>
    obtain ⟨pref, mname, dname⟩ := t
    rw [parseOne, hs] at h
    injection h with hh
    intro e he
    rw [← hh] at he
    have hmodels2 : (getModule (getPackage st pref).1 (getPackage st pref).2
        mname).1.models = st.models := by
      rw [getModule_models_eq, getPackage_models_eq]
    simp only [hmodels2] at he
    rcases mem_aupdate he with h2 | h2
    · exact Or.inl h2
    · right
      intro f hf
      rw [h2] at hf
      simp only at hf
      rcases List.mem_map.mp hf with ⟨fp, _, hfp⟩
      rw [← hfp]
      rfl

theorem parseModelsFrom_allRaw (l : List (String × RawDefinition)) :
    ∀ st st', parseModelsFrom st l = Except.ok st' → AllRaw st →
      AllRaw st' := by
  induction l with
  | nil =>
    intro st st' h hraw
    cases h
    exact hraw
  | cons x xs ih =>
    intro st st' h hraw
    cases ho : parseOne st x with
    | error e =>
      rw [parseModelsFrom, ho] at h
      cases h
    | ok st1 =>
      rw [parseModelsFrom, ho] at h
      refine ih st1 st' h ?_
      intro e he f hf
      rcases parseOne_models_raw ho e he with h2 | h2
      · exact hraw e h2 f hf
      · exact h2 f hf

theorem parseModels_allRaw {input : List (String × RawDefinition)}
    {st : ParserState} (h : parseModels input = Except.ok st) :
    AllRaw st :=
  parseModelsFrom_allRaw input _ _ h (by intro e he; cases he)

theorem getPackage_modules_eq (st : ParserState) (pref : String) :
    (getPackage st pref).1.modules = st.modules := by
  cases h : alookup st.packages pref with
  | none => simp only [getPackage, h]
  | some p => simp only [getPackage, h]

theorem parseOne_named {st st' : ParserState}
    {x : String × RawDefinition} (h : parseOne st x = Except.ok st') :
    ∀ e ∈ st'.models, e ∈ st.models ∨
      (dotFree e.2.definition.name ∧
       e.1 = makeRef [parentRef e.1, e.2.definition.name]) := by
  cases hs : splitRef3 (dropChars x.1 7) with
  | error e =>
    rw [parseOne, hs] at h
    cases h
  | ok t =>
    obtain ⟨pref, mname, dname⟩ := t
    obtain ⟨hdec, hdoty, hdotz, hdx, hdy, hdz⟩ :=
      splitRef3_ok_spec _ _ _ _ hs
    rw [parseOne, hs] at h
    injection h with hh
    intro e he
    rw [← hh] at he
    have hmodels2 : (getModule (getPackage st pref).1 (getPackage st pref).2
        mname).1.models = st.models := by
      rw [getModule_models_eq, getPackage_models_eq]
    simp only [hmodels2] at he
    rcases mem_aupdate he with h2 | h2
    · exact Or.inl h2
    · right
      rw [h2]
      dsimp only
      refine ⟨hdotz, ?_⟩
      rw [parentRef_makeRef3 _ _ _ hdotz]
      exact makeRef3_assoc _ _ _

theorem parseModelsFrom_named (l : List (String × RawDefinition)) :
    ∀ st st', parseModelsFrom st l = Except.ok st' →
      (∀ e ∈ st.models, dotFree e.2.definition.name ∧
        e.1 = makeRef [parentRef e.1, e.2.definition.name]) →
      ∀ e ∈ st'.models, dotFree e.2.definition.name ∧
        e.1 = makeRef [parentRef e.1, e.2.definition.name] := by
  induction l with
  | nil =>
    intro st st' h hn
    cases h
    exact hn
  | cons x xs ih =>
    intro st st' h hn
    cases ho : parseOne st x with
    | error e =>
      rw [parseModelsFrom, ho] at h
      cases h
    | ok st1 =>
      rw [parseModelsFrom, ho] at h
      refine ih st1 st' h ?_
      intro e he
      rcases parseOne_named ho e he with h2 | h2
      · exact hn e h2
      · exact h2

theorem parseModels_named {input : List (String × RawDefinition)}
    {st : ParserState} (h : parseModels input = Except.ok st) :
    ∀ e ∈ st.models, dotFree e.2.definition.name ∧
      e.1 = makeRef [parentRef e.1, e.2.definition.name] :=
  parseModelsFrom_named input _ _ h (by intro e he; cases he)

theorem parseModels_modelsOk {input : List (String × RawDefinition)}
    {st : ParserState} (h : parseModels input = Except.ok st) :
    ModelsOk st := by
  have hraw := parseModels_allRaw h
  have hnam := parseModels_named h
  intro e he
  refine ⟨hnam e he, ?_⟩
  intro f hf
  have hr := hraw e he f hf
  constructor
  · intro mref hmr
    rw [hmr] at hr
    simp [isResolved] at hr
  · intro mref hmr
    rw [hmr] at hr
    simp [isResolved] at hr

theorem getModule_imports_inv (st : ParserState) (pkg : Package)
    (mname : String) (hn : ∀ e ∈ st.modules, e.2.imports = []) :
    (∀ e ∈ (getModule st pkg mname).1.modules, e.2.imports = []) ∧
    (getModule st pkg mname).2.imports = [] := by
  cases hh : alookup st.modules (makeRef [pkg.ref, mname]) with
  | none =>
    simp only [getModule, hh]
    constructor
    · intro e he
      rcases mem_aupdate he with h2 | h2
      · exact hn e h2
      · rw [h2]
    · trivial
  | some m =>
    simp only [getModule, hh]
    exact ⟨hn, hn _ (alookup_mem hh)⟩

theorem parseOne_imports_inv {st st' : ParserState}
    {x : String × RawDefinition} (h : parseOne st x = Except.ok st')
    (hn : ∀ e ∈ st.modules, e.2.imports = []) :
    ∀ e ∈ st'.modules, e.2.imports = [] := by
  cases hs : splitRef3 (dropChars x.1 7) with
  | error e =>
    rw [parseOne, hs] at h
    cases h
  | ok t =>
    obtain ⟨pref, mname, dname⟩ := t
    rw [parseOne, hs] at h
    injection h with hh
    intro e he
    rw [← hh] at he
    have hn1 : ∀ e ∈ (getPackage st pref).1.modules, e.2.imports = [] := by
      rw [getPackage_modules_eq]
      exact hn
    obtain ⟨hn2, hsnd⟩ := getModule_imports_inv (getPackage st pref).1
      (getPackage st pref).2 mname hn1
    rcases mem_aupdate he with h2 | h2
    · exact hn2 e h2
    · rw [h2]
      exact hsnd

theorem parseModelsFrom_imports_inv (l : List (String × RawDefinition)) :
    ∀ st st', parseModelsFrom st l = Except.ok st' →
      (∀ e ∈ st.modules, e.2.imports = []) →
      ∀ e ∈ st'.modules, e.2.imports = [] := by
  induction l with
  | nil =>
    intro st st' h hn
    cases h
    exact hn
  | cons x xs ih =>
    intro st st' h hn
    cases ho : parseOne st x with
    | error e =>
      rw [parseModelsFrom, ho] at h
      cases h
    | ok st1 =>
      rw [parseModelsFrom, ho] at h
      exact ih st1 st' h (parseOne_imports_inv ho hn)

theorem parseModels_allImportsOk {input : List (String × RawDefinition)}
    {st : ParserState} (h : parseModels input = Except.ok st) :
    AllImportsOk st := by
  have hnil : ∀ e ∈ st.modules, e.2.imports = [] :=
    parseModelsFrom_imports_inv input _ _ h (by intro e he; cases he)
  intro k md hk imp himp
  have : md.imports = [] := hnil (k, md) (alookup_mem hk)
  rw [this] at himp
  cases himp

theorem getModule_grow (st : ParserState) (pkg : Package) (mname : String) :
    ∀ k md, alookup (getModule st pkg mname).1.modules k = some md →
      alookup st.modules k = some md ∨ md.imports = [] := by
  cases hh : alookup st.modules (makeRef [pkg.ref, mname]) with
  | none =>
    simp only [getModule, hh]
    intro k md hk
    by_cases hke : k = makeRef [pkg.ref, mname]
    · subst hke
      rw [alookup_aupdate_self] at hk
      right
      injection hk with hx
      rw [← hx]
    · rw [alookup_aupdate_ne _ _ _ _ hke] at hk
      exact Or.inl hk
  | some m =>
    simp only [getModule, hh]
    intro k md hk
    exact Or.inl hk

theorem resolveRef_grow (st : ParserState) (r : String) :
    ∀ k md, alookup (resolveRef st r).1.modules k = some md →
      alookup st.modules k = some md ∨ md.imports = [] := by
  cases hs : splitRef3 (dropChars r 21) with
  | error e =>
    simp only [resolveRef, hs]
    intro k md hk
    exact Or.inl hk
  | ok t =>
    obtain ⟨pref, mname, dname⟩ := t
    simp only [resolveRef, hs]
    intro k md hk
    rcases getModule_grow (getPackage st pref).1 (getPackage st pref).2
      mname k md hk with h2 | h2
    · rw [getPackage_modules_eq] at h2
      exact Or.inl h2
    · exact Or.inr h2

theorem resolveField_grow {st st' : ParserState} {f f' : Field}
    (h : resolveField st f = (st', Except.ok f')) :
    ∀ k md, alookup st'.modules k = some md →
      alookup st.modules k = some md ∨ md.imports = [] := by
  obtain ⟨fn, fdesc, ft, fr⟩ := f
  cases fr with
  | none =>
    simp only [resolveField] at h
    injection h with h1 h2
    subst h1
    intro k md hk
    exact Or.inl hk
  | some rr =>
    by_cases hre : rr = ""
    · subst hre
      simp only [resolveField] at h
      rw [if_true] at h
      injection h with h1 h2
      subst h1
      intro k md hk
      exact Or.inl hk
    · rcases hrr2 : resolveRef st rr with ⟨st2, res⟩
      cases res with
      | error e =>
        simp only [resolveField, if_neg hre, hrr2] at h
        injection h with h1 h2
        cases h2
      | ok mref =>
        simp only [resolveField, if_neg hre, hrr2] at h
        injection h with h1 h2
        subst h1
        intro k md hk
        exact resolveRef_grow st rr k md (by rw [hrr2]; exact hk)

theorem resolveFieldList_grow :
    ∀ (fs : List Field) (st st' : ParserState) (fs' : List Field),
      resolveFieldList st fs = (st', Except.ok fs') →
      ∀ k md, alookup st'.modules k = some md →
        alookup st.modules k = some md ∨ md.imports = [] := by
  intro fs
  induction fs with
  | nil =>
    intro st st' fs' h
    simp only [resolveFieldList] at h
    injection h with h1 h2
    subst h1
    intro k md hk
    exact Or.inl hk
  | cons f fsrest ih =>
    intro st st' fs' h
    rcases h1 : resolveField st f with ⟨st1, res1⟩
    cases res1 with
    | error e =>
      simp only [resolveFieldList, h1] at h
      injection h with ha hb
      cases hb
    | ok f1 =>
      rcases h2 : resolveFieldList st1 fsrest with ⟨st2, res2⟩
      cases res2 with
      | error e =>
        simp only [resolveFieldList, h1, h2] at h
        injection h with ha hb
        cases hb
      | ok fs1 =>
        simp only [resolveFieldList, h1, h2] at h
        injection h with ha hb
        subst ha
        intro k md hk
        rcases ih st1 st2 fs1 h2 k md hk with hA | hA
        · exact resolveField_grow h1 k md hA
        · exact Or.inr hA

theorem scanFields_grow :
    ∀ (fs : List Field) (st : ParserState)
      (imports : List (String × Import)) (mp : String)
      (st' : ParserState) (imports' : List (String × Import)),
      scanFields st imports mp fs = Except.ok (st', imports') →
      ∀ k md, alookup st'.modules k = some md →
        alookup st.modules k = some md ∨ md.imports = [] := by
  intro fs
  induction fs with
  | nil =>
    intro st imports mp st' imports' h
    simp only [scanFields] at h
    injection h with h1
    injection h1 with ha hb
    subst ha
    intro k md hk
    exact Or.inl hk
  | cons f fsrest ih =>
    intro st imports mp st' imports' h
    cases hft : f.type with
    | raw t =>
      simp only [scanFields, hft] at h
      exact ih st imports mp st' imports' h
    | primitive n =>
      simp only [scanFields, hft] at h
      exact ih st imports mp st' imports' h
    | modelRef ftRef =>
      by_cases hpe : parentRef ftRef = mp
      · simp only [scanFields, hft, if_pos hpe] at h
        exact ih st imports mp st' imports' h
      · cases him : alookup imports (parentRef ftRef) with
        | some imp =>
          simp only [scanFields, hft, if_neg hpe, him] at h
          exact ih st _ mp st' imports' h
        | none =>
          cases hs : splitRef3 ftRef with
          | error e =>
            simp only [scanFields, hft, if_neg hpe, him, hs] at h
            cases h
          | ok t3 =>
            obtain ⟨pref, mname, dname⟩ := t3
            simp only [scanFields, hft, if_neg hpe, him, hs] at h
            intro k md hk
            rcases ih _ _ mp st' imports' h k md hk with hA | hA
            · rcases getModule_grow (getPackage st pref).1
                (getPackage st pref).2 mname k md hA with hB | hB
              · rw [getPackage_modules_eq] at hB
                exact Or.inl hB
              · exact Or.inr hB
            · exact Or.inr hA

theorem processModel_grow {st st' : ParserState}
    {imports imports' : List (String × Import)} {mref : String}
    (h : processModel st imports mref = Except.ok (st', imports')) :
    ∀ k md, alookup st'.modules k = some md →
      alookup st.modules k = some md ∨ md.imports = [] := by
  cases hm : alookup st.models mref with
  | none =>
    simp only [processModel, hm] at h
    injection h with h1
    injection h1 with ha hb
    subst ha
    intro k md hk
    exact Or.inl hk
  | some model =>
    rcases hr : resolveFieldList st model.definition.fields with ⟨st1, res1⟩
    cases res1 with
    | error e =>
      simp only [processModel, hm, hr] at h
      cases h
    | ok newFields =>
      simp only [processModel, hm, hr] at h
      intro k md hk
      rcases scanFields_grow newFields _ imports _ st' imports' h k md hk
        with hA | hA
      · exact resolveFieldList_grow _ st st1 newFields hr k md hA
      · exact Or.inr hA

theorem processModels_grow :
    ∀ (refs : List String) (st : ParserState)
      (imports : List (String × Import)) (st' : ParserState)
      (imports' : List (String × Import)),
      processModels st imports refs = Except.ok (st', imports') →
      ∀ k md, alookup st'.modules k = some md →
        alookup st.modules k = some md ∨ md.imports = [] := by
  intro refs
  induction refs with
  | nil =>
    intro st imports st' imports' h
    simp only [processModels] at h
    injection h with h1
    injection h1 with ha hb
    subst ha
    intro k md hk
    exact Or.inl hk
  | cons mref rest ih =>
    intro st imports st' imports' h
    cases hp : processModel st imports mref with
    | error e =>
      simp only [processModels, hp] at h
      cases h
    | ok p =>
      simp only [processModels, hp] at h
      intro k md hk
      rcases ih p.1 p.2 st' imports' h k md hk with hA | hA
      · have hp' : processModel st imports mref = Except.ok (p.1, p.2) := by
          rw [hp]
        exact processModel_grow hp' k md hA
      · exact Or.inr hA

theorem resolveField_goodField {st st' : ParserState} {f f' : Field}
    (hwb : WellBuilt st) (h : resolveField st f = (st', Except.ok f'))
    (hg : GoodField f) :
    GoodField f' ∧
    (∀ m, f.type = TypeSlot.modelRef m → f'.type = TypeSlot.modelRef m) := by
  obtain ⟨fn, fdesc, ft, fr⟩ := f
  cases fr with
  | none =>
    simp only [resolveField] at h
    injection h with h1 h2
    have hf' : f' = ⟨fn, fdesc, primResolve ft, none⟩ := by
      injection h2 with hx
      exact hx.symm
    subst hf'
    constructor
    · intro mref hmr
      cases hft : ft with
      | raw t =>
        rw [hft] at hmr
        cases hmr
      | primitive n =>
        rw [hft] at hmr
        cases hmr
      | modelRef rq =>
        obtain ⟨rr, hrr, _⟩ := hg rq (by rw [hft])
        cases hrr
    · intro m hm
      have hm' : ft = TypeSlot.modelRef m := hm
      show primResolve ft = TypeSlot.modelRef m
      rw [hm']
      rfl
  | some rr =>
    by_cases hre : rr = ""
    · subst hre
      simp only [resolveField] at h
      rw [if_true] at h
      injection h with h1 h2
      have hf' : f' = ⟨fn, fdesc, primResolve ft, some ""⟩ := by
        injection h2 with hx
        exact hx.symm
      subst hf'
      constructor
      · intro mref hmr
        cases hft : ft with
        | raw t =>
          rw [hft] at hmr
          cases hmr
        | primitive n =>
          rw [hft] at hmr
          cases hmr
        | modelRef rq =>
          obtain ⟨rr2, hrr, hne2, _⟩ := hg rq (by rw [hft])
          have : ("" : String) = rr2 := by injection hrr
          exact absurd this.symm hne2
      · intro m hm
        have hm' : ft = TypeSlot.modelRef m := hm
        show primResolve ft = TypeSlot.modelRef m
        rw [hm']
        rfl
    · rcases hrr2 : resolveRef st rr with ⟨st2, res⟩
      cases res with
      | error e =>
        simp only [resolveField, if_neg hre, hrr2] at h
        injection h with h1 h2
        cases h2
      | ok mref1 =>
        simp only [resolveField, if_neg hre, hrr2] at h
        injection h with h1 h2
        have hf' : f' = ⟨fn, fdesc, TypeSlot.modelRef mref1, some rr⟩ := by
          injection h2 with hx
          exact hx.symm
        subst hf'
        obtain ⟨_, _, _, _, key3, hsp, hmk⟩ := resolveRef_ok_spec hwb hrr2
        constructor
        · intro mref hmr
          have hq : mref1 = mref := by injection hmr
          subst hq
          exact ⟨rr, rfl, hre, key3, hsp, hmk⟩
        · intro m hm
          obtain ⟨rr2, hrr', hne2, key3b, hspb, hmkb⟩ := hg m hm
          have he2 : rr = rr2 := by injection hrr'
          rw [← he2] at hspb
          rw [hsp] at hspb
          have hk3 : key3 = key3b := by injection hspb
          show TypeSlot.modelRef mref1 = TypeSlot.modelRef m
          rw [hmk, hmkb, hk3]

theorem resolveFieldList_goodTargets :
    ∀ (fs : List Field) (st st' : ParserState) (fs' : List Field),
      WellBuilt st → resolveFieldList st fs = (st', Except.ok fs') →
      (∀ f ∈ fs, GoodField f) →
      (∀ f2 ∈ fs', GoodField f2) ∧
      (∀ ftRef, (∃ f ∈ fs, f.type = TypeSlot.modelRef ftRef) →
        ∃ f2 ∈ fs', f2.type = TypeSlot.modelRef ftRef) := by
  intro fs
  induction fs with
  | nil =>
    intro st st' fs' hwb h hg
    simp only [resolveFieldList] at h
    injection h with h1 h2
    have hfs : fs' = [] := by
      injection h2 with hx
      exact hx.symm
    subst hfs
    constructor
    · intro f2 hf2
      cases hf2
    · intro ftRef hex
      obtain ⟨f, hf, _⟩ := hex
      cases hf
  | cons f fsrest ih =>
    intro st st' fs' hwb h hg
    rcases h1 : resolveField st f with ⟨st1, res1⟩
    cases res1 with
    | error e =>
      simp only [resolveFieldList, h1] at h
      injection h with ha hb
      cases hb
    | ok f1 =>
      rcases h2 : resolveFieldList st1 fsrest with ⟨st2, res2⟩
      cases res2 with
      | error e =>
        simp only [resolveFieldList, h1, h2] at h
        injection h with ha hb
        cases hb
      | ok fs1 =>
        simp only [resolveFieldList, h1, h2] at h
        injection h with ha hb
        have hfs : fs' = f1 :: fs1 := by
          injection hb with hx
          exact hx.symm
        subst hfs
        have hwb1 := (resolveField_ok_spec hwb h1).1
        obtain ⟨hgf1, hpres1⟩ :=
          resolveField_goodField hwb h1 (hg f (List.mem_cons_self _ _))
        obtain ⟨hgA, hgB⟩ := ih st1 st2 fs1 hwb1 h2
          (fun f2 hf2 => hg f2 (List.mem_cons_of_mem _ hf2))
        constructor
        · intro f2 hf2
          rcases List.mem_cons.mp hf2 with h3 | h3
          · rw [h3]
            exact hgf1
          · exact hgA f2 h3
        · intro ftRef hex
          obtain ⟨f0, hf0, hft0⟩ := hex
          rcases List.mem_cons.mp hf0 with h3 | h3
          · subst h3
            exact ⟨f1, List.mem_cons_self _ _, hpres1 ftRef hft0⟩
          · obtain ⟨f2, hf2, hft2⟩ := hgB ftRef ⟨f0, h3, hft0⟩
            exact ⟨f2, List.mem_cons_of_mem _ hf2, hft2⟩

theorem targets_preserve {mdls : List (String × Model)} {mref : String}
    {model model2 : Model} (hlk : alookup mdls mref = some model)
    (hsub : ∀ ftRef, (∃ f ∈ model.definition.fields,
        f.type = TypeSlot.modelRef ftRef) →
      ∃ f2 ∈ model2.definition.fields, f2.type = TypeSlot.modelRef ftRef)
    {wks : List String} {ftRef : String}
    (ht : Targets mdls wks ftRef) :
    Targets (aupdate mdls mref model2) wks ftRef := by
  obtain ⟨mk, hmk, m0, hm0, f, hf, hft⟩ := ht
  by_cases hke : mk = mref
  · subst hke
    rw [hlk] at hm0
    have hm0e : m0 = model := by
      injection hm0 with hx
      exact hx.symm
    subst hm0e
    obtain ⟨f2, hf2, hft2⟩ := hsub ftRef ⟨f, hf, hft⟩
    exact ⟨mk, hmk, model2, alookup_aupdate_self _ _ _, f2, hf2, hft2⟩
  · exact ⟨mk, hmk, m0, by rw [alookup_aupdate_ne _ _ _ _ hke]; exact hm0,
      f, hf, hft⟩

theorem entryOk_mono {m1 m2 : List (String × Model)} {wks : List String}
    {mp : String} {e : String × Import}
    (hT : ∀ ftRef, Targets m1 wks ftRef → Targets m2 wks ftRef)
    (h : EntryOk m1 wks mp e) : EntryOk m2 wks mp e := by
  obtain ⟨h1, h2, h3, h4, h5⟩ := h
  refine ⟨h1, h2, h3, h4, ?_⟩
  intro ftRef hm
  obtain ⟨ha, hb⟩ := h5 ftRef hm
  exact ⟨ha, hT ftRef hb⟩

theorem update_model_wellBuilt {st : ParserState} {mref : String}
    {model model2 : Model} (hwb : WellBuilt st)
    (hlk : alookup st.models mref = some model)
    (href : model2.ref = model.ref) :
    WellBuilt { st with models := aupdate st.models mref model2 } := by
  obtain ⟨⟨hnp, hnm, hnd⟩, hpkgs, hmods, hmdls⟩ := hwb
  refine ⟨⟨hnp, hnm, akeys_aupdate_nodup _ _ _ hnd⟩, ?_, ?_, ?_⟩
  · intro p hp
    exact hpkgs p hp
  · intro m' hm'
    obtain ⟨hshape, hex, hmodels⟩ := hmods m' hm'
    refine ⟨hshape, hex, ?_⟩
    intro mr hmr
    obtain ⟨ha, hb⟩ := hmodels mr hmr
    exact ⟨akeys_mono ha, hb⟩
  · intro md' hmd'
    rcases mem_aupdate hmd' with h2 | h2
    · obtain ⟨⟨hr3, hd3, hc3, hl3⟩, hex3⟩ := hmdls md' h2
      exact ⟨⟨hr3, hd3, hc3, hl3⟩, hex3⟩
    · rw [h2]
      obtain ⟨⟨hr3, hd3, hc3, hl3⟩, hex3⟩ :=
        hmdls (mref, model) (alookup_mem hlk)
      refine ⟨⟨?_, hd3, hc3, hl3⟩, hex3⟩
      show model2.ref = mref
      rw [href]
      exact hr3

theorem scanFields_imports_spec :
    ∀ (fs : List Field) (st : ParserState)
      (imports : List (String × Import)) (mp : String)
      (st' : ParserState) (imports' : List (String × Import))
      (wks : List String),
      WellBuilt st →
      scanFields st imports mp fs = Except.ok (st', imports') →
      (∀ f ∈ fs, GoodField f) →
      (∀ f ∈ fs, ∀ ftRef, f.type = TypeSlot.modelRef ftRef →
        Targets st.models wks ftRef) →
      (∀ e ∈ imports, EntryOk st.models wks mp e) →
      ∀ e ∈ imports', EntryOk st.models wks mp e := by
  intro fs
  induction fs with
  | nil =>
    intro st imports mp st' imports' wks hwb h hgf hwit hold
    simp only [scanFields] at h
    injection h with h1
    injection h1 with ha hb
    subst hb
    exact hold
  | cons f fsrest ih =>
    intro st imports mp st' imports' wks hwb h hgf hwit hold
    cases hft : f.type with
    | raw t =>
      simp only [scanFields, hft] at h
      exact ih st imports mp st' imports' wks hwb h
        (fun f2 hf2 => hgf f2 (List.mem_cons_of_mem _ hf2))
        (fun f2 hf2 => hwit f2 (List.mem_cons_of_mem _ hf2)) hold
    | primitive n =>
      simp only [scanFields, hft] at h
      exact ih st imports mp st' imports' wks hwb h
        (fun f2 hf2 => hgf f2 (List.mem_cons_of_mem _ hf2))
        (fun f2 hf2 => hwit f2 (List.mem_cons_of_mem _ hf2)) hold
    | modelRef ftRef =>
      by_cases hpe : parentRef ftRef = mp
      · simp only [scanFields, hft, if_pos hpe] at h
        exact ih st imports mp st' imports' wks hwb h
          (fun f2 hf2 => hgf f2 (List.mem_cons_of_mem _ hf2))
          (fun f2 hf2 => hwit f2 (List.mem_cons_of_mem _ hf2)) hold
      · cases him : alookup imports (parentRef ftRef) with
        | some imp =>
          simp only [scanFields, hft, if_neg hpe, him] at h
          obtain ⟨hA, hB, hC, hD, hE⟩ :=
            hold (parentRef ftRef, imp) (alookup_mem him)
          by_cases hmem : ftRef ∈ imp.models
          · rw [if_pos hmem] at h
            refine ih st _ mp st' imports' wks hwb h
              (fun f2 hf2 => hgf f2 (List.mem_cons_of_mem _ hf2))
              (fun f2 hf2 => hwit f2 (List.mem_cons_of_mem _ hf2)) ?_
            intro e he
            rcases mem_aupdate he with h2 | h2
            · exact hold e h2
            · rw [h2]
              exact ⟨hpe, hB, hC, hD, hE⟩
          · rw [if_neg hmem] at h
            refine ih st _ mp st' imports' wks hwb h
              (fun f2 hf2 => hgf f2 (List.mem_cons_of_mem _ hf2))
              (fun f2 hf2 => hwit f2 (List.mem_cons_of_mem _ hf2)) ?_
            intro e he
            rcases mem_aupdate he with h2 | h2
            · exact hold e h2
            · rw [h2]
              refine ⟨hpe, hB, ?_, ?_, ?_⟩
              · intro hco
                have := congrArg List.length hco
                simp at this
              · refine List.Nodup.append hD (List.nodup_singleton _) ?_
                intro a ha hb
                rw [List.mem_singleton.mp hb] at ha
                exact hmem ha
              · intro x hx
                rcases List.mem_append.mp hx with h3 | h3
                · exact hE x h3
                · rw [List.mem_singleton.mp h3]
                  exact ⟨rfl, hwit f (List.mem_cons_self _ _) ftRef hft⟩
        | none =>
          cases hs : splitRef3 ftRef with
          | error e2 =>
            simp only [scanFields, hft, if_neg hpe, him, hs] at h
            cases h
          | ok t3 =>
            obtain ⟨pref, mname, dname⟩ := t3
            obtain ⟨rr, hrr, hne, key3, hsp, hftk⟩ :=
              hgf f (List.mem_cons_self _ _) ftRef hft
            obtain ⟨k1, k2, k3⟩ := key3
            obtain ⟨_, hdotk2, hdotk3, hdk1, hdk2, hdk3⟩ :=
              splitRef3_ok_spec _ _ _ _ hsp
            have hs2 : splitRef3 ftRef = Except.ok (k1, k2, k3) := by
              rw [hftk]
              exact splitRef3_makeRef3 k1 k2 k3 hdk1 hdk2 hdotk2 hdk3 hdotk3
            rw [hs] at hs2
            injection hs2 with hx
            injection hx with he1 he23
            injection he23 with he2 he3
            subst he1
            subst he2
            subst he3
            have hpar : parentRef ftRef = makeRef [pref, mname] := by
              rw [hftk]
              exact parentRef_makeRef3 _ _ _ hdotk3
            have P1 := getPackage_spec st pref hwb hdk1
            have hpk2 : alookup (getPackage st pref).1.packages
                (getPackage st pref).2.ref = some (getPackage st pref).2 := by
              rw [P1.2.1]
              exact P1.2.2.1
            have P2 := getModule_spec (getPackage st pref).1
              (getPackage st pref).2 mname P1.1 hpk2 hdotk2 hdk2
            have hmeq : (getModule (getPackage st pref).1
                (getPackage st pref).2 mname).1.models = st.models := by
              rw [getModule_models_eq, getPackage_models_eq]
            simp only [scanFields, hft, if_neg hpe, him, hs] at h
            intro e he
            rw [← hmeq]
            refine ih _ _ mp st' imports' wks P2.1 h ?_ ?_ ?_ e he
            · intro f2 hf2
              exact hgf f2 (List.mem_cons_of_mem _ hf2)
            · intro f2 hf2 ftRef2 hft2
              rw [hmeq]
              exact hwit f2 (List.mem_cons_of_mem _ hf2) ftRef2 hft2
            · intro e2 he2
              rw [hmeq]
              rcases List.mem_append.mp he2 with h2 | h2
              · exact hold e2 h2
              · rw [List.mem_singleton.mp h2]
                refine ⟨hpe, ?_, ?_, List.nodup_singleton _, ?_⟩
                · show (getModule (getPackage st pref).1
                    (getPackage st pref).2 mname).2.ref = parentRef ftRef
                  rw [P2.2.1, P1.2.1, hpar]
                · intro hco
                  cases hco
                · intro x hx
                  rw [List.mem_singleton.mp hx]
                  exact ⟨rfl, hwit f (List.mem_cons_self _ _) ftRef hft⟩

theorem processModel_imports_spec {st st' : ParserState}
    {imports imports' : List (String × Import)} {mref mp : String}
    {wks : List String}
    (hwb : WellBuilt st) (hmo : ModelsOk st)
    (h : processModel st imports mref = Except.ok (st', imports'))
    (hmk : mref ∈ wks) (hpm : parentRef mref = mp)
    (hold : ∀ e ∈ imports, EntryOk st.models wks mp e) :
    ModelsOk st' ∧
    (∀ wks2 ftRef, Targets st.models wks2 ftRef →
      Targets st'.models wks2 ftRef) ∧
    (∀ e ∈ imports', EntryOk st'.models wks mp e) := by
  cases hm : alookup st.models mref with
  | none =>
    simp only [processModel, hm] at h
    injection h with h1
    injection h1 with ha hb
    subst ha
    subst hb
    exact ⟨hmo, fun wks2 ftRef ht => ht, hold⟩
  | some model =>
    rcases hr : resolveFieldList st model.definition.fields with ⟨st1, res1⟩
    cases res1 with
    | error e =>
      simp only [processModel, hm, hr] at h
      cases h
    | ok newFields =>
      simp only [processModel, hm, hr] at h
      obtain ⟨hwb1, hmeq1, hpres1, hfa⟩ :=
        resolveFieldList_ok_spec model.definition.fields st st1 newFields
          hwb hr
      have hgfold : ∀ f ∈ model.definition.fields, GoodField f :=
        fun f hf => ((hmo (mref, model) (alookup_mem hm)).2 f hf).1
      obtain ⟨hgnew, hsub⟩ :=
        resolveFieldList_goodTargets model.definition.fields st st1 newFields
          hwb hr hgfold
      have hrefm : model.ref = mref :=
        ((hwb.2.2.2 (mref, model) (alookup_mem hm)).1).1
      set model2 : Model :=
        { model with definition :=
          { model.definition with fields := newFields } } with hmodel2
      set stm : ParserState :=
        { st1 with models := aupdate st1.models mref model2 } with hstm
      have hmm1 : alookup st1.models mref = some model := by
        rw [hmeq1]
        exact hm
      have hwb2 : WellBuilt stm := update_model_wellBuilt hwb1 hmm1 rfl
      have hkeq : akeys stm.models = akeys st.models := by
        show akeys (aupdate st1.models mref model2) = akeys st.models
        rw [hmeq1]
        exact akeys_aupdate_mem _ _ _ (alookup_some_mem hm)
      have hT1 : ∀ wks2 ftRef, Targets st.models wks2 ftRef →
          Targets stm.models wks2 ftRef := by
        intro wks2 ftRef ht
        show Targets (aupdate st1.models mref model2) wks2 ftRef
        rw [hmeq1]
        exact targets_preserve hm hsub ht
      obtain ⟨hwbf, hmef, hlpf⟩ :=
        scanFields_state_spec newFields stm imports _ st' imports' hwb2 h
      rw [hrefm, hpm] at h
      have hold2 : ∀ e ∈ imports, EntryOk stm.models wks mp e :=
        fun e he => entryOk_mono (hT1 wks) (hold e he)
      have hwitn : ∀ f ∈ newFields, ∀ ftRef,
          f.type = TypeSlot.modelRef ftRef → Targets stm.models wks ftRef := by
        intro f hf ftRef hft
        refine ⟨mref, hmk, model2, ?_, f, hf, hft⟩
        show alookup (aupdate st1.models mref model2) mref = some model2
        exact alookup_aupdate_self _ _ _
      have himps := scanFields_imports_spec newFields stm imports mp st'
        imports' wks hwb2 h hgnew hwitn hold2
      have hmo2 : ModelsOk stm := by
        intro e he
        have he2 : e ∈ aupdate st1.models mref model2 := he
        rcases mem_aupdate he2 with h2 | h2
        · rw [hmeq1] at h2
          obtain ⟨hname, hfield⟩ := hmo e h2
          refine ⟨hname, ?_⟩
          intro f hf
          obtain ⟨hgf, hmem⟩ := hfield f hf
          refine ⟨hgf, ?_⟩
          intro mref2 hmr
          show mref2 ∈ akeys stm.models
          rw [hkeq]
          exact hmem mref2 hmr
        · rw [h2]
          obtain ⟨hname, hfield⟩ := hmo (mref, model) (alookup_mem hm)
          constructor
          · exact hname
          · intro f hf
            refine ⟨hgnew f hf, ?_⟩
            intro mref2 hmr
            obtain ⟨f0, hf0, hFR⟩ := forall2_right_mem hfa f hf
            have hprem : ∀ m2, f0.type = TypeSlot.modelRef m2 →
                m2 ∈ akeys st.models :=
              fun m2 hm2 => (hfield f0 hf0).2 m2 hm2
            have hmem2 : mref2 ∈ akeys st.models :=
              hFR.2.2.2.2.1 hprem mref2 hmr
            show mref2 ∈ akeys stm.models
            rw [hkeq]
            exact hmem2
      refine ⟨?_, ?_, ?_⟩
      · intro e he
        rw [hmef] at he
        have := hmo2 e he
        refine ⟨this.1, ?_⟩
        intro f hf
        obtain ⟨hgf, hmem⟩ := this.2 f hf
        refine ⟨hgf, ?_⟩
        intro mref2 hmr
        rw [hmef]
        exact hmem mref2 hmr
      · intro wks2 ftRef ht
        rw [hmef]
        exact hT1 wks2 ftRef ht
      · intro e he
        rw [hmef]
        exact himps e he

theorem processModel_spec {st st' : ParserState}
    {imports imports' : List (String × Import)} {mref : String}
    (hwb : WellBuilt st)
    (h : processModel st imports mref = Except.ok (st', imports')) :
    WellBuilt st' ∧ akeys st'.models = akeys st.models ∧
    (∀ k, alookup st.modules k ≠ none →
      alookup st'.modules k = alookup st.modules k) ∧
    (∀ k, k ≠ mref → alookup st'.models k = alookup st.models k) ∧
    (∀ k, ResolvedKey st k → ResolvedKey st' k) ∧
    ResolvedKey st' mref ∧
    ModelsCorr (akeys st.models) st st' := by
  cases hm : alookup st.models mref with
  | none =>
    simp only [processModel, hm] at h
    injection h with h1
    injection h1 with ha hb
    subst ha
    refine ⟨hwb, rfl, fun k _ => rfl, fun k _ => rfl, fun k hr => hr, ?_,
      modelsCorr_refl _ _⟩
    intro model hmodel
    rw [hm] at hmodel
    cases hmodel
  | some model =>
    rcases hr : resolveFieldList st model.definition.fields with ⟨st1, res1⟩
    cases res1 with
    | error e =>
      simp only [processModel, hm, hr] at h
      cases h
    | ok newFields =>
      obtain ⟨hwb1, hmeq1, hpres1, hfa⟩ :=
        resolveFieldList_ok_spec model.definition.fields st st1 newFields
          hwb hr
      simp only [processModel, hm, hr] at h
      set model' : Model :=
        { model with definition :=
          { model.definition with fields := newFields } } with hmodel'
      set st2 : ParserState :=
        { st1 with models := aupdate st1.models mref model' } with hst2
      have hwb2 : WellBuilt st2 := by
        obtain ⟨⟨hnp, hnm, hnd⟩, hpkgs, hmods, hmdls⟩ := hwb1
        have hmem1 : alookup st1.models mref = some model := by
          rw [hmeq1]
          exact hm
        refine ⟨⟨hnp, hnm, ?_⟩, ?_, ?_, ?_⟩
        · exact akeys_aupdate_nodup _ _ _ hnd
        · intro p hp
          exact hpkgs p hp
        · intro m' hm'
          obtain ⟨hshape, hex, hmodels⟩ := hmods m' hm'
          refine ⟨hshape, hex, ?_⟩
          intro mr hmr
          obtain ⟨ha, hb⟩ := hmodels mr hmr
          exact ⟨akeys_mono ha, hb⟩
        · intro md' hmd'
          rcases mem_aupdate hmd' with h2 | h2
          · obtain ⟨⟨hr3, hd3, hc3, hl3⟩, hex3⟩ := hmdls md' h2
            exact ⟨⟨hr3, hd3, hc3, hl3⟩, hex3⟩
          · rw [h2]
            obtain ⟨⟨hr3, hd3, hc3, hl3⟩, hex3⟩ :=
              hmdls (mref, model) (alookup_mem hmem1)
            exact ⟨⟨hr3, hd3, hc3, hl3⟩, hex3⟩
      obtain ⟨hwb3, hme3, hlp3⟩ :=
        scanFields_state_spec newFields st2 imports (parentRef model.ref)
          st' imports' hwb2 h
      have hfields' : ∀ f' ∈ newFields, isResolved f'.type = true := by
        intro f' hf'
        rcases forall2_right_mem hfa f' hf' with ⟨f0, _, hR⟩
        exact hR.2.2.2.1
      have hlk2 : alookup st'.models mref = some model' := by
        rw [hme3, hst2]
        exact alookup_aupdate_self _ _ _
      refine ⟨hwb3, ?_, ?_, ?_, ?_, ?_, ?_⟩
      · rw [hme3, hst2]
        have : mref ∈ akeys st1.models := by
          rw [hmeq1]
          exact alookup_some_mem hm
        rw [akeys_aupdate_mem _ _ _ this, hmeq1]
      · intro k hk
        have hk1 : alookup st1.modules k ≠ none := by
          rw [hpres1 k hk]
          exact hk
        have h2 := hlp3 k (by rw [hst2]; exact hk1)
        rw [h2, hst2, hpres1 k hk]
      · intro k hkne
        rw [hme3, hst2]
        have : alookup (aupdate st1.models mref model') k =
            alookup st1.models k := alookup_aupdate_ne _ _ _ _ hkne
        rw [this, hmeq1]
      · intro k hrk model2 hmodel2
        by_cases hkne : k = mref
        · subst hkne
          rw [hlk2] at hmodel2
          have : model' = model2 := by injection hmodel2
          rw [← this]
          exact hfields'
        · rw [hme3, hst2] at hmodel2
          rw [alookup_aupdate_ne _ _ _ _ hkne, hmeq1] at hmodel2
          exact hrk model2 hmodel2
      · intro model2 hmodel2
        rw [hlk2] at hmodel2
        have : model' = model2 := by injection hmodel2
        rw [← this]
        exact hfields'
      · intro k model0 hk0
        by_cases hke : k = mref
        · subst hke
          rw [hm] at hk0
          have hme : model0 = model := by
            injection hk0 with hx
            exact hx.symm
          subst hme
          exact ⟨model', hlk2, rfl, rfl, Or.inr hfa⟩
        · refine ⟨model0, ?_, rfl, rfl, Or.inl rfl⟩
          rw [hme3, hst2]
          have : alookup (aupdate st1.models mref model') k =
              alookup st1.models k := alookup_aupdate_ne _ _ _ _ hke
          rw [this, hmeq1]
          exact hk0

theorem processModels_spec :
    ∀ (refs : List String) (st : ParserState)
      (imports : List (String × Import)) (st' : ParserState)
      (imports' : List (String × Import)),
      WellBuilt st →
      processModels st imports refs = Except.ok (st', imports') →
      WellBuilt st' ∧ akeys st'.models = akeys st.models ∧
      (∀ k, alookup st.modules k ≠ none →
        alookup st'.modules k = alookup st.modules k) ∧
      (∀ k, ResolvedKey st k → ResolvedKey st' k) ∧
      (∀ k ∈ refs, ResolvedKey st' k) ∧
      ModelsCorr (akeys st.models) st st' := by
  intro refs
  induction refs with
  | nil =>
    intro st imports st' imports' hwb h
    simp only [processModels] at h
    injection h with h1
    injection h1 with ha hb
    subst ha
    exact ⟨hwb, rfl, fun k _ => rfl, fun k hr => hr, fun k hk => absurd hk
      (by intro hh; cases hh), modelsCorr_refl _ _⟩
  | cons mref rest ih =>
    intro st imports st' imports' hwb h
    cases hp : processModel st imports mref with
    | error e =>
      simp only [processModels, hp] at h
      cases h
    | ok p =>
      simp only [processModels, hp] at h
      obtain ⟨hwb1, hkeq1, hlp1, hmlne1, hrp1, hrm1, hcorr1⟩ :=
        processModel_spec hwb hp
      obtain ⟨hwb2, hkeq2, hlp2, hrp2, hrl2, hcorr2⟩ :=
        ih p.1 p.2 st' imports' hwb1 h
      rw [hkeq1] at hcorr2
      refine ⟨hwb2, by rw [hkeq2, hkeq1], ?_, ?_, ?_,
        modelsCorr_comp hcorr1 hcorr2⟩
      · intro k hk
        have hk1 : alookup p.1.modules k ≠ none := by
          rw [hlp1 k hk]
          exact hk
        rw [hlp2 k hk1, hlp1 k hk]
      · intro k hr
        exact hrp2 k (hrp1 k hr)
      · intro k hk
        rcases List.mem_cons.mp hk with h1 | h2
        · subst h1
          exact hrp2 k hrm1
        · exact hrl2 k h2

theorem update_imports_wellBuilt {st : ParserState} {k : String}
    {md : Module} (hwb : WellBuilt st)
    (hlk : alookup st.modules k = some md) (imps : List Import) :
    WellBuilt { st with
      modules := aupdate st.modules k { md with imports := imps } } := by
  obtain ⟨⟨hnp, hnm, hnd⟩, hpkgs, hmods, hmdls⟩ := hwb
  refine ⟨⟨hnp, ?_, hnd⟩, ?_, ?_, ?_⟩
  · rw [akeys_aupdate_mem _ _ _ (alookup_some_mem hlk)]
    exact hnm
  · intro p hp
    obtain ⟨hr, hd2, hs⟩ := hpkgs p hp
    refine ⟨hr, hd2, ?_⟩
    intro mr hmr
    rw [akeys_aupdate_mem _ _ _ (alookup_some_mem hlk)]
    exact hs mr hmr
  · intro m' hm'
    rcases mem_aupdate hm' with h2 | h2
    · exact hmods m' h2
    · rw [h2]
      obtain ⟨⟨ha, hb, hc, hd2, he⟩, hex, hmodels⟩ :=
        hmods (k, md) (alookup_mem hlk)
      exact ⟨⟨ha, hb, hc, hd2, he⟩, hex, hmodels⟩
  · intro md' hmd'
    obtain ⟨⟨hr3, hd3, hc3, hl3⟩, hex3⟩ := hmdls md' hmd'
    refine ⟨⟨hr3, hd3, hc3, alookup_ne_none_aupdate hl3⟩, ?_⟩
    obtain ⟨m0, hm0, hm0m⟩ := hex3
    by_cases hme : m0.1 = k
    · have hlk0 : alookup st.modules m0.1 = some m0.2 :=
        alookup_of_mem_nodup hnm (by rcases m0 with ⟨ma, mb⟩; exact hm0)
      rw [hme, hlk] at hlk0
      have hm02 : m0.2 = md := by
        injection hlk0 with hx
        exact hx.symm
      refine ⟨(k, { md with imports := imps }), aupdate_mem_self _ _ _, ?_⟩
      have : md'.1 ∈ md.models := hm02 ▸ hm0m
      exact this
    · exact ⟨m0, mem_aupdate_of_ne hm0 hme, hm0m⟩

theorem resolveModule_spec {st st' : ParserState} {modRef : String}
    (hwb : WellBuilt st) (h : resolveModule st modRef = Except.ok st') :
    WellBuilt st' ∧ akeys st'.models = akeys st.models ∧
    (∀ k md, alookup st.modules k = some md →
      ∃ md', alookup st'.modules k = some md' ∧ md'.models = md.models ∧
        md'.ref = md.ref ∧ md'.name = md.name) ∧
    (∀ k, ResolvedKey st k → ResolvedKey st' k) ∧
    (∀ md, alookup st.modules modRef = some md →
      ∀ mk ∈ md.models, ResolvedKey st' mk) ∧
    ModelsCorr (akeys st.models) st st' := by
  cases hmd : alookup st.modules modRef with
  | none =>
    simp only [resolveModule, hmd] at h
    injection h with h1
    subst h1
    refine ⟨hwb, rfl, fun k md hk => ⟨md, hk, rfl, rfl, rfl⟩,
      fun k hr => hr, ?_, modelsCorr_refl _ _⟩
    intro md hk
    cases hk
  | some md =>
    cases hp : processModels st [] md.models with
    | error e =>
      simp only [resolveModule, hmd, hp] at h
      cases h
    | ok p =>
      obtain ⟨hwb1, hkeq1, hlp1, hrp1, hrl1, hcorr1⟩ :=
        processModels_spec md.models st [] p.1 p.2 hwb hp
      have hmd1 : alookup p.1.modules modRef = some md := by
        rw [hlp1 modRef (by rw [hmd]; intro hh; cases hh)]
        exact hmd
      simp only [resolveModule, hmd, hp, hmd1] at h
      injection h with h1
      subst h1
      have hwb2 : WellBuilt { p.1 with
          modules := aupdate p.1.modules modRef
            { md with imports := p.2.map Prod.snd } } :=
        update_imports_wellBuilt hwb1 hmd1 _
      refine ⟨hwb2, hkeq1, ?_, ?_, ?_, ?_⟩
      · intro k md0 hk
        by_cases hke : k = modRef
        · subst hke
          rw [hmd] at hk
          have hmd0 : md0 = md := by
            injection hk with hx
            exact hx.symm
          subst hmd0
          exact ⟨{ md0 with imports := p.2.map Prod.snd },
            alookup_aupdate_self _ _ _, rfl, rfl, rfl⟩
        · have hkne : alookup st.modules k ≠ none := by
            rw [hk]
            intro hh
            cases hh
          refine ⟨md0, ?_, rfl, rfl, rfl⟩
          rw [alookup_aupdate_ne _ _ _ _ hke, hlp1 k hkne]
          exact hk
      · intro k hr
        exact hrp1 k hr
      · intro md0 hk
        have hmd0 : md0 = md := by
          injection hk with hx
          exact hx.symm
        subst hmd0
        intro mk hmk
        exact hrl1 mk hmk
      · intro k model0 hk0
        obtain ⟨model1, hk1, hr1, hn1, hf1⟩ := hcorr1 k model0 hk0
        exact ⟨model1, hk1, hr1, hn1, hf1⟩

theorem resolveModules_spec :
    ∀ (refs : List String) (st st' : ParserState),
      WellBuilt st → resolveModules st refs = Except.ok st' →
      WellBuilt st' ∧ akeys st'.models = akeys st.models ∧
      (∀ k md, alookup st.modules k = some md →
        ∃ md', alookup st'.modules k = some md' ∧ md'.models = md.models ∧
          md'.ref = md.ref ∧ md'.name = md.name) ∧
      (∀ k, ResolvedKey st k → ResolvedKey st' k) ∧
      (∀ r ∈ refs, ∀ md, alookup st.modules r = some md →
        ∀ mk ∈ md.models, ResolvedKey st' mk) ∧
      ModelsCorr (akeys st.models) st st' := by
  intro refs
  induction refs with
  | nil =>
    intro st st' hwb h
    simp only [resolveModules] at h
    injection h with h1
    subst h1
    exact ⟨hwb, rfl, fun k md hk => ⟨md, hk, rfl, rfl, rfl⟩,
      fun k hr => hr, fun r hr => absurd hr (by intro hh; cases hh),
      modelsCorr_refl _ _⟩
  | cons r rest ih =>
    intro st st' hwb h
    cases hr1 : resolveModule st r with
    | error e =>
      simp only [resolveModules, hr1] at h
      cases h
    | ok st1 =>
      simp only [resolveModules, hr1] at h
      obtain ⟨hwb1, hkeq1, hmp1, hrp1, hrl1, hcorr1⟩ :=
        resolveModule_spec hwb hr1
      obtain ⟨hwb2, hkeq2, hmp2, hrp2, hrl2, hcorr2⟩ := ih st1 st' hwb1 h
      rw [hkeq1] at hcorr2
      refine ⟨hwb2, by rw [hkeq2, hkeq1], ?_, ?_, ?_,
        modelsCorr_comp hcorr1 hcorr2⟩
      · intro k md hk
        obtain ⟨md1, hk1, he1, he2, he3⟩ := hmp1 k md hk
        obtain ⟨md2, hk2, hf1, hf2, hf3⟩ := hmp2 k md1 hk1
        exact ⟨md2, hk2, by rw [hf1, he1], by rw [hf2, he2],
          by rw [hf3, he3]⟩
      · intro k hrk
        exact hrp2 k (hrp1 k hrk)
      · intro r' hr' md hk
        rcases List.mem_cons.mp hr' with h1 | h2
        · subst h1
          intro mk hmk
          exact hrp2 mk (hrl1 md hk mk hmk)
        · obtain ⟨md1, hk1, he1, _, _⟩ := hmp1 r' md hk
          intro mk hmk
          exact hrl2 r' h2 md1 hk1 mk (by rw [he1]; exact hmk)

theorem processModels_imports_spec :
    ∀ (refs : List String) (st : ParserState)
      (imports : List (String × Import)) (st' : ParserState)
      (imports' : List (String × Import)) (wks : List String) (mp : String),
      WellBuilt st → ModelsOk st →
      processModels st imports refs = Except.ok (st', imports') →
      (∀ r ∈ refs, r ∈ wks ∧ parentRef r = mp) →
      (∀ e ∈ imports, EntryOk st.models wks mp e) →
      ModelsOk st' ∧
      (∀ wks2 ftRef, Targets st.models wks2 ftRef →
        Targets st'.models wks2 ftRef) ∧
      (∀ e ∈ imports', EntryOk st'.models wks mp e) := by
  intro refs
  induction refs with
  | nil =>
    intro st imports st' imports' wks mp hwb hmo h hrefs hold
    simp only [processModels] at h
    injection h with h1
    injection h1 with ha hb
    subst ha
    subst hb
    exact ⟨hmo, fun wks2 ftRef ht => ht, hold⟩
  | cons mref rest ih =>
    intro st imports st' imports' wks mp hwb hmo h hrefs hold
    cases hp : processModel st imports mref with
    | error e =>
      simp only [processModels, hp] at h
      cases h
    | ok p =>
      simp only [processModels, hp] at h
      have hp2 : processModel st imports mref = Except.ok (p.1, p.2) := by
        rw [hp]
      have hwb1 := (processModel_spec hwb hp2).1
      obtain ⟨hmo1, hT1, himp1⟩ :=
        processModel_imports_spec hwb hmo hp2
          (hrefs mref (List.mem_cons_self _ _)).1
          (hrefs mref (List.mem_cons_self _ _)).2 hold
      obtain ⟨hmo2, hT2, himp2⟩ := ih p.1 p.2 st' imports' wks mp hwb1 hmo1 h
        (fun r hr => hrefs r (List.mem_cons_of_mem _ hr)) himp1
      exact ⟨hmo2, fun wks2 ftRef ht => hT2 wks2 ftRef (hT1 wks2 ftRef ht),
        himp2⟩

theorem resolveModule_imports_spec {st st' : ParserState} {modRef : String}
    (hwb : WellBuilt st) (hmo : ModelsOk st) (hai : AllImportsOk st)
    (h : resolveModule st modRef = Except.ok st') :
    ModelsOk st' ∧ AllImportsOk st' := by
  cases hmd : alookup st.modules modRef with
  | none =>
    simp only [resolveModule, hmd] at h
    injection h with h1
    subst h1
    exact ⟨hmo, hai⟩
  | some md =>
    cases hp : processModels st [] md.models with
    | error e =>
      simp only [resolveModule, hmd, hp] at h
      cases h
    | ok p =>
      have hp2 : processModels st [] md.models = Except.ok (p.1, p.2) := by
        rw [hp]
      have hrefs : ∀ r ∈ md.models, r ∈ md.models ∧ parentRef r = modRef := by
        intro r hr
        exact ⟨hr, ((hwb.2.2.1 (modRef, md) (alookup_mem hmd)).2.2 r hr).2⟩
      obtain ⟨hmo1, hT1, himp1⟩ :=
        processModels_imports_spec md.models st [] p.1 p.2 md.models modRef
          hwb hmo hp2 hrefs (by intro e he; cases he)
      obtain ⟨hwb1, hkeq1, hlp1, hrp1, hrl1, hcorr1⟩ :=
        processModels_spec md.models st [] p.1 p.2 hwb hp2
      have hmd1 : alookup p.1.modules modRef = some md := by
        rw [hlp1 modRef (by rw [hmd]; intro hh; cases hh)]
        exact hmd
      simp only [resolveModule, hmd, hp, hmd1] at h
      injection h with h1
      subst h1
      refine ⟨hmo1, ?_⟩
      intro k md2 hk
      have hk2 : alookup (aupdate p.1.modules modRef
          { md with imports := p.2.map Prod.snd }) k = some md2 := hk
      by_cases hke : k = modRef
      · subst hke
        rw [alookup_aupdate_self] at hk2
        have hmd2 : md2 = { md with imports := p.2.map Prod.snd } := by
          injection hk2 with hx
          exact hx.symm
        subst hmd2
        intro imp himp
        obtain ⟨e, he, hei⟩ := List.mem_map.mp himp
        obtain ⟨hA, hB, hC, hD, hE⟩ := himp1 e he
        refine ⟨?_, ?_, ?_, ?_⟩
        · rw [← hei, hB]
          exact hA
        · rw [← hei]
          exact hC
        · rw [← hei]
          exact hD
        · intro ftRef hmem
          rw [← hei] at hmem
          obtain ⟨hpa, hta⟩ := hE ftRef hmem
          constructor
          · rw [← hei, hB]
            exact hpa
          · exact hta
      · rw [alookup_aupdate_ne _ _ _ _ hke] at hk2
        rcases processModels_grow md.models st [] p.1 p.2 hp2 k md2 hk2
          with hA | hA
        · have hmi := hai k md2 hA
          intro imp himp
          obtain ⟨a, b, c, d⟩ := hmi imp himp
          refine ⟨a, b, c, ?_⟩
          intro ftRef hm2
          obtain ⟨e1, e2⟩ := d ftRef hm2
          exact ⟨e1, hT1 md2.models ftRef e2⟩
        · intro imp himp
          rw [hA] at himp
          cases himp

theorem resolveModules_imports_spec :
    ∀ (refs : List String) (st st' : ParserState),
      WellBuilt st → ModelsOk st → AllImportsOk st →
      resolveModules st refs = Except.ok st' →
      ModelsOk st' ∧ AllImportsOk st' := by
  intro refs
  induction refs with
  | nil =>
    intro st st' hwb hmo hai h
    simp only [resolveModules] at h
    injection h with h1
    subst h1
    exact ⟨hmo, hai⟩
  | cons r rest ih =>
    intro st st' hwb hmo hai h
    cases hr1 : resolveModule st r with
    | error e =>
      simp only [resolveModules, hr1] at h
      cases h
    | ok st1 =>
      simp only [resolveModules, hr1] at h
      obtain ⟨hmo1, hai1⟩ := resolveModule_imports_spec hwb hmo hai hr1
      exact ih st1 st' (resolveModule_spec hwb hr1).1 hmo1 hai1 h

theorem resolveReferences_imports {st st' : ParserState}
    (hwb : WellBuilt st) (hmo : ModelsOk st) (hai : AllImportsOk st)
    (h : resolveReferences st = Except.ok st') :
    ModelsOk st' ∧ AllImportsOk st' :=
  resolveModules_imports_spec (akeys st.modules) st st' hwb hmo hai h

theorem sortModule_models (st : ParserState) (mr : String) :
    (sortModule st mr).models = st.models := by
  cases h : alookup st.modules mr with
  | none => simp only [sortModule, h]
  | some md => simp only [sortModule, h]

theorem foldl_sortModule_models :
    ∀ (l : List String) (acc : ParserState),
      (l.foldl sortModule acc).models = acc.models := by
  intro l
  induction l with
  | nil => intro acc; rfl
  | cons x xs ih =>
    intro acc
    rw [List.foldl_cons, ih, sortModule_models]

theorem foldl_packages_models :
    ∀ (pk : List (String × Package)) (acc : ParserState),
      (pk.foldl (fun acc kv => kv.2.modules.foldl sortModule acc)
        acc).models = acc.models := by
  intro pk
  induction pk with
  | nil => intro acc; rfl
  | cons p ps ih =>
    intro acc
    rw [List.foldl_cons, ih, foldl_sortModule_models]

theorem sortPhase_models (st : ParserState) :
    (sortPhase st).models = st.models :=
  foldl_packages_models st.packages st

theorem sinsert_eq_orderedInsert {α : Type} (le : α → α → Bool) (x : α) :
    ∀ l : List α, sinsert le x l =
      List.orderedInsert (fun a b => le a b = true) x l := by
  intro l
  induction l with
  | nil => rfl
  | cons y ys ih =>
    by_cases h : le x y = true
    · simp only [sinsert, List.orderedInsert]
      rw [if_pos h, if_pos h]
    · simp only [sinsert, List.orderedInsert]
      rw [if_neg h, if_neg h, ih]

theorem pySort_eq_insertionSort {α : Type} (le : α → α → Bool) :
    ∀ l : List α, pySort le l =
      List.insertionSort (fun a b => le a b = true) l := by
  intro l
  induction l with
  | nil => rfl
  | cons x xs ih =>
    simp only [pySort, List.insertionSort, ih, sinsert_eq_orderedInsert]

theorem pySort_perm {α : Type} (le : α → α → Bool) (l : List α) :
    List.Perm (pySort le l) l := by
  rw [pySort_eq_insertionSort]
  exact List.perm_insertionSort _ l

theorem pySort_sorted {α : Type} (le : α → α → Bool)
    (htot : ∀ a b, le a b = true ∨ le b a = true)
    (htrans : ∀ a b c, le a b = true → le b c = true → le a c = true)
    (l : List α) :
    List.Pairwise (fun a b => le a b = true) (pySort le l) := by
  rw [pySort_eq_insertionSort]
  haveI : IsTotal α (fun a b => le a b = true) := ⟨htot⟩
  haveI : IsTrans α (fun a b => le a b = true) := ⟨htrans⟩
  exact List.sorted_insertionSort _ l

theorem sortImports_sorted (l : List Import) :
    List.Pairwise (fun a b : Import => a.module ≤ b.module)
      (sortImports l) := by
  have h := pySort_sorted (fun a b : Import => a.module ≤ b.module)
    (fun a b => by
      rcases le_total a.module b.module with h | h
      · exact Or.inl (decide_eq_true h)
      · exact Or.inr (decide_eq_true h))
    (fun a b c hab hbc =>
      decide_eq_true
        (le_trans (of_decide_eq_true hab) (of_decide_eq_true hbc)))
    l
  exact h.imp (fun hx => of_decide_eq_true hx)

theorem sortImports_perm (l : List Import) :
    List.Perm (sortImports l) l :=
  pySort_perm _ l

theorem importNames_sorted (st : ParserState) (imp : Import) :
    List.Pairwise (fun a b : String => a ≤ b) (importNames st imp) := by
  have h := pySort_sorted (fun a b : String => a ≤ b)
    (fun a b => by
      rcases le_total a b with h | h
      · exact Or.inl (decide_eq_true h)
      · exact Or.inr (decide_eq_true h))
    (fun a b c hab hbc =>
      decide_eq_true
        (le_trans (of_decide_eq_true hab) (of_decide_eq_true hbc)))
    (imp.models.map (fun mref =>
      match alookup st.models mref with
      | some m => m.definition.name
      | none => mref))
  exact h.imp (fun hx => of_decide_eq_true hx)

theorem importNames_nodup {st : ParserState} {imp : Import}
    (hmodels : imp.models.Nodup)
    (hinj : ∀ x ∈ imp.models, ∀ y ∈ imp.models,
      (match alookup st.models x with
       | some m => m.definition.name
       | none => x) =
      (match alookup st.models y with
       | some m => m.definition.name
       | none => y) → x = y) :
    (importNames st imp).Nodup := by
  have hmap : (imp.models.map (fun mref =>
      match alookup st.models mref with
      | some m => m.definition.name
      | none => mref)).Nodup :=
    List.Nodup.map_on hinj hmodels
  exact ((pySort_perm _ _).nodup_iff).mpr hmap

theorem targets_registered {st : ParserState} {wks : List String}
    {ftRef : String} (hmo : ModelsOk st)
    (ht : Targets st.models wks ftRef) :
    ftRef ∈ akeys st.models := by
  obtain ⟨mk, hmk, model, hlk, f, hf, hft⟩ := ht
  exact ((hmo (mk, model) (alookup_mem hlk)).2 f hf).2 ftRef hft

theorem names_inj {st : ParserState} (hmo : ModelsOk st)
    {x y pm : String}
    (hx : x ∈ akeys st.models) (hy : y ∈ akeys st.models)
    (hpx : parentRef x = pm) (hpy : parentRef y = pm)
    (hxy : (match alookup st.models x with
            | some m => m.definition.name
            | none => x) =
           (match alookup st.models y with
            | some m => m.definition.name
            | none => y)) : x = y := by
  cases hlx : alookup st.models x with
  | none => exact absurd hx ((alookup_none_iff _ _).mp hlx)
  | some mx =>
    cases hly : alookup st.models y with
    | none => exact absurd hy ((alookup_none_iff _ _).mp hly)
    | some my =>
      simp only [hlx, hly] at hxy
      have hdx : x = makeRef [parentRef x, mx.definition.name] :=
        (hmo (x, mx) (alookup_mem hlx)).1.2
      have hdy : y = makeRef [parentRef y, my.definition.name] :=
        (hmo (y, my) (alookup_mem hly)).1.2
      rw [hdx, hdy, hpx, hpy, hxy]

theorem sortModule_lookup_self {st : ParserState} {mr : String} {md : Module}
    (h : alookup st.modules mr = some md) :
    alookup (sortModule st mr).modules mr =
      some { md with imports := sortImports md.imports,
                     models := sortModels (modelDepPairs st md.models) } := by
  simp only [sortModule, h]
  exact alookup_aupdate_self _ _ _

theorem sortModule_lookup_other (st : ParserState) (mr k : String)
    (hne : k ≠ mr) :
    alookup (sortModule st mr).modules k = alookup st.modules k := by
  cases h : alookup st.modules mr with
  | none => simp only [sortModule, h]
  | some md =>
    simp only [sortModule, h]
    exact alookup_aupdate_ne _ _ _ _ hne

theorem sortModule_lookup_ne_none {st : ParserState} {k : String}
    (h : alookup st.modules k ≠ none) (mr : String) :
    alookup (sortModule st mr).modules k ≠ none := by
  by_cases hke : k = mr
  · subst hke
    cases hacc : alookup st.modules k with
    | none => exact absurd hacc h
    | some md0 =>
      rw [sortModule_lookup_self hacc]
      intro hh
      cases hh
  · rw [sortModule_lookup_other st mr k hke]
    exact h

theorem foldl_sortModule_ne_none :
    ∀ (l : List String) (acc : ParserState) (k : String),
      alookup acc.modules k ≠ none →
      alookup (l.foldl sortModule acc).modules k ≠ none := by
  intro l
  induction l with
  | nil =>
    intro acc k h
    exact h
  | cons mr rest ih =>
    intro acc k h
    rw [List.foldl_cons]
    exact ih (sortModule acc mr) k (sortModule_lookup_ne_none h mr)

theorem foldl_sortModule_keeps_sorted :
    ∀ (l : List String) (acc : ParserState) (k : String),
      (∀ md, alookup acc.modules k = some md →
        List.Pairwise (fun a b : Import => a.module ≤ b.module)
          md.imports) →
      ∀ md, alookup (l.foldl sortModule acc).modules k = some md →
        List.Pairwise (fun a b : Import => a.module ≤ b.module)
          md.imports := by
  intro l
  induction l with
  | nil =>
    intro acc k h
    exact h
  | cons mr rest ih =>
    intro acc k h
    rw [List.foldl_cons]
    refine ih (sortModule acc mr) k ?_
    intro md hmd
    by_cases hke : k = mr
    · subst hke
      cases hacc : alookup acc.modules k with
      | none =>
        simp only [sortModule, hacc] at hmd
        cases hmd
      | some md0 =>
        rw [sortModule_lookup_self hacc] at hmd
        injection hmd with hx
        rw [← hx]
        exact sortImports_sorted _
    · rw [sortModule_lookup_other acc mr k hke] at hmd
      exact h md hmd

theorem foldl_sortModule_sorted_of_mem :
    ∀ (l : List String) (acc : ParserState) (k : String), k ∈ l →
      alookup acc.modules k ≠ none →
      ∀ md, alookup (l.foldl sortModule acc).modules k = some md →
        List.Pairwise (fun a b : Import => a.module ≤ b.module)
          md.imports := by
  intro l
  induction l with
  | nil =>
    intro acc k hk
    cases hk
  | cons mr rest ih =>
    intro acc k hk hne
    rw [List.foldl_cons]
    by_cases hke : k = mr
    · subst hke
      refine foldl_sortModule_keeps_sorted rest (sortModule acc k) k ?_
      intro md hmd
      cases hacc : alookup acc.modules k with
      | none => exact absurd hacc hne
      | some md0 =>
        rw [sortModule_lookup_self hacc] at hmd
        injection hmd with hx
        rw [← hx]
        exact sortImports_sorted _
    · rcases List.mem_cons.mp hk with h1 | h2
      · exact absurd h1 hke
      · refine ih (sortModule acc mr) k h2 ?_
        rw [sortModule_lookup_other acc mr k hke]
        exact hne

theorem foldl_packages_keeps_sorted :
    ∀ (pk : List (String × Package)) (acc : ParserState) (k : String),
      (∀ md, alookup acc.modules k = some md →
        List.Pairwise (fun a b : Import => a.module ≤ b.module)
          md.imports) →
      ∀ md, alookup (pk.foldl (fun acc2 kv =>
          kv.2.modules.foldl sortModule acc2) acc).modules k = some md →
        List.Pairwise (fun a b : Import => a.module ≤ b.module)
          md.imports := by
  intro pk
  induction pk with
  | nil =>
    intro acc k h
    exact h
  | cons p ps ih =>
    intro acc k h
    rw [List.foldl_cons]
    exact ih _ k (foldl_sortModule_keeps_sorted p.2.modules acc k h)

theorem foldl_packages_sorted :
    ∀ (pk : List (String × Package)) (acc : ParserState) (k : String),
      (∃ p ∈ pk, k ∈ p.2.modules) →
      alookup acc.modules k ≠ none →
      ∀ md, alookup (pk.foldl (fun acc2 kv =>
          kv.2.modules.foldl sortModule acc2) acc).modules k = some md →
        List.Pairwise (fun a b : Import => a.module ≤ b.module)
          md.imports := by
  intro pk
  induction pk with
  | nil =>
    intro acc k hcov
    obtain ⟨p, hp, _⟩ := hcov
    cases hp
  | cons p ps ih =>
    intro acc k hcov hne
    rw [List.foldl_cons]
    obtain ⟨q, hq, hkq⟩ := hcov
    rcases List.mem_cons.mp hq with h1 | h2
    · refine foldl_packages_keeps_sorted ps _ k ?_
      subst h1
      exact foldl_sortModule_sorted_of_mem q.2.modules acc k hkq hne
    · refine ih _ k ⟨q, h2, hkq⟩ ?_
      exact foldl_sortModule_ne_none p.2.modules acc k hne

theorem sortModule_imports_perm (st : ParserState) (mr : String) :
    ∀ k md2, alookup (sortModule st mr).modules k = some md2 →
      ∃ md1, alookup st.modules k = some md1 ∧
        List.Perm md2.imports md1.imports := by
  intro k md2 hk
  by_cases hke : k = mr
  · subst hke
    cases hacc : alookup st.modules k with
    | none =>
      simp only [sortModule, hacc] at hk
      exact ⟨md2, hk, List.Perm.refl _⟩
    | some md0 =>
      rw [sortModule_lookup_self hacc] at hk
      injection hk with hx
      refine ⟨md0, rfl, ?_⟩
      rw [← hx]
      exact sortImports_perm _
  · rw [sortModule_lookup_other st mr k hke] at hk
    exact ⟨md2, hk, List.Perm.refl _⟩

theorem foldl_sortModule_imports_perm :
    ∀ (l : List String) (acc : ParserState) (k : String) (md2 : Module),
      alookup (l.foldl sortModule acc).modules k = some md2 →
      ∃ md1, alookup acc.modules k = some md1 ∧
        List.Perm md2.imports md1.imports := by
  intro l
  induction l with
  | nil =>
    intro acc k md2 h
    exact ⟨md2, h, List.Perm.refl _⟩
  | cons mr rest ih =>
    intro acc k md2 h
    rw [List.foldl_cons] at h
    obtain ⟨mdm, hm, hpm⟩ := ih (sortModule acc mr) k md2 h
    obtain ⟨md1, h1, hp1⟩ := sortModule_imports_perm acc mr k mdm hm
    exact ⟨md1, h1, List.Perm.trans hpm hp1⟩

theorem foldl_packages_imports_perm :
    ∀ (pk : List (String × Package)) (acc : ParserState) (k : String)
      (md2 : Module),
      alookup (pk.foldl (fun acc2 kv =>
        kv.2.modules.foldl sortModule acc2) acc).modules k = some md2 →
      ∃ md1, alookup acc.modules k = some md1 ∧
        List.Perm md2.imports md1.imports := by
  intro pk
  induction pk with
  | nil =>
    intro acc k md2 h
    exact ⟨md2, h, List.Perm.refl _⟩
  | cons p ps ih =>
    intro acc k md2 h
    rw [List.foldl_cons] at h
    obtain ⟨mdm, hm, hpm⟩ := ih _ k md2 h
    obtain ⟨md1, h1, hp1⟩ :=
      foldl_sortModule_imports_perm p.2.modules acc k mdm hm
    exact ⟨md1, h1, List.Perm.trans hpm hp1⟩

theorem sortPhase_imports_perm (st : ParserState) :
    ∀ k md2, alookup (sortPhase st).modules k = some md2 →
      ∃ md1, alookup st.modules k = some md1 ∧
        List.Perm md2.imports md1.imports := by
  intro k md2 h
  exact foldl_packages_imports_perm st.packages st k md2 h

theorem filter_ne_erase (a : String) :
    ∀ l : List String,
      (l.erase a).filter (fun x => decide (x ≠ a)) =
      l.filter (fun x => decide (x ≠ a)) := by
  intro l
  induction l with
  | nil => rfl
  | cons b bs ih =>
    rw [List.erase_cons]
    by_cases hba : b = a
    · rw [if_pos (beq_iff_eq.mpr hba)]
      subst hba
      have hf : (decide (b ≠ b)) = false := by simp
      rw [List.filter_cons, hf]
      simp
    · rw [if_neg (by simp [hba])]
      have ht : (decide (b ≠ a)) = true := by simp [hba]
      rw [List.filter_cons, List.filter_cons, ht, ih]

theorem totalDeps_aupdate :
    ∀ (deps : List (String × List String)) (d : String)
      (ds ds' : List String), alookup deps d = some ds →
      totalDeps (aupdate deps d ds') + ds.length =
        totalDeps deps + ds'.length := by
  intro deps
  induction deps with
  | nil =>
    intro d ds ds' h
    cases h
  | cons kv rest ih =>
    intro d ds ds' h
    by_cases hkd : kv.1 = d
    · rw [alookup, if_pos hkd] at h
      injection h with hx
      simp only [aupdate, if_pos hkd, totalDeps, List.map_cons, List.sum_cons]
      rw [← hx]
      omega
    · rw [alookup, if_neg hkd] at h
      simp only [aupdate, if_neg hkd, totalDeps, List.map_cons, List.sum_cons]
      have := ih d ds ds' h
      simp only [totalDeps] at this
      omega

theorem count_dependantsOf_not_mem :
    ∀ (nodes : List (String × List String)) (top r : String),
      r ∉ akeys nodes → (dependantsOf nodes top).count r = 0 := by
  intro nodes
  induction nodes with
  | nil =>
    intro top r h
    rfl
  | cons kv rest ih =>
    intro top r h
    have hnr : kv.1 ≠ r := by
      intro he
      exact h (by rw [← he]; exact List.mem_cons_self _ _)
    have hrest : r ∉ akeys rest := by
      intro hm
      exact h (List.mem_cons_of_mem _ hm)
    rw [dependantsOf, List.count_append, ih top r hrest]
    have : ((kv.2.filter (fun d => d == top)).map
        (fun _ => kv.1)).count r = 0 := by
      rw [List.count_eq_zero]
      intro hm
      obtain ⟨x, _, hx⟩ := List.mem_map.mp hm
      exact hnr hx
    omega

theorem count_dependantsOf_key :
    ∀ (nodes : List (String × List String)) (top r : String)
      (ds : List String),
      (akeys nodes).Nodup → alookup nodes r = some ds →
      (dependantsOf nodes top).count r = ds.count top := by
  intro nodes
  induction nodes with
  | nil =>
    intro top r ds _ h
    cases h
  | cons kv rest ih =>
    intro top r ds hnd h
    rw [dependantsOf, List.count_append]
    by_cases hkr : kv.1 = r
    · rw [alookup, if_pos hkr] at h
      injection h with hx
      have hrest : r ∉ akeys rest := by
        have := hnd
        rw [akeys, List.map_cons, List.nodup_cons] at this
        rw [← hkr]
        exact this.1
      rw [count_dependantsOf_not_mem rest top r hrest]
      have hconst : ∀ X : List String,
          (X.map (fun _ => r)).count r = X.length := by
        intro X
        induction X with
        | nil => rfl
        | cons x xs ihx =>
          rw [List.map_cons, List.count_cons_self, ihx, List.length_cons]
      have hmap : ((kv.2.filter (fun d => d == top)).map
          (fun _ => kv.1)).count r =
          (kv.2.filter (fun d => d == top)).length := by
        rw [hkr]
        exact hconst _
      rw [hmap, ← hx]
      rw [List.count]
      rw [List.countP_eq_length_filter]
      omega
    · rw [alookup, if_neg hkr] at h
      have hnd2 : (akeys rest).Nodup := by
        have := hnd
        rw [akeys, List.map_cons, List.nodup_cons] at this
        exact this.2
      rw [ih top r ds hnd2 h]
      have : ((kv.2.filter (fun d => d == top)).map
          (fun _ => kv.1)).count r = 0 := by
        rw [List.count_eq_zero]
        intro hm
        obtain ⟨x, _, hx⟩ := List.mem_map.mp hm
        exact hkr hx
      omega

theorem count_filter_pos (p : String → Bool) (a : String)
    (hp : p a = true) :
    ∀ l : List String, (l.filter p).count a = l.count a := by
  intro l
  induction l with
  | nil => rfl
  | cons x xs ih =>
    rw [List.filter_cons]
    by_cases hpx : p x = true
    · rw [hpx, if_pos rfl]
      by_cases hxa : a = x
      · subst hxa
        rw [List.count_cons_self, List.count_cons_self, ih]
      · rw [List.count_cons_of_ne hxa, List.count_cons_of_ne hxa, ih]
    · have hpx2 : p x = false := by
        cases hpq : p x
        · rfl
        · exact absurd hpq hpx
      rw [hpx2, if_neg (by simp)]
      have hxa : a ≠ x := by
        intro he
        rw [← he, hp] at hpx2
        cases hpx2
      rw [List.count_cons_of_ne hxa, ih]

theorem mem_dependantsOf :
    ∀ (nodes : List (String × List String)) (top r : String),
      r ∈ dependantsOf nodes top → r ∈ akeys nodes := by
  intro nodes
  induction nodes with
  | nil =>
    intro top r h
    cases h
  | cons kv rest ih =>
    intro top r h
    rw [dependantsOf] at h
    rcases List.mem_append.mp h with h1 | h2
    · obtain ⟨x, _, hx⟩ := List.mem_map.mp h1
      rw [akeys, List.map_cons]
      exact List.mem_cons.mpr (Or.inl hx.symm)
    · exact List.mem_cons_of_mem _ (ih top r h2)

theorem filter_not_mem_append_top (emitted : List String) (top : String) :
    ∀ l : List String,
      (l.filter (fun d => decide (d ∉ emitted))).filter
        (fun d => decide (d ≠ top)) =
      l.filter (fun d => decide (d ∉ emitted ++ [top])) := by
  intro l
  induction l with
  | nil => rfl
  | cons x xs ih =>
    by_cases h1 : x ∈ emitted
    · have c1 : decide (x ∉ emitted) = false := by simp [h1]
      have c2 : decide (x ∉ emitted ++ [top]) = false := by
        simp [List.mem_append, h1]
      rw [List.filter_cons, c1, if_neg (by simp), List.filter_cons, c2,
        if_neg (by simp)]
      exact ih
    · by_cases h2 : x = top
      · have c1 : decide (x ∉ emitted) = true := by simp [h1]
        have c2 : decide (x ≠ top) = false := by simp [h2]
        have c3 : decide (x ∉ emitted ++ [top]) = false := by
          simp [List.mem_append, h2]
        rw [List.filter_cons, c1, if_pos rfl, List.filter_cons, c2,
          if_neg (by simp), List.filter_cons, c3, if_neg (by simp)]
        exact ih
      · have c1 : decide (x ∉ emitted) = true := by simp [h1]
        have c2 : decide (x ≠ top) = true := by simp [h2]
        have c3 : decide (x ∉ emitted ++ [top]) = true := by
          simp [List.mem_append, h1, h2]
        rw [List.filter_cons, c1, if_pos rfl, List.filter_cons, c2,
          if_pos rfl, List.filter_cons, c3, if_pos rfl, ih]

theorem processDependants_spec (top : String) :
    ∀ (batch : List String) (deps : List (String × List String))
      (stack : List String),
      (∀ r ds, alookup deps r = some ds → batch.count r = ds.count top) →
      (∀ r ∈ batch, alookup deps r ≠ none) →
      (∀ r ∈ stack, alookup deps r = some []) →
      stack.Nodup →
      (∀ r, alookup (processDependants top deps stack batch).1 r =
        (alookup deps r).map (List.filter (fun d => decide (d ≠ top)))) ∧
      (∀ r ∈ stack, r ∈ (processDependants top deps stack batch).2) ∧
      (∀ r ∈ (processDependants top deps stack batch).2,
        r ∈ stack ∨ ((alookup deps r ≠ some []) ∧
          alookup (processDependants top deps stack batch).1 r = some [])) ∧
      (∀ r, alookup deps r ≠ some [] →
        alookup (processDependants top deps stack batch).1 r = some [] →
        r ∈ (processDependants top deps stack batch).2) ∧
      (processDependants top deps stack batch).2.Nodup ∧
      totalDeps (processDependants top deps stack batch).1 +
        (processDependants top deps stack batch).2.length ≤
        totalDeps deps + stack.length := by
  intro batch
  induction batch with
  | nil =>
    intro deps stack hcount hmem hsound hnodup
    have h1 : ∀ r, alookup deps r =
        (alookup deps r).map (List.filter (fun d => decide (d ≠ top))) := by
      intro r
      cases hl : alookup deps r with
      | none => rfl
      | some ds =>
        have hc := hcount r ds hl
        have hnotop : top ∉ ds := by
          intro hm
          have : 0 < ds.count top := List.count_pos_iff_mem.mpr hm
          rw [List.count_nil] at hc
          omega
        have : ds.filter (fun d => decide (d ≠ top)) = ds := by
          rw [List.filter_eq_self]
          intro d hd
          simp only [decide_eq_true_eq]
          intro he
          exact hnotop (he ▸ hd)
        rw [Option.map_some', this]
    exact ⟨h1, fun r hr => hr, fun r hr => Or.inl hr,
      fun r hne hval => absurd hval hne, hnodup, le_refl _⟩
  | cons b bs ih =>
    intro deps stack hcount hmem hsound hnodup
    cases hb : alookup deps b with
    | none => exact absurd hb (hmem b (List.mem_cons_self _ _))
    | some ds =>
      have hc := hcount b ds hb
      rw [List.count_cons_self] at hc
      have htop : top ∈ ds := by
        refine List.count_pos_iff_mem.mp ?_
        omega
      have hdsne : ds ≠ [] := by
        intro he
        rw [he] at htop
        cases htop
      have herase : eraseDep deps b top =
          (aupdate deps b (ds.erase top), (ds.erase top).isEmpty) := by
        simp only [eraseDep, hb, if_pos htop]
      have hstep : processDependants top deps stack (b :: bs) =
          processDependants top (aupdate deps b (ds.erase top))
            (if (ds.erase top).isEmpty then b :: stack else stack) bs := by
        simp only [processDependants, herase]
      have hbstack : b ∉ stack := by
        intro hm
        have := hsound b hm
        rw [hb] at this
        injection this with hx
        exact hdsne hx
      have hcount1 : ∀ r ds2,
          alookup (aupdate deps b (ds.erase top)) r = some ds2 →
          bs.count r = ds2.count top := by
        intro r ds2 hl
        by_cases hrb : r = b
        · subst hrb
          rw [alookup_aupdate_self] at hl
          injection hl with hx
          rw [← hx, List.count_erase_self]
          omega
        · rw [alookup_aupdate_ne _ _ _ _ hrb] at hl
          have := hcount r _ hl
          rw [List.count_cons_of_ne hrb] at this
          exact this
      have hmem1 : ∀ r ∈ bs,
          alookup (aupdate deps b (ds.erase top)) r ≠ none := by
        intro r hr
        exact alookup_ne_none_aupdate (hmem r (List.mem_cons_of_mem _ hr))
      have hsound1 : ∀ r ∈ (if (ds.erase top).isEmpty then b :: stack
          else stack), alookup (aupdate deps b (ds.erase top)) r = some [] := by
        intro r hr
        by_cases hemp : (ds.erase top).isEmpty
        · rw [if_pos hemp] at hr
          rcases List.mem_cons.mp hr with h1 | h2
          · subst h1
            rw [alookup_aupdate_self]
            rw [List.isEmpty_iff] at hemp
            rw [hemp]
          · have hrb : r ≠ b := fun he => hbstack (he ▸ h2)
            rw [alookup_aupdate_ne _ _ _ _ hrb]
            exact hsound r h2
        · rw [if_neg hemp] at hr
          have hrb : r ≠ b := fun he => hbstack (he ▸ hr)
          rw [alookup_aupdate_ne _ _ _ _ hrb]
          exact hsound r hr
      have hnodup1 : (if (ds.erase top).isEmpty then b :: stack
          else stack).Nodup := by
        by_cases hemp : (ds.erase top).isEmpty
        · rw [if_pos hemp]
          exact List.nodup_cons.mpr ⟨hbstack, hnodup⟩
        · rw [if_neg hemp]
          exact hnodup
      obtain ⟨i1, i2, i3, i4, i5, i6⟩ :=
        ih (aupdate deps b (ds.erase top))
          (if (ds.erase top).isEmpty then b :: stack else stack)
          hcount1 hmem1 hsound1 hnodup1
      rw [hstep]
      refine ⟨?_, ?_, ?_, ?_, i5, ?_⟩
      · intro r
        rw [i1 r]
        by_cases hrb : r = b
        · subst hrb
          rw [alookup_aupdate_self, hb]
          simp only [Option.map_some']
          rw [filter_ne_erase]
        · rw [alookup_aupdate_ne _ _ _ _ hrb]
      · intro r hr
        refine i2 r ?_
        by_cases hemp : (ds.erase top).isEmpty
        · rw [if_pos hemp]
          exact List.mem_cons_of_mem _ hr
        · rw [if_neg hemp]
          exact hr
      · intro r hr
        rcases i3 r hr with h1 | h2
        · by_cases hemp : (ds.erase top).isEmpty
          · rw [if_pos hemp] at h1
            rcases List.mem_cons.mp h1 with h3 | h4
            · subst h3
              right
              constructor
              · rw [hb]
                intro he
                injection he with hx
                exact hdsne hx
              · rw [i1 r, alookup_aupdate_self]
                rw [List.isEmpty_iff] at hemp
                rw [hemp]
                rfl
            · exact Or.inl h4
          · rw [if_neg hemp] at h1
            exact Or.inl h1
        · right
          obtain ⟨ha, hbv⟩ := h2
          refine ⟨?_, hbv⟩
          by_cases hrb : r = b
          · subst hrb
            rw [hb]
            intro he
            injection he with hx
            exact hdsne hx
          · rw [alookup_aupdate_ne _ _ _ _ hrb] at ha
            exact ha
      · intro r hne hval
        by_cases hrb : r = b
        · subst hrb
          by_cases hemp : (ds.erase top).isEmpty
          · refine i2 r ?_
            rw [if_pos hemp]
            exact List.mem_cons_self _ _
          · refine i4 r ?_ hval
            rw [alookup_aupdate_self]
            intro he
            injection he with hx
            rw [List.isEmpty_iff] at hemp
            exact hemp hx
        · refine i4 r ?_ hval
          rw [alookup_aupdate_ne _ _ _ _ hrb]
          exact hne
      · have htd : totalDeps (aupdate deps b (ds.erase top)) + ds.length =
            totalDeps deps + (ds.erase top).length :=
          totalDeps_aupdate deps b ds (ds.erase top) hb
        have hlen : (ds.erase top).length + 1 = ds.length :=
          List.length_erase_add_one htop
        have hslen : (if (ds.erase top).isEmpty then b :: stack
            else stack).length ≤ stack.length + 1 := by
          by_cases hemp : (ds.erase top).isEmpty
          · rw [if_pos hemp, List.length_cons]
          · rw [if_neg hemp]
            omega
        omega

/-- After a successful `_resolve_references` pass over a well-built state,
every registered model's fields are resolved (plus bookkeeping facts used
by later phases). -/

theorem alookup_append_some {β : Type} {l1 l2 : List (String × β)}
    {x : String} {v : β} (h : alookup l1 x = some v) :
    alookup (l1 ++ l2) x = some v := by
  induction l1 with
  | nil => cases h
  | cons kv rest ih =>
    by_cases hk : kv.1 = x
    · rw [alookup, if_pos hk] at h
      rw [List.cons_append, alookup, if_pos hk]
      exact h
    · rw [alookup, if_neg hk] at h
      rw [List.cons_append, alookup, if_neg hk]
      exact ih h

theorem alookup_append_none {β : Type} {l1 l2 : List (String × β)}
    {x : String} (h : alookup l1 x = none) :
    alookup (l1 ++ l2) x = alookup l2 x := by
  induction l1 with
  | nil => rfl
  | cons kv rest ih =>
    by_cases hk : kv.1 = x
    · rw [alookup, if_pos hk] at h
      cases h
    · rw [alookup, if_neg hk] at h
      rw [List.cons_append, alookup, if_neg hk]
      exact ih h

theorem mem_akeys_setdefaultNode (ns : List (String × List String))
    (r x : String) :
    x ∈ akeys (setdefaultNode ns r) ↔ x ∈ akeys ns ∨ x = r := by
  rw [setdefaultNode]
  by_cases h : (akeys ns).contains r
  · rw [if_pos h]
    constructor
    · exact Or.inl
    · intro hx
      rcases hx with h1 | h1
      · exact h1
      · rw [h1]
        exact List.mem_of_elem_eq_true h
  · rw [if_neg h]
    rw [akeys, List.map_append]
    rw [List.mem_append]
    constructor
    · intro hx
      rcases hx with h1 | h1
      · exact Or.inl h1
      · right
        simpa using h1
    · intro hx
      rcases hx with h1 | h1
      · exact Or.inl h1
      · right
        simp [h1]

theorem akeys_setdefaultNode_nodup {ns : List (String × List String)}
    {r : String} (h : (akeys ns).Nodup) :
    (akeys (setdefaultNode ns r)).Nodup := by
  rw [setdefaultNode]
  by_cases hc : (akeys ns).contains r
  · rw [if_pos hc]
    exact h
  · rw [if_neg hc]
    rw [akeys, List.map_append]
    refine List.Nodup.append h (by simp) ?_
    intro a ha hb
    simp only [List.map_cons, List.map_nil, List.mem_singleton] at hb
    rw [hb] at ha
    exact (by simpa using hc : r ∉ akeys ns) ha
  -- contains/mem bridge is List.contains_iff_mem

theorem alookup_setdefaultNode_some {ns : List (String × List String)}
    {r x : String} {ds : List String} (h : alookup ns x = some ds) :
    alookup (setdefaultNode ns r) x = some ds := by
  rw [setdefaultNode]
  by_cases hc : (akeys ns).contains r
  · rw [if_pos hc]
    exact h
  · rw [if_neg hc]
    exact alookup_append_some h

theorem alookup_setdefaultNode_target (ns : List (String × List String))
    (r : String) :
    ∃ ds, alookup (setdefaultNode ns r) r = some ds := by
  rw [setdefaultNode]
  by_cases hc : (akeys ns).contains r
  · rw [if_pos hc]
    cases hl : alookup ns r with
    | none =>
      exact absurd (List.mem_of_elem_eq_true hc)
        ((alookup_none_iff _ _).mp hl)
    | some ds => exact ⟨ds, rfl⟩
  · rw [if_neg hc]
    cases hl : alookup ns r with
    | none =>
      refine ⟨[], ?_⟩
      rw [alookup_append_none hl, alookup, if_pos rfl]
    | some ds =>
      exact ⟨ds, alookup_append_some hl⟩

theorem alookup_setdefaultNode_none {ns : List (String × List String)}
    {r x : String} (hx : x ≠ r) (h : alookup ns x = none) :
    alookup (setdefaultNode ns r) x = none := by
  rw [setdefaultNode]
  by_cases hc : (akeys ns).contains r
  · rw [if_pos hc]
    exact h
  · rw [if_neg hc]
    rw [alookup_append_none h, alookup, if_neg (fun he => hx he.symm)]
    rfl

theorem akeys_addDep (ns : List (String × List String)) (r d : String) :
    akeys (addDep ns r d) = akeys ns := by
  rw [akeys, addDep, List.map_map, akeys]
  congr 1
  funext kv
  by_cases hk : kv.1 = r
  · simp [hk]
  · simp [hk]

theorem alookup_addDep (ns : List (String × List String)) (r d x : String) :
    alookup (addDep ns r d) x =
      if x = r then (alookup ns x).map (fun ds => ds ++ [d])
      else alookup ns x := by
  induction ns with
  | nil =>
    by_cases hx : x = r
    · rw [if_pos hx]
      rfl
    · rw [if_neg hx]
      rfl
  | cons kv rest ih =>
    rw [addDep, List.map_cons]
    by_cases hk : kv.1 = r
    · rw [if_pos hk]
      by_cases hx : x = r
      · rw [if_pos hx, alookup, if_pos (by rw [hk, hx]), alookup,
          if_pos (by rw [hk, hx]), Option.map_some']
      · rw [if_neg hx, alookup, if_neg (by rw [hk]; exact fun he => hx he.symm),
          alookup, if_neg (by rw [hk]; exact fun he => hx he.symm)]
        have := ih
        rw [addDep] at this
        rw [this, if_neg hx]
    · rw [if_neg hk]
      by_cases hkx : kv.1 = x
      · rw [alookup, if_pos hkx, alookup, if_pos hkx]
        have hx : x ≠ r := by
          intro he
          rw [he] at hkx
          exact hk hkx
        rw [if_neg hx]
      · rw [alookup, if_neg hkx, alookup, if_neg hkx]
        have := ih
        rw [addDep] at this
        rw [this]

theorem buildNodes_eq_foldl (pairs : List (String × List String)) :
    buildNodes pairs = pairs.foldl outerStep [] := rfl

theorem alookup_setdefaultNode_new {ns : List (String × List String)}
    {r : String} (h : alookup ns r = none) :
    alookup (setdefaultNode ns r) r = some [] := by
  rw [setdefaultNode]
  by_cases hc : (akeys ns).contains r
  · exact absurd (List.mem_of_elem_eq_true hc) ((alookup_none_iff _ _).mp h)
  · rw [if_neg hc, alookup_append_none h, alookup, if_pos rfl]

theorem innerStep_content_origin (p1 : String)
    (ns : List (String × List String)) (d r : String) (ds1 : List String)
    (h : alookup (innerStep p1 ns d) r = some ds1) :
    ∀ x ∈ ds1, (∃ ds, alookup ns r = some ds ∧ x ∈ ds) ∨
      (r = p1 ∧ x = d) := by
  intro x hx
  rw [innerStep, alookup_addDep] at h
  by_cases hrp : r = p1
  · rw [if_pos hrp] at h
    cases hsd : alookup (setdefaultNode ns d) r with
    | none =>
      rw [hsd] at h
      cases h
    | some dsA =>
      rw [hsd, Option.map_some'] at h
      injection h with hh
      rw [← hh] at hx
      rcases List.mem_append.mp hx with h1 | h1
      · cases hns : alookup ns r with
        | none =>
          by_cases hrd : r = d
          · rw [hrd] at hns hsd
            rw [alookup_setdefaultNode_new hns] at hsd
            injection hsd with hA
            rw [← hA] at h1
            cases h1
          · rw [alookup_setdefaultNode_none hrd hns] at hsd
            cases hsd
        | some ds =>
          rw [alookup_setdefaultNode_some hns] at hsd
          injection hsd with hA
          rw [← hA] at h1
          exact Or.inl ⟨ds, rfl, h1⟩
      · exact Or.inr ⟨hrp, List.mem_singleton.mp h1⟩
  · rw [if_neg hrp] at h
    cases hns : alookup ns r with
    | none =>
      by_cases hrd : r = d
      · rw [hrd] at hns h
        rw [alookup_setdefaultNode_new hns] at h
        injection h with hA
        rw [← hA] at hx
        cases hx
      · rw [alookup_setdefaultNode_none hrd hns] at h
        cases h
    | some ds =>
      rw [alookup_setdefaultNode_some hns] at h
      injection h with hA
      rw [← hA] at hx
      exact Or.inl ⟨ds, rfl, hx⟩

theorem innerFold_keys_mono (p1 : String) :
    ∀ (l : List String) (ns : List (String × List String)) (x : String),
      x ∈ akeys ns → x ∈ akeys (l.foldl (innerStep p1) ns) := by
  intro l
  induction l with
  | nil =>
    intro ns x hx
    exact hx
  | cons d rest ih =>
    intro ns x hx
    rw [List.foldl_cons]
    refine ih (innerStep p1 ns d) x ?_
    rw [innerStep, akeys_addDep]
    exact (mem_akeys_setdefaultNode _ _ _).mpr (Or.inl hx)

theorem innerFold_keys_origin (p1 : String) :
    ∀ (l : List String) (ns : List (String × List String)) (x : String),
      x ∈ akeys (l.foldl (innerStep p1) ns) → x ∈ akeys ns ∨ x ∈ l := by
  intro l
  induction l with
  | nil =>
    intro ns x hx
    exact Or.inl hx
  | cons d rest ih =>
    intro ns x hx
    rw [List.foldl_cons] at hx
    rcases ih (innerStep p1 ns d) x hx with h1 | h1
    · rw [innerStep, akeys_addDep] at h1
      rcases (mem_akeys_setdefaultNode _ _ _).mp h1 with h2 | h2
      · exact Or.inl h2
      · exact Or.inr (by rw [h2]; exact List.mem_cons_self _ _)
    · exact Or.inr (List.mem_cons_of_mem _ h1)

theorem innerFold_nodup (p1 : String) :
    ∀ (l : List String) (ns : List (String × List String)),
      (akeys ns).Nodup → (akeys (l.foldl (innerStep p1) ns)).Nodup := by
  intro l
  induction l with
  | nil =>
    intro ns h
    exact h
  | cons d rest ih =>
    intro ns h
    rw [List.foldl_cons]
    refine ih (innerStep p1 ns d) ?_
    rw [innerStep, akeys_addDep]
    exact akeys_setdefaultNode_nodup h

theorem innerFold_lookup_mono (p1 : String) :
    ∀ (l : List String) (ns : List (String × List String)) (r : String)
      (ds : List String), alookup ns r = some ds →
      ∃ ds2, alookup (l.foldl (innerStep p1) ns) r = some ds2 ∧
        ∀ x ∈ ds, x ∈ ds2 := by
  intro l
  induction l with
  | nil =>
    intro ns r ds h
    exact ⟨ds, h, fun x hx => hx⟩
  | cons d rest ih =>
    intro ns r ds h
    rw [List.foldl_cons]
    have hsd : alookup (setdefaultNode ns d) r = some ds :=
      alookup_setdefaultNode_some h
    by_cases hrp : r = p1
    · have hstep : alookup (innerStep p1 ns d) r = some (ds ++ [d]) := by
        rw [innerStep, alookup_addDep, if_pos hrp, hsd, Option.map_some']
      obtain ⟨ds2, h2, hsub⟩ := ih (innerStep p1 ns d) r (ds ++ [d]) hstep
      exact ⟨ds2, h2, fun x hx =>
        hsub x (List.mem_append.mpr (Or.inl hx))⟩
    · have hstep : alookup (innerStep p1 ns d) r = some ds := by
        rw [innerStep, alookup_addDep, if_neg hrp, hsd]
      exact ih (innerStep p1 ns d) r ds hstep

theorem innerFold_content_origin (p1 : String) :
    ∀ (l : List String) (ns : List (String × List String)) (r : String)
      (ds2 : List String),
      alookup (l.foldl (innerStep p1) ns) r = some ds2 → ∀ x ∈ ds2,
      (∃ ds, alookup ns r = some ds ∧ x ∈ ds) ∨ (r = p1 ∧ x ∈ l) := by
  intro l
  induction l with
  | nil =>
    intro ns r ds2 h x hx
    exact Or.inl ⟨ds2, h, hx⟩
  | cons d rest ih =>
    intro ns r ds2 h x hx
    rw [List.foldl_cons] at h
    rcases ih (innerStep p1 ns d) r ds2 h x hx with h1 | h1
    · obtain ⟨ds1, hds1, hx1⟩ := h1
      rcases innerStep_content_origin p1 ns d r ds1 hds1 x hx1 with h2 | h2
      · exact Or.inl h2
      · exact Or.inr ⟨h2.1, by rw [h2.2]; exact List.mem_cons_self _ _⟩
    · exact Or.inr ⟨h1.1, List.mem_cons_of_mem _ h1.2⟩

theorem innerFold_closure (p1 : String) :
    ∀ (l : List String) (ns : List (String × List String)),
      (∀ r ds, alookup ns r = some ds → ∀ x ∈ ds, x ∈ akeys ns) →
      p1 ∈ akeys ns →
      ∀ r ds, alookup (l.foldl (innerStep p1) ns) r = some ds → ∀ x ∈ ds,
        x ∈ akeys (l.foldl (innerStep p1) ns) := by
  intro l
  induction l with
  | nil =>
    intro ns hcl _ r ds h x hx
    exact hcl r ds h x hx
  | cons d rest ih =>
    intro ns hcl hp1 r ds h x hx
    rw [List.foldl_cons] at h ⊢
    refine ih (innerStep p1 ns d) ?_ ?_ r ds h x hx
    · intro r2 ds2 h2 x2 hx2
      rcases innerStep_content_origin p1 ns d r2 ds2 h2 x2 hx2 with h3 | h3
      · obtain ⟨ds3, hds3, hx3⟩ := h3
        have := hcl r2 ds3 hds3 x2 hx3
        rw [innerStep, akeys_addDep]
        exact (mem_akeys_setdefaultNode _ _ _).mpr (Or.inl this)
      · rw [innerStep, akeys_addDep, h3.2]
        exact (mem_akeys_setdefaultNode _ _ _).mpr (Or.inr rfl)
    · rw [innerStep, akeys_addDep]
      exact (mem_akeys_setdefaultNode _ _ _).mpr (Or.inl hp1)

theorem innerFold_p1_content (p1 : String) :
    ∀ (l : List String) (ns : List (String × List String))
      (ds0 : List String), alookup ns p1 = some ds0 →
      ∃ ds2, alookup (l.foldl (innerStep p1) ns) p1 = some ds2 ∧
        ∀ d ∈ l, d ∈ ds2 := by
  intro l
  induction l with
  | nil =>
    intro ns ds0 h
    exact ⟨ds0, h, fun d hd => absurd hd (by intro hh; cases hh)⟩
  | cons d rest ih =>
    intro ns ds0 h
    rw [List.foldl_cons]
    have hsd : alookup (setdefaultNode ns d) p1 = some ds0 :=
      alookup_setdefaultNode_some h
    have hstep : alookup (innerStep p1 ns d) p1 = some (ds0 ++ [d]) := by
      rw [innerStep, alookup_addDep, if_pos rfl, hsd, Option.map_some']
    obtain ⟨ds2, h2, hall⟩ := ih (innerStep p1 ns d) (ds0 ++ [d]) hstep
    obtain ⟨ds3, h3, hsub⟩ :=
      innerFold_lookup_mono p1 rest (innerStep p1 ns d) p1 (ds0 ++ [d]) hstep
    rw [h2] at h3
    injection h3 with h4
    refine ⟨ds2, h2, ?_⟩
    intro d2 hd2
    rcases List.mem_cons.mp hd2 with h5 | h5
    · rw [h5, h4]
      exact hsub d (List.mem_append.mpr (Or.inr (List.mem_singleton.mpr rfl)))
    · exact hall d2 h5

theorem outerStep_keys_mono (nodes : List (String × List String))
    (pr : String × List String) (x : String) (hx : x ∈ akeys nodes) :
    x ∈ akeys (outerStep nodes pr) := by
  rw [outerStep]
  exact innerFold_keys_mono pr.1 pr.2 _ x
    ((mem_akeys_setdefaultNode _ _ _).mpr (Or.inl hx))

theorem outerStep_keys_origin (nodes : List (String × List String))
    (pr : String × List String) (x : String)
    (hx : x ∈ akeys (outerStep nodes pr)) :
    x ∈ akeys nodes ∨ x = pr.1 ∨ x ∈ pr.2 := by
  rw [outerStep] at hx
  rcases innerFold_keys_origin pr.1 pr.2 _ x hx with h1 | h1
  · rcases (mem_akeys_setdefaultNode _ _ _).mp h1 with h2 | h2
    · exact Or.inl h2
    · exact Or.inr (Or.inl h2)
  · exact Or.inr (Or.inr h1)

theorem outerStep_nodup {nodes : List (String × List String)}
    {pr : String × List String} (h : (akeys nodes).Nodup) :
    (akeys (outerStep nodes pr)).Nodup := by
  rw [outerStep]
  exact innerFold_nodup pr.1 pr.2 _ (akeys_setdefaultNode_nodup h)

theorem outerStep_lookup_mono (nodes : List (String × List String))
    (pr : String × List String) (r : String) (ds : List String)
    (h : alookup nodes r = some ds) :
    ∃ ds2, alookup (outerStep nodes pr) r = some ds2 ∧
      ∀ x ∈ ds, x ∈ ds2 := by
  rw [outerStep]
  exact innerFold_lookup_mono pr.1 pr.2 _ r ds
    (alookup_setdefaultNode_some h)

theorem outerStep_content_origin (nodes : List (String × List String))
    (pr : String × List String) (r : String) (ds2 : List String)
    (h : alookup (outerStep nodes pr) r = some ds2) :
    ∀ x ∈ ds2, (∃ ds, alookup nodes r = some ds ∧ x ∈ ds) ∨
      (r = pr.1 ∧ x ∈ pr.2) := by
  intro x hx
  rw [outerStep] at h
  rcases innerFold_content_origin pr.1 pr.2 _ r ds2 h x hx with h1 | h1
  · obtain ⟨ds1, hds1, hx1⟩ := h1
    cases hns : alookup nodes r with
    | none =>
      by_cases hrp : r = pr.1
      · rw [hrp] at hns hds1
        rw [alookup_setdefaultNode_new hns] at hds1
        injection hds1 with hA
        rw [← hA] at hx1
        cases hx1
      · rw [alookup_setdefaultNode_none hrp hns] at hds1
        cases hds1
    | some ds =>
      rw [alookup_setdefaultNode_some hns] at hds1
      injection hds1 with hA
      rw [← hA] at hx1
      exact Or.inl ⟨ds, rfl, hx1⟩
  · exact Or.inr h1

theorem outerStep_closure (nodes : List (String × List String))
    (pr : String × List String)
    (hcl : ∀ r ds, alookup nodes r = some ds → ∀ x ∈ ds, x ∈ akeys nodes) :
    ∀ r ds, alookup (outerStep nodes pr) r = some ds → ∀ x ∈ ds,
      x ∈ akeys (outerStep nodes pr) := by
  rw [outerStep]
  refine innerFold_closure pr.1 pr.2 _ ?_ ?_
  · intro r ds h x hx
    cases hns : alookup nodes r with
    | none =>
      by_cases hrp : r = pr.1
      · rw [hrp] at hns h
        rw [alookup_setdefaultNode_new hns] at h
        injection h with hA
        rw [← hA] at hx
        cases hx
      · rw [alookup_setdefaultNode_none hrp hns] at h
        cases h
    | some ds0 =>
      rw [alookup_setdefaultNode_some hns] at h
      injection h with hA
      rw [← hA] at hx
      exact (mem_akeys_setdefaultNode _ _ _).mpr
        (Or.inl (hcl r ds0 hns x hx))
  · exact (mem_akeys_setdefaultNode _ _ _).mpr (Or.inr rfl)

theorem outerStep_pr_content (nodes : List (String × List String))
    (pr : String × List String) :
    ∃ ds2, alookup (outerStep nodes pr) pr.1 = some ds2 ∧
      ∀ d ∈ pr.2, d ∈ ds2 := by
  obtain ⟨ds0, hds0⟩ := alookup_setdefaultNode_target nodes pr.1
  rw [outerStep]
  exact innerFold_p1_content pr.1 pr.2 _ ds0 hds0

theorem outerFold_keys_mono :
    ∀ (pairs : List (String × List String))
      (acc : List (String × List String)) (x : String),
      x ∈ akeys acc → x ∈ akeys (pairs.foldl outerStep acc) := by
  intro pairs
  induction pairs with
  | nil =>
    intro acc x hx
    exact hx
  | cons pr rest ih =>
    intro acc x hx
    rw [List.foldl_cons]
    exact ih (outerStep acc pr) x (outerStep_keys_mono acc pr x hx)

theorem outerFold_nodup :
    ∀ (pairs : List (String × List String))
      (acc : List (String × List String)),
      (akeys acc).Nodup → (akeys (pairs.foldl outerStep acc)).Nodup := by
  intro pairs
  induction pairs with
  | nil =>
    intro acc h
    exact h
  | cons pr rest ih =>
    intro acc h
    rw [List.foldl_cons]
    exact ih (outerStep acc pr) (outerStep_nodup h)

theorem outerFold_closure :
    ∀ (pairs : List (String × List String))
      (acc : List (String × List String)),
      (∀ r ds, alookup acc r = some ds → ∀ x ∈ ds, x ∈ akeys acc) →
      ∀ r ds, alookup (pairs.foldl outerStep acc) r = some ds → ∀ x ∈ ds,
        x ∈ akeys (pairs.foldl outerStep acc) := by
  intro pairs
  induction pairs with
  | nil =>
    intro acc h
    exact h
  | cons pr rest ih =>
    intro acc h
    rw [List.foldl_cons]
    exact ih (outerStep acc pr) (outerStep_closure acc pr h)

theorem outerFold_lookup_mono :
    ∀ (pairs : List (String × List String))
      (acc : List (String × List String)) (r : String) (ds : List String),
      alookup acc r = some ds →
      ∃ ds2, alookup (pairs.foldl outerStep acc) r = some ds2 ∧
        ∀ x ∈ ds, x ∈ ds2 := by
  intro pairs
  induction pairs with
  | nil =>
    intro acc r ds h
    exact ⟨ds, h, fun x hx => hx⟩
  | cons pr rest ih =>
    intro acc r ds h
    rw [List.foldl_cons]
    obtain ⟨ds1, h1, hsub1⟩ := outerStep_lookup_mono acc pr r ds h
    obtain ⟨ds2, h2, hsub2⟩ := ih (outerStep acc pr) r ds1 h1
    exact ⟨ds2, h2, fun x hx => hsub2 x (hsub1 x hx)⟩

theorem outerFold_content_origin :
    ∀ (pairs : List (String × List String))
      (acc : List (String × List String)) (r : String) (ds2 : List String),
      alookup (pairs.foldl outerStep acc) r = some ds2 → ∀ x ∈ ds2,
      (∃ ds, alookup acc r = some ds ∧ x ∈ ds) ∨
        ∃ pr ∈ pairs, pr.1 = r ∧ x ∈ pr.2 := by
  intro pairs
  induction pairs with
  | nil =>
    intro acc r ds2 h x hx
    exact Or.inl ⟨ds2, h, hx⟩
  | cons pr rest ih =>
    intro acc r ds2 h x hx
    rw [List.foldl_cons] at h
    rcases ih (outerStep acc pr) r ds2 h x hx with h1 | h1
    · obtain ⟨ds1, hds1, hx1⟩ := h1
      rcases outerStep_content_origin acc pr r ds1 hds1 x hx1 with h2 | h2
      · exact Or.inl h2
      · exact Or.inr ⟨pr, List.mem_cons_self _ _, h2.1.symm, h2.2⟩
    · obtain ⟨pr2, hpr2, hx2⟩ := h1
      exact Or.inr ⟨pr2, List.mem_cons_of_mem _ hpr2, hx2⟩

theorem outerFold_pair_edges :
    ∀ (pairs : List (String × List String))
      (acc : List (String × List String)) (pr : String × List String),
      pr ∈ pairs → ∀ d ∈ pr.2,
      ∃ ds, alookup (pairs.foldl outerStep acc) pr.1 = some ds ∧
        d ∈ ds := by
  intro pairs
  induction pairs with
  | nil =>
    intro acc pr hpr
    cases hpr
  | cons pr0 rest ih =>
    intro acc pr hpr d hd
    rw [List.foldl_cons]
    rcases List.mem_cons.mp hpr with h1 | h1
    · subst h1
      obtain ⟨ds1, h1, hall⟩ := outerStep_pr_content acc pr
      obtain ⟨ds2, h2, hsub⟩ :=
        outerFold_lookup_mono rest (outerStep acc pr) pr.1 ds1 h1
      exact ⟨ds2, h2, hsub d (hall d hd)⟩
    · exact ih (outerStep acc pr0) pr h1 d hd

theorem outerFold_keys_origin :
    ∀ (pairs : List (String × List String))
      (acc : List (String × List String)) (x : String),
      x ∈ akeys (pairs.foldl outerStep acc) →
      x ∈ akeys acc ∨ ∃ pr ∈ pairs, x = pr.1 ∨ x ∈ pr.2 := by
  intro pairs
  induction pairs with
  | nil =>
    intro acc x hx
    exact Or.inl hx
  | cons pr rest ih =>
    intro acc x hx
    rw [List.foldl_cons] at hx
    rcases ih (outerStep acc pr) x hx with h1 | h1
    · rcases outerStep_keys_origin acc pr x h1 with h2 | h2
      · exact Or.inl h2
      · exact Or.inr ⟨pr, List.mem_cons_self _ _, h2⟩
    · obtain ⟨pr2, hpr2, hx2⟩ := h1
      exact Or.inr ⟨pr2, List.mem_cons_of_mem _ hpr2, hx2⟩

theorem outerFold_keys_pairs :
    ∀ (pairs : List (String × List String))
      (acc : List (String × List String)) (pr : String × List String),
      pr ∈ pairs → pr.1 ∈ akeys (pairs.foldl outerStep acc) := by
  intro pairs
  induction pairs with
  | nil =>
    intro acc pr hpr
    cases hpr
  | cons pr0 rest ih =>
    intro acc pr hpr
    rw [List.foldl_cons]
    rcases List.mem_cons.mp hpr with h1 | h1
    · subst h1
      refine outerFold_keys_mono rest (outerStep acc pr) pr.1 ?_
      rw [outerStep]
      exact innerFold_keys_mono pr.1 pr.2 _ pr.1
        ((mem_akeys_setdefaultNode _ _ _).mpr (Or.inr rfl))
    · exact ih (outerStep acc pr0) pr h1

theorem buildNodes_nodup (pairs : List (String × List String)) :
    (akeys (buildNodes pairs)).Nodup := by
  rw [buildNodes_eq_foldl]
  exact outerFold_nodup pairs [] List.nodup_nil

theorem buildNodes_closed (pairs : List (String × List String)) :
    ∀ r ds, alookup (buildNodes pairs) r = some ds → ∀ x ∈ ds,
      x ∈ akeys (buildNodes pairs) := by
  rw [buildNodes_eq_foldl]
  exact outerFold_closure pairs [] (by intro r ds h; cases h)

theorem buildNodes_edges_origin (pairs : List (String × List String)) :
    ∀ r ds, alookup (buildNodes pairs) r = some ds → ∀ x ∈ ds,
      ∃ pr ∈ pairs, pr.1 = r ∧ x ∈ pr.2 := by
  intro r ds h x hx
  rw [buildNodes_eq_foldl] at h
  rcases outerFold_content_origin pairs [] r ds h x hx with h1 | h1
  · obtain ⟨ds0, hds0, _⟩ := h1
    cases hds0
  · exact h1

theorem buildNodes_pair_edges (pairs : List (String × List String)) :
    ∀ pr ∈ pairs, ∀ d ∈ pr.2,
      ∃ ds, alookup (buildNodes pairs) pr.1 = some ds ∧ d ∈ ds := by
  intro pr hpr d hd
  rw [buildNodes_eq_foldl]
  exact outerFold_pair_edges pairs [] pr hpr d hd

theorem buildNodes_keys_origin (pairs : List (String × List String)) :
    ∀ x ∈ akeys (buildNodes pairs), ∃ pr ∈ pairs, x = pr.1 ∨ x ∈ pr.2 := by
  intro x hx
  rw [buildNodes_eq_foldl] at hx
  rcases outerFold_keys_origin pairs [] x hx with h1 | h1
  · cases h1
  · exact h1

theorem buildNodes_keys_pairs (pairs : List (String × List String)) :
    ∀ pr ∈ pairs, pr.1 ∈ akeys (buildNodes pairs) := by
  intro pr hpr
  rw [buildNodes_eq_foldl]
  exact outerFold_keys_pairs pairs [] pr hpr

theorem kahnGo_spec (nodes0 : List (String × List String))
    (hg : (akeys nodes0).Nodup)
    (hclosed : ∀ r ds, alookup nodes0 r = some ds → ∀ d ∈ ds,
      d ∈ akeys nodes0) :
    ∀ (n : Nat) (deps : List (String × List String))
      (stack emitted : List String),
      totalDeps deps + stack.length < n →
      depsInv nodes0 deps emitted →
      stackOk nodes0 deps stack emitted →
      emittedOk nodes0 emitted →
      emittedOk nodes0 (kahnGo nodes0 n deps stack emitted) ∧
      (∀ r ∈ emitted, r ∈ kahnGo nodes0 n deps stack emitted) ∧
      (∀ r ∈ akeys nodes0, r ∉ kahnGo nodes0 n deps stack emitted →
        ∃ ds, alookup nodes0 r = some ds ∧
          ∃ d ∈ ds, d ∉ kahnGo nodes0 n deps stack emitted) := by
  intro n
  induction n with
  | zero =>
    intro deps stack emitted hfuel
    exact absurd hfuel (Nat.not_lt_zero _)
  | succ m ih =>
    intro deps stack emitted hfuel hdi hso heo
    cases stack with
    | nil =>
      have hk : kahnGo nodes0 (m + 1) deps [] emitted = emitted := rfl
      rw [hk]
      refine ⟨heo, fun r hr => hr, ?_⟩
      intro r hr hno
      have hlk0 : ∃ ds, alookup nodes0 r = some ds := by
        cases hl : alookup nodes0 r with
        | none => exact absurd hr ((alookup_none_iff _ _).mp hl)
        | some ds => exact ⟨ds, rfl⟩
      obtain ⟨ds, hds⟩ := hlk0
      refine ⟨ds, hds, ?_⟩
      have hdr := hdi r
      rw [hds, Option.map_some'] at hdr
      by_cases hemp : ds.filter (fun d => decide (d ∉ emitted)) = []
      · exfalso
        rw [hemp] at hdr
        exact absurd (hso.2.1 r hr hno hdr) (by intro hh; cases hh)
      · obtain ⟨d, hdmem⟩ := List.exists_mem_of_ne_nil _ hemp
        obtain ⟨hd1, hd2⟩ := List.mem_filter.mp hdmem
        refine ⟨d, hd1, ?_⟩
        simpa using hd2
    | cons top rest =>
      have hk : kahnGo nodes0 (m + 1) deps (top :: rest) emitted =
          kahnGo nodes0 m
            (processDependants top deps rest (dependantsOf nodes0 top)).1
            (processDependants top deps rest (dependantsOf nodes0 top)).2
            (emitted ++ [top]) := rfl
      rw [hk]
      obtain ⟨hsS, hsC, hsN, hsM, hsE⟩ := hso
      have htops : alookup deps top = some [] :=
        hsS top (List.mem_cons_self _ _)
      obtain ⟨htopnotem, htopk⟩ := hsM top (List.mem_cons_self _ _)
      have htoprest : top ∉ rest := (List.nodup_cons.mp hsN).1
      have hrestnd : rest.Nodup := (List.nodup_cons.mp hsN).2
      have hds0x : ∃ ds0, alookup nodes0 top = some ds0 := by
        cases hl : alookup nodes0 top with
        | none => exact absurd htopk ((alookup_none_iff _ _).mp hl)
        | some ds0 => exact ⟨ds0, rfl⟩
      obtain ⟨ds0, hds0⟩ := hds0x
      have htopfilter : ds0.filter (fun d => decide (d ∉ emitted)) = [] := by
        have hdr := hdi top
        rw [hds0, Option.map_some', htops] at hdr
        injection hdr with hx
        exact hx.symm
      have hcount : ∀ r ds, alookup deps r = some ds →
          (dependantsOf nodes0 top).count r = ds.count top := by
        intro r ds hl
        have hdr := hdi r
        rw [hl] at hdr
        cases hl0 : alookup nodes0 r with
        | none =>
          rw [hl0] at hdr
          cases hdr
        | some ds0r =>
          rw [hl0, Option.map_some'] at hdr
          injection hdr with hx
          rw [count_dependantsOf_key nodes0 top r ds0r hg hl0, hx]
          have hpt : (fun d => decide (d ∉ emitted)) top = true := by
            simp [htopnotem]
          rw [count_filter_pos _ _ hpt]
      have hmemb : ∀ r ∈ dependantsOf nodes0 top,
          alookup deps r ≠ none := by
        intro r hr hnone
        have hrk : r ∈ akeys nodes0 := mem_dependantsOf nodes0 top r hr
        have hdr := hdi r
        rw [hnone] at hdr
        cases hl0 : alookup nodes0 r with
        | none => exact absurd hrk ((alookup_none_iff _ _).mp hl0)
        | some ds0r =>
          rw [hl0, Option.map_some'] at hdr
          cases hdr
      have hsoundR : ∀ r ∈ rest, alookup deps r = some [] :=
        fun r hr => hsS r (List.mem_cons_of_mem _ hr)
      obtain ⟨p1, p2, p3, p4, p5, p6⟩ :=
        processDependants_spec top (dependantsOf nodes0 top) deps rest
          hcount hmemb hsoundR hrestnd
      have hdepsome : ∀ r, r ∈ akeys nodes0 →
          ∃ ds0r, alookup nodes0 r = some ds0r := by
        intro r hr
        cases hl : alookup nodes0 r with
        | none => exact absurd hr ((alookup_none_iff _ _).mp hl)
        | some ds0r => exact ⟨ds0r, rfl⟩
      have hkeyof : ∀ r ds, alookup deps r = some ds →
          r ∈ akeys nodes0 := by
        intro r ds hl
        have hdr := hdi r
        rw [hl] at hdr
        cases hl0 : alookup nodes0 r with
        | none =>
          rw [hl0] at hdr
          cases hdr
        | some ds0r =>
          exact List.mem_map.mpr ⟨(r, ds0r), alookup_mem hl0, rfl⟩
      have hfuel2 : totalDeps
          (processDependants top deps rest (dependantsOf nodes0 top)).1 +
          (processDependants top deps rest
            (dependantsOf nodes0 top)).2.length < m := by
        have hlen : (top :: rest).length = rest.length + 1 :=
          List.length_cons _ _
        rw [hlen] at hfuel
        omega
      have hdi2 : depsInv nodes0
          (processDependants top deps rest (dependantsOf nodes0 top)).1
          (emitted ++ [top]) := by
        intro r
        rw [p1 r, hdi r]
        cases hl0 : alookup nodes0 r with
        | none => rfl
        | some ds0r =>
          simp only [Option.map_some']
          rw [filter_not_mem_append_top]
      have hso2 : stackOk nodes0
          (processDependants top deps rest (dependantsOf nodes0 top)).1
          (processDependants top deps rest (dependantsOf nodes0 top)).2
          (emitted ++ [top]) := by
        refine ⟨?_, ?_, p5, ?_, ?_⟩
        · intro r hr
          rcases p3 r hr with h1 | h1
          · rw [p1 r, hsoundR r h1, Option.map_some']
            rfl
          · exact h1.2
        · intro r hrk hrne hrval
          have hrnotem : r ∉ emitted := by
            intro hm
            exact hrne (List.mem_append.mpr (Or.inl hm))
          have hrnetop : r ≠ top := by
            intro he
            exact hrne (List.mem_append.mpr (Or.inr
              (List.mem_singleton.mpr he)))
          obtain ⟨ds0r, hl0⟩ := hdepsome r hrk
          have hdr := hdi r
          rw [hl0, Option.map_some'] at hdr
          by_cases hold : ds0r.filter (fun d => decide (d ∉ emitted)) = []
          · have hin : r ∈ top :: rest :=
              hsC r hrk hrnotem (by rw [hdr, hold])
            rcases List.mem_cons.mp hin with h1 | h1
            · exact absurd h1 hrnetop
            · exact p2 r h1
          · refine p4 r ?_ hrval
            rw [hdr]
            intro he
            injection he with hx
            exact hold hx
        · intro r hr
          rcases p3 r hr with h1 | h1
          · obtain ⟨hne1, hk1⟩ := hsM r (List.mem_cons_of_mem _ h1)
            refine ⟨?_, hk1⟩
            intro hm
            rcases List.mem_append.mp hm with h2 | h2
            · exact hne1 h2
            · rw [List.mem_singleton.mp h2] at h1
              exact htoprest h1
          · obtain ⟨hne1, hval1⟩ := h1
            have hsome : ∃ ds, alookup deps r = some ds := by
              have hp := p1 r
              rw [hval1] at hp
              cases hl : alookup deps r with
              | none =>
                rw [hl] at hp
                cases hp
              | some ds => exact ⟨ds, rfl⟩
            obtain ⟨ds, hds⟩ := hsome
            refine ⟨?_, hkeyof r ds hds⟩
            intro hm
            rcases List.mem_append.mp hm with h2 | h2
            · exact hne1 (hsE r h2)
            · have hrt : r = top := List.mem_singleton.mp h2
              rw [hrt] at hne1
              exact hne1 htops
        · intro r hm
          rcases List.mem_append.mp hm with h2 | h2
          · rw [p1 r, hsE r h2, Option.map_some']
            rfl
          · rw [List.mem_singleton.mp h2, p1 top, htops, Option.map_some']
            rfl
      have heo2 : emittedOk nodes0 (emitted ++ [top]) := by
        refine ⟨?_, ?_, ?_⟩
        · refine List.Nodup.append heo.1 (List.nodup_singleton _) ?_
          intro a ha hb
          rw [List.mem_singleton.mp hb] at ha
          exact htopnotem ha
        · intro r hr
          rcases List.mem_append.mp hr with h1 | h1
          · exact heo.2.1 r h1
          · rw [List.mem_singleton.mp h1]
            exact htopk
        · intro i ds hds d hd
          by_cases hi : i.1 < emitted.length
          · have hget : (emitted ++ [top]).get i = emitted.get ⟨i.1, hi⟩ := by
              rw [List.get_eq_getElem, List.get_eq_getElem]
              exact List.getElem_append_left hi
            rw [hget] at hds
            obtain ⟨j, hj, hjget⟩ := heo.2.2 ⟨i.1, hi⟩ ds hds d hd
            have hjlt : j.1 < (emitted ++ [top]).length := by
              rw [List.length_append]
              omega
            refine ⟨⟨j.1, hjlt⟩, hj, ?_⟩
            have hcast : (emitted ++ [top]).get ⟨j.1, hjlt⟩ =
                emitted.get j := by
              rw [List.get_eq_getElem, List.get_eq_getElem]
              exact List.getElem_append_left j.2
            rw [hcast]
            exact hjget
          · have hi2 : i.1 = emitted.length := by
              have h3 : i.1 < emitted.length + 1 := by simpa using i.2
              omega
            have hgettop : (emitted ++ [top]).get i = top := by
              rw [List.get_eq_getElem]
              rw [List.getElem_append_right (by omega)]
              simp [hi2]
            simp only [hgettop] at hds
            rw [hds0] at hds
            injection hds with hx
            subst hx
            have hdem : d ∈ emitted := by
              by_contra hno
              have hdm : d ∈ ds0.filter (fun x => decide (x ∉ emitted)) :=
                List.mem_filter.mpr ⟨hd, by simpa using hno⟩
              rw [htopfilter] at hdm
              cases hdm
            have hdlt : emitted.indexOf d < emitted.length :=
              List.indexOf_lt_length.mpr hdem
            have hdlt2 : emitted.indexOf d < (emitted ++ [top]).length := by
              rw [List.length_append]
              omega
            refine ⟨⟨emitted.indexOf d, hdlt2⟩, ?_, ?_⟩
            · show emitted.indexOf d < i.1
              omega
            · have hcast : (emitted ++ [top]).get
                  ⟨emitted.indexOf d, hdlt2⟩ =
                  emitted.get ⟨emitted.indexOf d, hdlt⟩ := by
                rw [List.get_eq_getElem, List.get_eq_getElem]
                exact List.getElem_append_left hdlt
              rw [hcast]
              exact List.indexOf_get hdlt
      obtain ⟨q1, q2, q3⟩ := ih
        (processDependants top deps rest (dependantsOf nodes0 top)).1
        (processDependants top deps rest (dependantsOf nodes0 top)).2
        (emitted ++ [top]) hfuel2 hdi2 hso2 heo2
      exact ⟨q1, fun r hr => q2 r (List.mem_append.mpr (Or.inl hr)), q3⟩

theorem sortModels_spec (pairs : List (String × List String)) :
    emittedOk (buildNodes pairs) (sortModels pairs) ∧
    (∀ r ∈ akeys (buildNodes pairs), r ∉ sortModels pairs →
      ∃ ds, alookup (buildNodes pairs) r = some ds ∧
        ∃ d ∈ ds, d ∉ sortModels pairs) := by
  have hnd := buildNodes_nodup pairs
  have hcl := buildNodes_closed pairs
  have hdi : depsInv (buildNodes pairs) (buildNodes pairs) [] := by
    intro r
    cases h : alookup (buildNodes pairs) r with
    | none => rfl
    | some ds =>
      simp only [Option.map_some']
      congr 1
      refine (List.filter_eq_self.mpr ?_).symm
      intro a ha
      simp
  have hstack0 : ∀ r ∈ (((buildNodes pairs).filter
      (fun kv => kv.2.isEmpty)).map Prod.fst).reverse,
      alookup (buildNodes pairs) r = some [] := by
    intro r hr
    rw [List.mem_reverse] at hr
    obtain ⟨kv, hkv, hkv1⟩ := List.mem_map.mp hr
    have hkvm := List.mem_of_mem_filter hkv
    have hkve : kv.2.isEmpty = true := by
      have := List.of_mem_filter hkv
      simpa using this
    have hkv2 : kv.2 = [] := List.isEmpty_iff.mp hkve
    have : alookup (buildNodes pairs) kv.1 = some kv.2 :=
      alookup_of_mem_nodup hnd (by rw [show (kv.1, kv.2) = kv from rfl]; exact hkvm)
    rw [hkv1, hkv2] at this
    exact this
  have hso : stackOk (buildNodes pairs) (buildNodes pairs)
      (((buildNodes pairs).filter
        (fun kv => kv.2.isEmpty)).map Prod.fst).reverse [] := by
    refine ⟨hstack0, ?_, ?_, ?_, ?_⟩
    · intro r hr hre h0
      rw [List.mem_reverse]
      have hm := alookup_mem h0
      refine List.mem_map.mpr ⟨(r, []), ?_, rfl⟩
      refine List.mem_filter.mpr ⟨hm, ?_⟩
      simp
    · refine List.nodup_reverse.mpr ?_
      refine List.Nodup.sublist ?_ hnd
      exact List.Sublist.map Prod.fst (List.filter_sublist _)
    · intro r hr
      refine ⟨List.not_mem_nil r, ?_⟩
      rw [List.mem_reverse] at hr
      obtain ⟨kv, hkv, hkv1⟩ := List.mem_map.mp hr
      rw [← hkv1]
      exact List.mem_map.mpr ⟨kv, List.mem_of_mem_filter hkv, rfl⟩
    · intro r hr
      exact absurd hr (List.not_mem_nil r)
  have heo : emittedOk (buildNodes pairs) [] := by
    refine ⟨List.nodup_nil, fun r hr => absurd hr (List.not_mem_nil r), ?_⟩
    intro i
    exact absurd i.2 (by simp)
  have hmain := kahnGo_spec (buildNodes pairs) hnd hcl
    (totalDeps (buildNodes pairs) +
      ((((buildNodes pairs).filter
        (fun kv => kv.2.isEmpty)).map Prod.fst).reverse).length + 1)
    (buildNodes pairs)
    (((buildNodes pairs).filter (fun kv => kv.2.isEmpty)).map Prod.fst).reverse
    [] (Nat.lt_succ_self _) hdi hso heo
  exact ⟨hmain.1, hmain.2.2⟩

theorem sortModels_complete (pairs : List (String × List String))
    (rank : String → Nat)
    (hrank : ∀ pr ∈ pairs, ∀ d ∈ pr.2, rank d < rank pr.1) :
    ∀ r ∈ akeys (buildNodes pairs), r ∈ sortModels pairs := by
  have key : ∀ n r, rank r < n → r ∈ akeys (buildNodes pairs) →
      r ∈ sortModels pairs := by
    intro n
    induction n with
    | zero =>
      intro r h
      exact absurd h (Nat.not_lt_zero _)
    | succ n ih =>
      intro r hlt hr
      by_contra hno
      obtain ⟨ds, hds, d, hd, hdno⟩ := (sortModels_spec pairs).2 r hr hno
      obtain ⟨pr, hpr, hpr1, hdpr⟩ := buildNodes_edges_origin pairs r ds hds d hd
      have hdr : rank d < rank r := by
        rw [← hpr1]
        exact hrank pr hpr d hdpr
      exact hdno (ih d (by omega) (buildNodes_closed pairs r ds hds d hd))
  intro r hr
  exact key (rank r + 1) r (Nat.lt_succ_self _) hr

theorem resolveReferences_resolved {st st' : ParserState}
    (hwb : WellBuilt st) (h : resolveReferences st = Except.ok st') :
    WellBuilt st' ∧ akeys st'.models = akeys st.models ∧
    (∀ k md, alookup st.modules k = some md →
      ∃ md', alookup st'.modules k = some md' ∧ md'.models = md.models ∧
        md'.ref = md.ref ∧ md'.name = md.name) ∧
    ModelsCorr (akeys st.models) st st' ∧
    (∀ e ∈ st'.models, ∀ f ∈ e.2.definition.fields,
      isResolved f.type = true) := by
  obtain ⟨hwb', hkeq, hmp, hrp, hrl, hcorr⟩ :=
    resolveModules_spec (akeys st.modules) st st' hwb h
  refine ⟨hwb', hkeq, hmp, hcorr, ?_⟩
  intro e he f hf
  rcases e with ⟨k, model'⟩
  have hk' : alookup st'.models k = some model' :=
    alookup_of_mem_nodup hwb'.1.2.2 he
  have hkmem : k ∈ akeys st.models := by
    rw [← hkeq]
    exact alookup_some_mem hk'
  have hk0 : ∃ model0, alookup st.models k = some model0 := by
    cases hh : alookup st.models k with
    | none => exact absurd hkmem ((alookup_none_iff _ _).mp hh)
    | some m0 => exact ⟨m0, rfl⟩
  obtain ⟨model0, hm0⟩ := hk0
  obtain ⟨_, hex⟩ := hwb.2.2.2 (k, model0) (alookup_mem hm0)
  obtain ⟨m, hm, hmm⟩ := hex
  have hlkm : alookup st.modules m.1 = some m.2 :=
    alookup_of_mem_nodup hwb.1.2.1 (by rcases m with ⟨ma, mb⟩; exact hm)
  have hres : ResolvedKey st' k :=
    hrl m.1 (List.mem_map.mpr ⟨m, hm, rfl⟩) m.2 hlkm k hmm
  exact hres model' hk' f hf

/-! ### Claim theorems -/

/-- Claim C5: on the two-definition round-trip input, `parse` returns
exactly one Package `core` with one Module `v1` whose models are ordered
`[PodSpec, Pod]`, whose import list is empty, with `Pod.spec` resolved to
the `PodSpec` Model and `PodSpec.replicas` resolved to a Primitive whose
mapped name is the integer target type (`TYPE_MAPPING["integer"] =
"int"`). -/
theorem c5_round_trip_scenario :
    ((parse podInput).toOption.map (fun st => st.packages) =
      some [("core", ⟨"core", ["core.v1"]⟩)]) ∧
    ((parse podInput).toOption.map (fun st => st.modules) =
      some [("core.v1", ⟨"core.v1", "v1", [], ["core.v1.PodSpec", "core.v1.Pod"]⟩)]) ∧
    ((parse podInput).toOption.map (fun st =>
        (alookup st.models "core.v1.Pod").map (fun m =>
          m.definition.fields.map (fun f => (f.name, f.type)))) =
      some (some [("spec", TypeSlot.modelRef "core.v1.PodSpec")])) ∧
    ((parse podInput).toOption.map (fun st =>
        (alookup st.models "core.v1.PodSpec").map (fun m =>
          (m.definition.name,
           m.definition.fields.map (fun f => (f.name, f.type))))) =
      some (some ("PodSpec", [("replicas", TypeSlot.primitive (some "int"))]))) ∧
    mapType (some "integer") = some "int" := by
  decide

/-- Claim C1 (code bug evidence): on a module containing a two-model
same-module reference cycle plus one independent model, the sort phase
raises no error at all (the code has no cycle check whatsoever) and emits
a PARTIAL model sequence: only the independent model survives, while both
cycle participants are silently dropped from the module (the registry
still holds all three models). -/
theorem c1_cycle_silent_partial_emission :
    ((parse cyclicInput).toOption.map (fun st =>
        (alookup st.modules "core.v1").map Module.models) =
      some (some ["core.v1.C"])) ∧
    ((parse cyclicInput).toOption.map (fun st => st.models.length) =
      some 3) := by
  decide

/-- Claim C3 (counterexample): on the unknown-reference input, the run
fails with the KeyError of `_get_model`, whose payload is exactly the
transformed missing reference — the owning Model's name (`Pod`) occurs
nowhere in the error. -/
theorem c3_error_lacks_owning_model :
    parse unresolvedInput =
      Except.error (GenError.unresolvedReference "core.v1.DoesNotExist") ∧
    containsSub "core.v1.DoesNotExist" "Pod" = false := by
  decide

/-- Claim C3 (amended): when a field carries a truthy reference whose
transformed target key is absent from the model registry, (i)
`_resolve_ref` fails with the `KeyError`-backed UnresolvedReference whose
payload is exactly the transformed missing reference key — the owning
Model is not part of the error — and (ii) a whole run on such an input
never succeeds: `parse` returns no `Except.ok` result. -/
theorem c3_unresolved_reference_behavior :
    (∀ (st : ParserState) (r pref mname dname : String) (pkg : Package)
       (md : Module),
      splitRef3 (dropChars r 21) = Except.ok (pref, mname, dname) →
      alookup st.packages pref = some pkg →
      alookup st.modules (makeRef [pkg.ref, mname]) = some md →
      alookup st.models (makeRef [pkg.ref, md.name, dname]) = none →
      resolveRef st r =
        (st, Except.error (GenError.unresolvedReference
          (makeRef [pkg.ref, md.name, dname])))) ∧
    (∀ (input : List (String × RawDefinition)) (st0 : ParserState)
       (mref : String) (model : Model) (f : Field) (rr : String)
       (key3 : String × String × String),
      parseModels input = Except.ok st0 →
      alookup st0.models mref = some model →
      f ∈ model.definition.fields →
      f.ref = some rr → rr ≠ "" →
      splitRef3 (dropChars rr 21) = Except.ok key3 →
      alookup st0.models (makeRef [key3.1, key3.2.1, key3.2.2]) = none →
      ∀ stf, parse input ≠ Except.ok stf) := by
  constructor
  · intro st r pref mname dname pkg md hsplit hpkg hmod hmodel
    simp only [resolveRef, hsplit, getPackage, hpkg, getModule, hmod,
      getModel, hmodel]
  · intro input st0 mref model f rr key3 hpm hlk hf href hne hsplit habs
      stf hok
    have hwb := parseModels_wellBuilt hpm
    have hraw := parseModels_allRaw hpm
    cases hres : resolveReferences st0 with
    | error e =>
      simp only [parse, hpm, hres] at hok
      cases hok
    | ok st1 =>
      obtain ⟨hwb1, hkeq, hmp, hcorr, hresd⟩ :=
        resolveReferences_resolved hwb hres
      obtain ⟨model1, hlk1, _, _, hfields⟩ := hcorr mref model hlk
      cases hfields with
      | inl heq =>
        have hf1 : f ∈ model1.definition.fields := by
          rw [heq]
          exact hf
        have h1 : isResolved f.type = true :=
          hresd (mref, model1) (alookup_mem hlk1) f hf1
        have h0 : isResolved f.type = false :=
          hraw (mref, model) (alookup_mem hlk) f hf
        rw [h0] at h1
        cases h1
      | inr hfa =>
        obtain ⟨f', hf', hFR⟩ := forall2_left_mem hfa f hf
        obtain ⟨key3b, hsplit2, _, hmem⟩ := hFR.2.2.2.2.2 rr href hne
        rw [hsplit] at hsplit2
        injection hsplit2 with hkey
        rw [← hkey] at hmem
        exact (alookup_none_iff _ _).mp habs hmem

/-- Claim C3 amended-claim witness: both parts applied at the
unknown-reference scenario — the state `_parse_models` builds from it,
the missing-target lookup hypotheses checked concretely, and the
conclusions read back. -/
theorem c3_unresolved_reference_behavior_witness :
    resolveRef c3State "#/definitions/io.k8s.core.v1.DoesNotExist" =
      (c3State, Except.error
        (GenError.unresolvedReference
          (makeRef ["core", "v1", "DoesNotExist"]))) ∧
    parse unresolvedInput ≠ Except.ok c3State :=
  ⟨c3_unresolved_reference_behavior.1 c3State
     "#/definitions/io.k8s.core.v1.DoesNotExist" "core" "v1" "DoesNotExist"
     ⟨"core", ["core.v1"]⟩ ⟨"core.v1", "v1", [], ["core.v1.Pod"]⟩
     (by decide) (by decide) (by decide) (by decide),
   c3_unresolved_reference_behavior.2 unresolvedInput c3State "core.v1.Pod"
     ⟨"core.v1.Pod",
      ⟨"Pod", "",
       [⟨"spec", "", TypeSlot.raw none,
         some "#/definitions/io.k8s.core.v1.DoesNotExist"⟩], []⟩⟩
     ⟨"spec", "", TypeSlot.raw none,
       some "#/definitions/io.k8s.core.v1.DoesNotExist"⟩
     "#/definitions/io.k8s.core.v1.DoesNotExist"
     ("core", "v1", "DoesNotExist")
     (by decide) (by decide) (by decide) rfl (by decide) (by decide)
     (by decide) c3State⟩

/-- Claim C6: import minimality — after a successful resolve phase,
every import entry of every registered module targets a module different from
the module itself, is nonempty, and every Model reference listed in it is
witnessed by at least one field of some Model of that module whose
resolved type is that Model, which lives in the imported module
(`parentRef ftRef = imp.module`). -/
theorem c6_import_minimality {input : List (String × RawDefinition)}
    {st0 st1 : ParserState}
    (hpm : parseModels input = Except.ok st0)
    (hres : resolveReferences st0 = Except.ok st1) :
    ∀ k md, alookup st1.modules k = some md →
      ∀ imp ∈ md.imports,
        imp.module ≠ k ∧ imp.models ≠ [] ∧
        ∀ ftRef ∈ imp.models,
          parentRef ftRef = imp.module ∧
          ∃ mk ∈ md.models, ∃ model,
            alookup st1.models mk = some model ∧
            ∃ f ∈ model.definition.fields,
              f.type = TypeSlot.modelRef ftRef := by
  have hwb := parseModels_wellBuilt hpm
  have hmo := parseModels_modelsOk hpm
  have hai := parseModels_allImportsOk hpm
  obtain ⟨hmo1, hai1⟩ := resolveReferences_imports hwb hmo hai hres
  intro k md hk imp himp
  obtain ⟨hA, hB, _, hD⟩ := hai1 k md hk imp himp
  refine ⟨hA, hB, ?_⟩
  intro ftRef hm
  obtain ⟨h1, h2⟩ := hD ftRef hm
  exact ⟨h1, h2⟩

/-- Claim C6 witness: the cross-module scenario evaluated — `core.v1`
ends with exactly one import, of module `apps.v1` listing Deployment,
witnessed by Pod's `dep` field. -/
theorem c6_import_minimality_witness :
    ("apps.v1" : String) ≠ "core.v1" ∧
    (["apps.v1.Deployment"] : List String) ≠ [] ∧
    ∀ ftRef ∈ (["apps.v1.Deployment"] : List String),
      parentRef ftRef = "apps.v1" ∧
      ∃ mk ∈ ["core.v1.Pod"], ∃ model,
        alookup c6St1.models mk = some model ∧
        ∃ f ∈ model.definition.fields, f.type = TypeSlot.modelRef ftRef :=
  @c6_import_minimality crossInput c6St0 c6St1 (by decide) (by decide)
    "core.v1"
    ⟨"core.v1", "v1", [⟨"apps.v1", ["apps.v1.Deployment"]⟩], ["core.v1.Pod"]⟩
    (by decide) ⟨"apps.v1", ["apps.v1.Deployment"]⟩ (by decide)

/-- Claim C8: in every module of `parse`'s output, the import list is
sorted ascending by the target module's reference string, and each
Import's exposed model-name list (`Import.names`) is sorted ascending and
free of duplicate names. -/
theorem c8_sorted_imports_and_names {input : List (String × RawDefinition)}
    {stf : ParserState} (h : parse input = Except.ok stf) :
    ∀ k md, alookup stf.modules k = some md →
      List.Pairwise (fun a b : Import => a.module ≤ b.module) md.imports ∧
      ∀ imp ∈ md.imports,
        List.Pairwise (fun a b : String => a ≤ b) (importNames stf imp) ∧
        (importNames stf imp).Nodup := by
  cases hpm : parseModels input with
  | error e =>
    simp only [parse, hpm] at h
    cases h
  | ok st0 =>
    cases hres : resolveReferences st0 with
    | error e =>
      simp only [parse, hpm, hres] at h
      cases h
    | ok st1 =>
      simp only [parse, hpm, hres] at h
      have hstf : stf = sortPhase st1 := by
        injection h with hx
        exact hx.symm
      subst hstf
      have hwb := parseModels_wellBuilt hpm
      have hmo := parseModels_modelsOk hpm
      have hai := parseModels_allImportsOk hpm
      obtain ⟨hmo1, hai1⟩ := resolveReferences_imports hwb hmo hai hres
      have hwb1 : WellBuilt st1 := (resolveReferences_resolved hwb hres).1
      intro k md hk
      obtain ⟨md1, hk1, hperm⟩ := sortPhase_imports_perm st1 k md hk
      constructor
      · have hcov : ∃ p ∈ st1.packages, k ∈ p.2.modules :=
          (hwb1.2.2.1 (k, md1) (alookup_mem hk1)).2.1
        have hne : alookup st1.modules k ≠ none := by
          rw [hk1]
          intro hh
          cases hh
        exact foldl_packages_sorted st1.packages st1 k hcov hne md hk
      · intro imp himp
        have himp1 : imp ∈ md1.imports := hperm.mem_iff.mp himp
        obtain ⟨hA, hB, hND, hD⟩ := hai1 k md1 hk1 imp himp1
        constructor
        · exact importNames_sorted _ _
        · refine importNames_nodup hND ?_
          intro x hx y hy hxy
          have hmeq := sortPhase_models st1
          rw [hmeq] at hxy
          obtain ⟨hpx, htx⟩ := hD x hx
          obtain ⟨hpy, hty⟩ := hD y hy
          exact names_inj hmo1 (targets_registered hmo1 htx)
            (targets_registered hmo1 hty) hpx hpy hxy

/-- Claim C8 witness: the cross-module scenario evaluated — the
singleton import list of `core.v1` is sorted and its name list
(`["Deployment"]`) is sorted and duplicate-free. -/
theorem c8_sorted_imports_and_names_witness :
    parse crossInput = Except.ok c6St1 ∧
    (List.Pairwise (fun a b : Import => a.module ≤ b.module)
      [(⟨"apps.v1", ["apps.v1.Deployment"]⟩ : Import)] ∧
     ∀ imp ∈ [(⟨"apps.v1", ["apps.v1.Deployment"]⟩ : Import)],
       List.Pairwise (fun a b : String => a ≤ b) (importNames c6St1 imp) ∧
       (importNames c6St1 imp).Nodup) :=
  ⟨by decide,
   @c8_sorted_imports_and_names crossInput c6St1 (by decide) "core.v1"
     ⟨"core.v1", "v1", [⟨"apps.v1", ["apps.v1.Deployment"]⟩],
      ["core.v1.Pod"]⟩
     (by decide)⟩

/-- Claim C10: when a field's reference names a definition whose package
and module were never created, `_resolve_ref` registers a fresh empty
Package and Module (with the module appended to the package) BEFORE the
model lookup fails; the failed resolution hence leaves the package/module
registries changed while the model registry is untouched. -/
theorem c10_resolution_not_atomic (st : ParserState)
    (r pref mname dname : String)
    (hsplit : splitRef3 (dropChars r 21) = Except.ok (pref, mname, dname))
    (hpkg : alookup st.packages pref = none)
    (hmod : alookup st.modules (makeRef [pref, mname]) = none)
    (hmodel : alookup st.models (makeRef [pref, mname, dname]) = none) :
    resolveRef st r =
      ({ st with
         packages := aupdate st.packages pref ⟨pref, [makeRef [pref, mname]]⟩,
         modules := aupdate st.modules (makeRef [pref, mname])
           ⟨makeRef [pref, mname], mname, [], []⟩ },
       Except.error (GenError.unresolvedReference
         (makeRef [pref, mname, dname]))) := by
  simp only [resolveRef, hsplit, getPackage, hpkg, getModule, getModel,
    hmod, hmodel, aupdate_aupdate_self, List.nil_append]

/-- Claim C10 witness: the hypotheses hold and the conclusion evaluates at
a concrete dangling reference on the empty parser state. -/
theorem c10_resolution_not_atomic_witness :
    splitRef3 (dropChars "#/definitions/io.k8s.core.v1.DoesNotExist" 21) =
      Except.ok ("core", "v1", "DoesNotExist") ∧
    resolveRef ⟨[], [], []⟩ "#/definitions/io.k8s.core.v1.DoesNotExist" =
      (⟨[("core", ⟨"core", ["core.v1"]⟩)],
        [("core.v1", ⟨"core.v1", "v1", [], []⟩)], []⟩,
       Except.error (GenError.unresolvedReference "core.v1.DoesNotExist")) :=
  ⟨by decide,
   c10_resolution_not_atomic ⟨[], [], []⟩
     "#/definitions/io.k8s.core.v1.DoesNotExist" "core" "v1" "DoesNotExist"
     (by decide) rfl rfl rfl⟩

/-- Claim C4: identifier splitting — on a raw identifier that, after
prefix stripping (the caller passes the stripped string) and hyphen
normalization, has fewer than two separator boundaries, the split fails
with `MalformedIdentifier` (the whole-run abort is the third conjunct:
a successful run forces every identifier split to have succeeded); with
at least two separators it yields exactly the three components split from
the right (the last two components are dot-free). -/
theorem c4_identifier_splitting (s : String) :
    ((s.data.map normChar).count '.' < 2 →
      splitRef3 s = Except.error (GenError.malformedIdentifier s)) ∧
    (2 ≤ (s.data.map normChar).count '.' →
      ∃ x y z : List Char,
        splitRef3 s = Except.ok (⟨x⟩, ⟨y⟩, ⟨z⟩) ∧
        s.data.map normChar = x ++ '.' :: y ++ '.' :: z ∧
        '.' ∉ y ∧ '.' ∉ z) ∧
    (∀ input st, parse input = Except.ok st →
      ∀ p ∈ input, ∃ t, splitRef3 (dropChars p.1 7) = Except.ok t) := by
  refine ⟨?_, ?_, ?_⟩
  · intro hlt
    cases h1 : lastSplit (s.data.map normChar) with
    | none => exact splitRef3_one s h1
    | some p =>
      rcases lastSplit_some_spec _ p.1 p.2 h1 with ⟨ht, _⟩
      cases h2 : lastSplit p.1 with
      | none => exact splitRef3_two s p h1 h2
      | some q =>
        exfalso
        rcases lastSplit_some_spec _ q.1 q.2 h2 with ⟨hb, _⟩
        have hc1 : (s.data.map normChar).count '.' =
            p.1.count '.' + p.2.count '.' + 1 := by
          rw [ht, count_dot_decomp]
        have hc2 : p.1.count '.' = q.1.count '.' + q.2.count '.' + 1 := by
          rw [hb, count_dot_decomp]
        omega
  · intro hge
    cases h1 : lastSplit (s.data.map normChar) with
    | none =>
      exfalso
      have h0 : (s.data.map normChar).count '.' = 0 :=
        List.count_eq_zero.mpr ((lastSplit_none_iff _).mp h1)
      omega
    | some p =>
      rcases lastSplit_some_spec _ p.1 p.2 h1 with ⟨ht, hna⟩
      cases h2 : lastSplit p.1 with
      | none =>
        exfalso
        have hc1 : (s.data.map normChar).count '.' =
            p.1.count '.' + p.2.count '.' + 1 := by
          rw [ht, count_dot_decomp]
        have hb0 : p.1.count '.' = 0 :=
          List.count_eq_zero.mpr ((lastSplit_none_iff _).mp h2)
        have ha0 : p.2.count '.' = 0 := List.count_eq_zero.mpr hna
        omega
      | some q =>
        rcases lastSplit_some_spec _ q.1 q.2 h2 with ⟨hb, hnq⟩
        refine ⟨q.1, q.2, p.2, splitRef3_three s p q h1 h2, ?_, hnq, hna⟩
        rw [ht, hb]
  · intro input st hparse p hp
    cases hpm : parseModels input with
    | error e =>
      rw [parse, hpm] at hparse
      cases hparse
    | ok st0 => exact parseModelsFrom_split_ok input _ _ hpm p hp

/-- Claim C4 witness: both branches instantiated at concrete strings. -/
theorem c4_identifier_splitting_witness :
    (("noDots".data.map normChar).count '.' < 2 ∧
      splitRef3 "noDots" =
        Except.error (GenError.malformedIdentifier "noDots")) ∧
    (2 ≤ ("core.v1.Pod".data.map normChar).count '.' ∧
      ∃ x y z : List Char,
        splitRef3 "core.v1.Pod" = Except.ok (⟨x⟩, ⟨y⟩, ⟨z⟩) ∧
        "core.v1.Pod".data.map normChar = x ++ '.' :: y ++ '.' :: z ∧
        '.' ∉ y ∧ '.' ∉ z) :=
  ⟨⟨by decide, (c4_identifier_splitting "noDots").1 (by decide)⟩,
   ⟨by decide, (c4_identifier_splitting "core.v1.Pod").2.1 (by decide)⟩⟩

/-- Claim C9: package and module lookups are memoized — looking up the
same reference a second time returns the same registered instance with
the registries unchanged — and each Package/Module/Model registration
leaves exactly one entry per reference string (keys stay duplicate-free).
-/
theorem c9_memoized_lookups (st : ParserState) (pref mname : String)
    (pkg pkg' : Package) (mref : String) (model : Model)
    (hp : (akeys st.packages).Nodup) (hm : (akeys st.modules).Nodup)
    (hmd : (akeys st.models).Nodup) (hpr : pkg'.ref = pkg.ref) :
    (getPackage (getPackage st pref).1 pref = getPackage st pref) ∧
    (getModule (getModule st pkg mname).1 pkg' mname =
      ((getModule st pkg mname).1, (getModule st pkg mname).2)) ∧
    ((akeys (getPackage st pref).1.packages).count pref = 1 ∧
     (akeys (getPackage st pref).1.packages).Nodup) ∧
    ((akeys (getModule st pkg mname).1.modules).count
        (makeRef [pkg.ref, mname]) = 1 ∧
     (akeys (getModule st pkg mname).1.modules).Nodup) ∧
    ((akeys (aupdate st.models mref model)).count mref = 1 ∧
     (akeys (aupdate st.models mref model)).Nodup) := by
  have hpkg :
      getPackage (getPackage st pref).1 pref = getPackage st pref ∧
      (akeys (getPackage st pref).1.packages).count pref = 1 ∧
      (akeys (getPackage st pref).1.packages).Nodup := by
    rcases hh : alookup st.packages pref with _ | p
    · have h1 : getPackage st pref =
          ({ st with packages := aupdate st.packages pref ⟨pref, []⟩ },
           (⟨pref, []⟩ : Package)) := by
        simp only [getPackage, hh]
      refine ⟨?_, ?_, ?_⟩
      · rw [h1]
        simp only [getPackage, alookup_aupdate_self]
      · rw [h1]
        exact akeys_aupdate_count st.packages pref _ hp
      · rw [h1]
        exact akeys_aupdate_nodup st.packages pref _ hp
    · have h1 : getPackage st pref = (st, p) := by
        simp only [getPackage, hh]
      refine ⟨?_, ?_, ?_⟩
      · rw [h1]; simp only [getPackage, hh]
      · rw [h1]
        exact List.count_eq_one_of_mem hp (alookup_some_mem hh)
      · rw [h1]; exact hp
  have hmod :
      (getModule (getModule st pkg mname).1 pkg' mname =
        ((getModule st pkg mname).1, (getModule st pkg mname).2)) ∧
      (akeys (getModule st pkg mname).1.modules).count
          (makeRef [pkg.ref, mname]) = 1 ∧
      (akeys (getModule st pkg mname).1.modules).Nodup := by
    rcases hh : alookup st.modules (makeRef [pkg.ref, mname]) with _ | m
    · have h1 : getModule st pkg mname =
          ({ st with
             modules := aupdate st.modules (makeRef [pkg.ref, mname])
               ⟨makeRef [pkg.ref, mname], mname, [], []⟩,
             packages := aupdate st.packages pkg.ref
               { pkg with modules := pkg.modules ++ [makeRef [pkg.ref, mname]] } },
           (⟨makeRef [pkg.ref, mname], mname, [], []⟩ : Module)) := by
        simp only [getModule, hh]
      refine ⟨?_, ?_, ?_⟩
      · rw [h1]
        simp only [getModule, hpr, alookup_aupdate_self]
      · rw [h1]
        exact akeys_aupdate_count st.modules _ _ hm
      · rw [h1]
        exact akeys_aupdate_nodup st.modules _ _ hm
    · have h1 : getModule st pkg mname = (st, m) := by
        simp only [getModule, hh]
      refine ⟨?_, ?_, ?_⟩
      · rw [h1]; simp only [getModule, hpr, hh]
      · rw [h1]
        exact List.count_eq_one_of_mem hm (alookup_some_mem hh)
      · rw [h1]; exact hm
  exact ⟨hpkg.1, hmod.1, ⟨hpkg.2.1, hpkg.2.2⟩, ⟨hmod.2.1, hmod.2.2⟩,
    akeys_aupdate_count st.models mref model hmd,
    akeys_aupdate_nodup st.models mref model hmd⟩

/-- Claim C9 witness: the memoization properties instantiated on a
concrete one-package state. -/
theorem c9_memoized_lookups_witness :
    ((akeys ([("core", (⟨"core", []⟩ : Package))] :
        List (String × Package))).Nodup) ∧
    (getPackage (getPackage ⟨[("core", ⟨"core", []⟩)], [], []⟩ "core").1
        "core" =
      getPackage ⟨[("core", ⟨"core", []⟩)], [], []⟩ "core") := by
  refine ⟨by decide, ?_⟩
  exact (c9_memoized_lookups ⟨[("core", ⟨"core", []⟩)], [], []⟩ "core" "v1"
    ⟨"core", []⟩ ⟨"core", []⟩ "m" ⟨"m", ⟨"M", "", [], []⟩⟩
    (by decide) (by decide) (by decide) rfl).1

/-- Claim C7: after the resolve phase (and hence in the final `parse`
output, whose model registry the sort phase does not touch), every
Field's type slot holds either a Primitive descriptor or a resolved Model
reference — no Field's type slot remains a raw marker. -/
theorem c7_resolution_totality {input : List (String × RawDefinition)}
    {st : ParserState} (h : parse input = Except.ok st) :
    ∀ e ∈ st.models, ∀ f ∈ e.2.definition.fields,
      ((∃ n, f.type = TypeSlot.primitive n) ∨
        (∃ r, f.type = TypeSlot.modelRef r)) ∧
      (∀ t, f.type ≠ TypeSlot.raw t) := by
  cases hpm : parseModels input with
  | error e =>
    rw [parse, hpm] at h
    cases h
  | ok st0 =>
    cases hrr : resolveReferences st0 with
    | error e =>
      simp only [parse, hpm, hrr] at h
      cases h
    | ok st1 =>
      simp only [parse, hpm, hrr] at h
      have hst : st = sortPhase st1 := by
        injection h with hx
        exact hx.symm
      have hwb0 := parseModels_wellBuilt hpm
      obtain ⟨_, _, _, _, hres⟩ := resolveReferences_resolved hwb0 hrr
      intro e he f hf
      have hmem : e ∈ st1.models := by
        have : st.models = st1.models := by
          rw [hst, sortPhase_models]
        rw [← this]
        exact he
      have hr := hres e hmem f hf
      cases hft : f.type with
      | raw t =>
        rw [hft] at hr
        cases hr
      | primitive n =>
        exact ⟨Or.inl ⟨n, rfl⟩, by intro t ht; cases ht⟩
      | modelRef r =>
        exact ⟨Or.inr ⟨r, rfl⟩, by intro t ht; cases ht⟩

/-- Claim C7 witness: instantiated on the concrete round-trip input. -/
theorem c7_resolution_totality_witness :
    ∃ st, parse podInput = Except.ok st ∧
      ∀ e ∈ st.models, ∀ f ∈ e.2.definition.fields,
        ((∃ n, f.type = TypeSlot.primitive n) ∨
          (∃ r, f.type = TypeSlot.modelRef r)) ∧
        (∀ t, f.type ≠ TypeSlot.raw t) := by
  have hok : (parse podInput).toOption.isSome = true := by decide
  rcases hp : parse podInput with e | st
  · rw [hp] at hok
    cases hok
  · exact ⟨st, rfl, fun e he f hf => c7_resolution_totality hp e he f hf⟩

theorem mem_sameModuleDeps {mref : String} {fields : List Field}
    {d : String} :
    d ∈ sameModuleDeps mref fields ↔
      ∃ f ∈ fields, f.type = TypeSlot.modelRef d ∧
        parentRef d = parentRef mref := by
  constructor
  · intro h
    obtain ⟨f, hf, hval⟩ := List.mem_filterMap.mp h
    cases hft : f.type with
    | raw t =>
      simp only [hft] at hval
      cases hval
    | primitive t =>
      simp only [hft] at hval
      cases hval
    | modelRef r =>
      simp only [hft] at hval
      by_cases hp : parentRef r = parentRef mref
      · rw [if_pos hp] at hval
        injection hval with he
        subst he
        exact ⟨f, hf, hft, hp⟩
      · rw [if_neg hp] at hval
        cases hval
  · rintro ⟨f, hf, hft, hp⟩
    refine List.mem_filterMap.mpr ⟨f, hf, ?_⟩
    simp only [hft]
    rw [if_pos hp]

theorem akeys_modelDepPairs (st : ParserState) (models : List String) :
    akeys (modelDepPairs st models) = models := by
  induction models with
  | nil => rfl
  | cons x xs ih =>
    show x :: akeys (modelDepPairs st xs) = x :: xs
    rw [ih]

theorem sortModels_topo (st : ParserState) (k : String)
    (models : List String) (rank : String → Nat)
    (hrank : ∀ mref model, alookup st.models mref = some model →
      parentRef mref = k →
      ∀ n ∈ sameModuleDeps model.ref model.definition.fields,
        rank n < rank model.ref)
    (hml : ModuleListOk st.models k models) :
    ModuleListOk st.models k (sortModels (modelDepPairs st models)) ∧
    TopoSorted st.models (sortModels (modelDepPairs st models)) := by
  have hpr2 : ∀ pr ∈ modelDepPairs st models,
      (pr.1 ∈ models ∧ parentRef pr.1 = k) ∧
      (∃ model, alookup st.models pr.1 = some model ∧ model.ref = pr.1 ∧
        pr.2 = sameModuleDeps model.ref model.definition.fields) ∧
      ∀ d ∈ pr.2, d ∈ models := by
    intro pr hpr
    obtain ⟨mref, hm, hpreq⟩ := List.mem_map.mp hpr
    obtain ⟨hpk, model, hlk, href, hcl⟩ := hml mref hm
    have hp2 : (match alookup st.models mref with
        | some m => sameModuleDeps m.ref m.definition.fields
        | none => ([] : List String)) =
        sameModuleDeps model.ref model.definition.fields := by
      rw [hlk]
    subst hpreq
    refine ⟨⟨hm, hpk⟩, ⟨model, hlk, href, hp2⟩, ?_⟩
    intro d hd
    refine hcl d ?_
    have hd2 := hd
    rw [show ((mref, match alookup st.models mref with
        | some m => sameModuleDeps m.ref m.definition.fields
        | none => ([] : List String))).2 =
        sameModuleDeps model.ref model.definition.fields from hp2] at hd2
    exact hd2
  have hprank : ∀ pr ∈ modelDepPairs st models, ∀ d ∈ pr.2,
      rank d < rank pr.1 := by
    intro pr hpr d hd
    obtain ⟨⟨hm, hpk0⟩, ⟨model, hlk, href, hdeq⟩, _⟩ := hpr2 pr hpr
    rw [hdeq] at hd
    have hlt := hrank pr.1 model hlk hpk0 d hd
    rw [href] at hlt
    exact hlt
  have hsub1 : ∀ x ∈ akeys (buildNodes (modelDepPairs st models)),
      x ∈ models := by
    intro x hx
    obtain ⟨pr, hpr, hor⟩ := buildNodes_keys_origin _ x hx
    obtain ⟨⟨hm, _⟩, _, hcl⟩ := hpr2 pr hpr
    rcases hor with h1 | h1
    · rw [h1]
      exact hm
    · exact hcl x h1
  have hsub2 : ∀ mref ∈ models,
      mref ∈ akeys (buildNodes (modelDepPairs st models)) := by
    intro mref hm
    exact buildNodes_keys_pairs _ _ (List.mem_map.mpr ⟨mref, hm, rfl⟩)
  have hcomp := sortModels_complete (modelDepPairs st models) rank hprank
  have hmodsub : ∀ mref ∈ models,
      mref ∈ sortModels (modelDepPairs st models) :=
    fun mref hm => hcomp mref (hsub2 mref hm)
  obtain ⟨⟨hnd, hmem, hord⟩, hres⟩ :=
    sortModels_spec (modelDepPairs st models)
  have hout_sub : ∀ x ∈ sortModels (modelDepPairs st models),
      x ∈ models :=
    fun x hx => hsub1 x (hmem x hx)
  constructor
  · intro mref hm
    obtain ⟨hpk, model, hlk, href, hcl⟩ := hml mref (hout_sub mref hm)
    exact ⟨hpk, model, hlk, href, fun d hd => hmodsub d (hcl d hd)⟩
  · refine ⟨hnd, ?_⟩
    intro mref hm model hlk n hn
    have hmm := hout_sub mref hm
    obtain ⟨hpk, model0, hlk0, href0, hcl0⟩ := hml mref hmm
    have hmeq : model0 = model := by
      have h2 := hlk0
      rw [hlk] at h2
      injection h2 with hx
      exact hx.symm
    have hnin : n ∈ sortModels (modelDepPairs st models) := by
      refine hmodsub n (hcl0 n ?_)
      rw [hmeq]
      exact hn
    have hpin : (mref, sameModuleDeps model.ref model.definition.fields) ∈
        modelDepPairs st models := by
      refine List.mem_map.mpr ⟨mref, hmm, ?_⟩
      show (mref, match alookup st.models mref with
        | some m => sameModuleDeps m.ref m.definition.fields
        | none => ([] : List String)) =
        (mref, sameModuleDeps model.ref model.definition.fields)
      rw [hlk]
    obtain ⟨ds, hds, hnds⟩ :=
      buildNodes_pair_edges (modelDepPairs st models)
        (mref, sameModuleDeps model.ref model.definition.fields) hpin n hn
    have hilt : (sortModels (modelDepPairs st models)).indexOf mref <
        (sortModels (modelDepPairs st models)).length :=
      List.indexOf_lt_length.mpr hm
    have hget : (sortModels (modelDepPairs st models)).get
        ⟨(sortModels (modelDepPairs st models)).indexOf mref, hilt⟩ =
        mref :=
      List.indexOf_get hilt
    obtain ⟨j, hji, hjg⟩ := hord
      ⟨(sortModels (modelDepPairs st models)).indexOf mref, hilt⟩ ds
      (by rw [hget]; exact hds) n hnds
    have hnlt : (sortModels (modelDepPairs st models)).indexOf n <
        (sortModels (modelDepPairs st models)).length :=
      List.indexOf_lt_length.mpr hnin
    have hgn : (sortModels (modelDepPairs st models)).get
        ⟨(sortModels (modelDepPairs st models)).indexOf n, hnlt⟩ = n :=
      List.indexOf_get hnlt
    have hjj : (⟨(sortModels (modelDepPairs st models)).indexOf n, hnlt⟩ :
        Fin (sortModels (modelDepPairs st models)).length) = j := by
      apply (List.Nodup.get_inj_iff hnd).mp
      rw [hgn, hjg]
    refine ⟨hnin, ?_⟩
    have hje : (sortModels (modelDepPairs st models)).indexOf n = j.1 := by
      rw [← hjj]
    rw [hje]
    exact hji

theorem foldl_sortModule_keeps_topo (rank : String → Nat) :
    ∀ (l : List String) (acc : ParserState) (k : String),
      (∀ mref model, alookup acc.models mref = some model →
        parentRef mref = k →
        ∀ n ∈ sameModuleDeps model.ref model.definition.fields,
          rank n < rank model.ref) →
      (∀ md, alookup acc.modules k = some md →
        ModuleListOk acc.models k md.models ∧
        TopoSorted acc.models md.models) →
      ∀ md, alookup (l.foldl sortModule acc).modules k = some md →
        ModuleListOk acc.models k md.models ∧
        TopoSorted acc.models md.models := by
  intro l
  induction l with
  | nil =>
    intro acc k hrank h
    exact h
  | cons mr rest ih =>
    intro acc k hrank h
    rw [List.foldl_cons]
    have hmeq : (sortModule acc mr).models = acc.models :=
      sortModule_models acc mr
    have hstep : ∀ md, alookup (sortModule acc mr).modules k = some md →
        ModuleListOk (sortModule acc mr).models k md.models ∧
        TopoSorted (sortModule acc mr).models md.models := by
      intro md hmd
      rw [hmeq]
      by_cases hke : k = mr
      · subst hke
        cases hacc : alookup acc.modules k with
        | none =>
          simp only [sortModule, hacc] at hmd
          cases hmd
        | some md0 =>
          rw [sortModule_lookup_self hacc] at hmd
          injection hmd with hx
          rw [← hx]
          exact sortModels_topo acc k md0.models rank hrank (h md0 hacc).1
      · rw [sortModule_lookup_other acc mr k hke] at hmd
        exact h md hmd
    intro md hmd
    have h2 := ih (sortModule acc mr) k (by rw [hmeq]; exact hrank) hstep
      md hmd
    rw [hmeq] at h2
    exact h2

theorem foldl_sortModule_keeps_mlok (rank : String → Nat) :
    ∀ (l : List String) (acc : ParserState) (k : String),
      (∀ mref model, alookup acc.models mref = some model →
        parentRef mref = k →
        ∀ n ∈ sameModuleDeps model.ref model.definition.fields,
          rank n < rank model.ref) →
      (∀ md, alookup acc.modules k = some md →
        ModuleListOk acc.models k md.models) →
      ∀ md, alookup (l.foldl sortModule acc).modules k = some md →
        ModuleListOk acc.models k md.models := by
  intro l
  induction l with
  | nil =>
    intro acc k hrank h
    exact h
  | cons mr rest ih =>
    intro acc k hrank h
    rw [List.foldl_cons]
    have hmeq : (sortModule acc mr).models = acc.models :=
      sortModule_models acc mr
    have hstep : ∀ md, alookup (sortModule acc mr).modules k = some md →
        ModuleListOk (sortModule acc mr).models k md.models := by
      intro md hmd
      rw [hmeq]
      by_cases hke : k = mr
      · subst hke
        cases hacc : alookup acc.modules k with
        | none =>
          simp only [sortModule, hacc] at hmd
          cases hmd
        | some md0 =>
          rw [sortModule_lookup_self hacc] at hmd
          injection hmd with hx
          rw [← hx]
          exact (sortModels_topo acc k md0.models rank hrank
            (h md0 hacc)).1
      · rw [sortModule_lookup_other acc mr k hke] at hmd
        exact h md hmd
    intro md hmd
    have h2 := ih (sortModule acc mr) k (by rw [hmeq]; exact hrank) hstep
      md hmd
    rw [hmeq] at h2
    exact h2

theorem foldl_sortModule_topo_of_mem (rank : String → Nat) :
    ∀ (l : List String) (acc : ParserState) (k : String), k ∈ l →
      (∀ mref model, alookup acc.models mref = some model →
        parentRef mref = k →
        ∀ n ∈ sameModuleDeps model.ref model.definition.fields,
          rank n < rank model.ref) →
      (∀ md, alookup acc.modules k = some md →
        ModuleListOk acc.models k md.models) →
      ∀ md, alookup (l.foldl sortModule acc).modules k = some md →
        ModuleListOk acc.models k md.models ∧
        TopoSorted acc.models md.models := by
  intro l
  induction l with
  | nil =>
    intro acc k hk
    cases hk
  | cons mr rest ih =>
    intro acc k hk hrank h
    rw [List.foldl_cons]
    have hmeq : (sortModule acc mr).models = acc.models :=
      sortModule_models acc mr
    by_cases hke : k = mr
    · subst hke
      have hstep : ∀ md1, alookup (sortModule acc k).modules k = some md1 →
          ModuleListOk (sortModule acc k).models k md1.models ∧
          TopoSorted (sortModule acc k).models md1.models := by
        intro md1 hmd1
        rw [hmeq]
        cases hacc : alookup acc.modules k with
        | none =>
          simp only [sortModule, hacc] at hmd1
          cases hmd1
        | some md0 =>
          rw [sortModule_lookup_self hacc] at hmd1
          injection hmd1 with hx
          rw [← hx]
          exact sortModels_topo acc k md0.models rank hrank (h md0 hacc)
      intro md hmd
      have h2 := foldl_sortModule_keeps_topo rank rest (sortModule acc k) k
        (by rw [hmeq]; exact hrank) hstep md hmd
      rw [hmeq] at h2
      exact h2
    · rcases List.mem_cons.mp hk with h1 | h2
      · exact absurd h1 hke
      · intro md hmd
        have h3 := ih (sortModule acc mr) k h2 (by rw [hmeq]; exact hrank)
          (by
            intro md1 hmd1
            rw [hmeq]
            rw [sortModule_lookup_other acc mr k hke] at hmd1
            exact h md1 hmd1) md hmd
        rw [hmeq] at h3
        exact h3

theorem foldl_packages_keeps_topo (rank : String → Nat) :
    ∀ (pk : List (String × Package)) (acc : ParserState) (k : String),
      (∀ mref model, alookup acc.models mref = some model →
        parentRef mref = k →
        ∀ n ∈ sameModuleDeps model.ref model.definition.fields,
          rank n < rank model.ref) →
      (∀ md, alookup acc.modules k = some md →
        ModuleListOk acc.models k md.models ∧
        TopoSorted acc.models md.models) →
      ∀ md, alookup (pk.foldl (fun acc2 kv =>
          kv.2.modules.foldl sortModule acc2) acc).modules k = some md →
        ModuleListOk acc.models k md.models ∧
        TopoSorted acc.models md.models := by
  intro pk
  induction pk with
  | nil =>
    intro acc k hrank h
    exact h
  | cons p ps ih =>
    intro acc k hrank h
    rw [List.foldl_cons]
    have hmeq : (p.2.modules.foldl sortModule acc).models = acc.models :=
      foldl_sortModule_models p.2.modules acc
    intro md hmd
    have h2 := ih (p.2.modules.foldl sortModule acc) k
      (by rw [hmeq]; exact hrank)
      (by
        intro md1 hmd1
        rw [hmeq]
        exact foldl_sortModule_keeps_topo rank p.2.modules acc k hrank h
          md1 hmd1) md hmd
    rw [hmeq] at h2
    exact h2

theorem foldl_packages_topo (rank : String → Nat) :
    ∀ (pk : List (String × Package)) (acc : ParserState) (k : String),
      (∃ p ∈ pk, k ∈ p.2.modules) →
      (∀ mref model, alookup acc.models mref = some model →
        parentRef mref = k →
        ∀ n ∈ sameModuleDeps model.ref model.definition.fields,
          rank n < rank model.ref) →
      (∀ md, alookup acc.modules k = some md →
        ModuleListOk acc.models k md.models) →
      ∀ md, alookup (pk.foldl (fun acc2 kv =>
          kv.2.modules.foldl sortModule acc2) acc).modules k = some md →
        ModuleListOk acc.models k md.models ∧
        TopoSorted acc.models md.models := by
  intro pk
  induction pk with
  | nil =>
    intro acc k hcov
    obtain ⟨p, hp, _⟩ := hcov
    cases hp
  | cons p ps ih =>
    intro acc k hcov hrank h
    rw [List.foldl_cons]
    have hmeq : (p.2.modules.foldl sortModule acc).models = acc.models :=
      foldl_sortModule_models p.2.modules acc
    obtain ⟨q, hq, hkq⟩ := hcov
    rcases List.mem_cons.mp hq with h1 | h2
    · intro md hmd
      have h2 := foldl_packages_keeps_topo rank ps
        (p.2.modules.foldl sortModule acc) k
        (by rw [hmeq]; exact hrank)
        (by
          intro md1 hmd1
          rw [hmeq]
          subst h1
          exact foldl_sortModule_topo_of_mem rank q.2.modules acc k hkq
            hrank h md1 hmd1) md hmd
      rw [hmeq] at h2
      exact h2
    · intro md hmd
      have h3 := ih (p.2.modules.foldl sortModule acc) k ⟨q, h2, hkq⟩
        (by rw [hmeq]; exact hrank)
        (by
          intro md1 hmd1
          rw [hmeq]
          exact foldl_sortModule_keeps_mlok rank p.2.modules acc k hrank h
            md1 hmd1) md hmd
      rw [hmeq] at h3
      exact h3

theorem wellBuilt_moduleListOk {st : ParserState} (hwb : WellBuilt st)
    (hmo : ModelsOk st) :
    ∀ k md, alookup st.modules k = some md →
      ModuleListOk st.models k md.models := by
  intro k md hk mref hm
  have hmem : (k, md) ∈ st.modules := alookup_mem hk
  have hmodcl := hwb.2.2.1 (k, md) hmem
  obtain ⟨hmm, hpk⟩ := hmodcl.2.2 mref hm
  refine ⟨hpk, ?_⟩
  have hlk : ∃ model, alookup st.models mref = some model := by
    cases hh : alookup st.models mref with
    | none => exact absurd hmm ((alookup_none_iff _ _).mp hh)
    | some m => exact ⟨m, rfl⟩
  obtain ⟨model, hlkm⟩ := hlk
  have hmodelmem : (mref, model) ∈ st.models := alookup_mem hlkm
  have href : model.ref = mref := (hwb.2.2.2 (mref, model) hmodelmem).1.1
  refine ⟨model, hlkm, href, ?_⟩
  intro d hd
  obtain ⟨f, hf, hft, hpd⟩ := mem_sameModuleDeps.mp hd
  have hdreg : d ∈ akeys st.models :=
    ((hmo (mref, model) hmodelmem).2 f hf).2 d hft
  have hdl : ∃ modeld, alookup st.models d = some modeld := by
    cases hh : alookup st.models d with
    | none => exact absurd hdreg ((alookup_none_iff _ _).mp hh)
    | some m => exact ⟨m, rfl⟩
  obtain ⟨modeld, hdlk⟩ := hdl
  obtain ⟨m, hmmem, hdm⟩ := (hwb.2.2.2 (d, modeld) (alookup_mem hdlk)).2
  have hdpm : parentRef d = m.1 := ((hwb.2.2.1 m hmmem).2.2 d hdm).2
  have hpkd : parentRef d = k := by
    rw [href] at hpd
    rw [hpd]
    exact hpk
  have hm1k : m.1 = k := by
    rw [hdpm] at hpkd
    exact hpkd
  have hmlk : alookup st.modules m.1 = some m.2 :=
    alookup_of_mem_nodup hwb.1.2.1
      (by rcases m with ⟨ma, mb⟩; exact hmmem)
  rw [hm1k] at hmlk
  rw [hk] at hmlk
  injection hmlk with hx
  rw [hx]
  exact hdm

/-- Claim C2: for every module of the `parse` output whose same-module
field references are acyclic (witnessed by a rank function that decreases
along every same-module reference of that module; cross-module references
are left completely unconstrained by the hypothesis), the module's final
model sequence is duplicate-free and, for every field of a listed model
whose resolved type is a Model of the same module, the referenced model's
position in the sequence is strictly before the referencing model's. -/
theorem c2_same_module_topological_order
    {input : List (String × RawDefinition)} {stf : ParserState}
    (h : parse input = Except.ok stf) (k : String) (md : Module)
    (hk : alookup stf.modules k = some md) (rank : String → Nat)
    (hrank : ∀ e ∈ stf.models, parentRef e.1 = k →
      ∀ n ∈ sameModuleDeps e.2.ref e.2.definition.fields,
        rank n < rank e.2.ref) :
    md.models.Nodup ∧
    ∀ mref ∈ md.models, ∀ model, alookup stf.models mref = some model →
      ∀ f ∈ model.definition.fields, ∀ n,
        f.type = TypeSlot.modelRef n →
        parentRef n = parentRef model.ref →
        n ∈ md.models ∧
        md.models.indexOf n < md.models.indexOf mref := by
  cases hpm : parseModels input with
  | error e =>
    simp only [parse, hpm] at h
    cases h
  | ok st0 =>
    cases hres : resolveReferences st0 with
    | error e =>
      simp only [parse, hpm, hres] at h
      cases h
    | ok st1 =>
      simp only [parse, hpm, hres] at h
      have hstf : stf = sortPhase st1 := by
        injection h with hx
        exact hx.symm
      subst hstf
      have hwb := parseModels_wellBuilt hpm
      have hmo := parseModels_modelsOk hpm
      have hai := parseModels_allImportsOk hpm
      obtain ⟨hmo1, hai1⟩ := resolveReferences_imports hwb hmo hai hres
      have hwb1 : WellBuilt st1 := (resolveReferences_resolved hwb hres).1
      have hmodels : (sortPhase st1).models = st1.models :=
        sortPhase_models st1
      have hrank1 : ∀ mref model, alookup st1.models mref = some model →
          parentRef mref = k →
          ∀ n ∈ sameModuleDeps model.ref model.definition.fields,
            rank n < rank model.ref := by
        intro mref model hlk hpk n hn
        have hmem : (mref, model) ∈ (sortPhase st1).models := by
          rw [hmodels]
          exact alookup_mem hlk
        exact hrank (mref, model) hmem hpk n hn
      have hinit := wellBuilt_moduleListOk hwb1 hmo1
      obtain ⟨md1, hk1, _⟩ := sortPhase_imports_perm st1 k md hk
      have hcov : ∃ p ∈ st1.packages, k ∈ p.2.modules :=
        (hwb1.2.2.1 (k, md1) (alookup_mem hk1)).2.1
      have hmain := foldl_packages_topo rank st1.packages st1 k hcov hrank1
        (fun md0 hmd0 => hinit k md0 hmd0) md hk
      refine ⟨hmain.2.1, ?_⟩
      intro mref hm model hlkf f hf n hft hpn
      have hlk1 : alookup st1.models mref = some model := by
        rw [← hmodels]
        exact hlkf
      have hn : n ∈ sameModuleDeps model.ref model.definition.fields :=
        mem_sameModuleDeps.mpr ⟨f, hf, hft, hpn⟩
      exact hmain.2.2 mref hm model hlk1 n hn

/-- Claim C2 witness: on the round-trip input, module `core.v1` has the
same-module reference `Pod → PodSpec`, ranks `PodSpec ↦ 0, Pod ↦ 1`
certify acyclicity, and the final sequence places `PodSpec` strictly
before `Pod`. -/
theorem c2_same_module_topological_order_witness :
    parse podInput = Except.ok podSt ∧
    (["core.v1.PodSpec", "core.v1.Pod"].Nodup ∧
     ∀ mref ∈ ["core.v1.PodSpec", "core.v1.Pod"], ∀ model,
       alookup podSt.models mref = some model →
       ∀ f ∈ model.definition.fields, ∀ n,
         f.type = TypeSlot.modelRef n →
         parentRef n = parentRef model.ref →
         n ∈ ["core.v1.PodSpec", "core.v1.Pod"] ∧
         (["core.v1.PodSpec", "core.v1.Pod"] : List String).indexOf n <
           (["core.v1.PodSpec", "core.v1.Pod"] : List String).indexOf
             mref) :=
  ⟨by decide,
   @c2_same_module_topological_order podInput podSt (by decide) "core.v1"
     ⟨"core.v1", "v1", [], ["core.v1.PodSpec", "core.v1.Pod"]⟩ (by decide)
     (fun r => if r = "core.v1.Pod" then 1 else 0) (by decide)⟩

end K8sGen





